import Mathlib

/-!
Verification development for the TF-engine transform-tree library.

The embedding models the TypeScript sources over exact rational arithmetic:

* `Vec3`, `Quaternion`, `Transform` follow `src/math/Vec3.ts`,
  `Quaternion.ts` and `Transform.ts` (gl-matrix backed);
* `TFTree` follows `src/src/TFTree.ts` (frames map, dirty set, world
  transform cache, children map, all mutators and queries);
* `CoreTFTree` follows `packages/core/src/TFTree.ts` (frames map, children
  map, change listeners; the Rust/WASM backend's stale-id contract is
  modelled from its declared interface);
* `TransformBuffer` and `BufferedTFTree` follow
  `packages/core/src/BufferedTFTree.ts`.

JavaScript `Map`/`Set` values are modelled as insertion-ordered association
lists; `Map.set` overwrites in place, `Set.add` appends when absent, matching
the iteration-order semantics of the originals.  Scalars are `ℚ`: the claims
under study are either exact-arithmetic statements that imply the float
versions within epsilon, or structural statements independent of rounding.
Loops whose termination relies on the graph invariants are given explicit
fuel; fuel exhaustion is a dedicated error value and is proved unreachable
on well-formed states.
-/

namespace TFE

/-- 3-component vector, from `src/src/math/Vec3.ts` (immutable, backed by
gl-matrix `vec3`). -/
structure Vec3 where
  x : ℚ
  y : ℚ
  z : ℚ
deriving DecidableEq, Repr

namespace Vec3

/-- `Vec3.zero()`. -/
def zero : Vec3 := ⟨0, 0, 0⟩

/-- `Vec3.add` (gl-matrix `vec3.add`, component-wise). -/
def add (a b : Vec3) : Vec3 := ⟨a.x + b.x, a.y + b.y, a.z + b.z⟩

/-- `Vec3.subtract` (gl-matrix `vec3.subtract`, component-wise). -/
def subtract (a b : Vec3) : Vec3 := ⟨a.x - b.x, a.y - b.y, a.z - b.z⟩

/-- `Vec3.scale` (gl-matrix `vec3.scale`, component-wise). -/
def scale (a : Vec3) (s : ℚ) : Vec3 := ⟨a.x * s, a.y * s, a.z * s⟩

/-- Negation, `v.scale(-1)`; used to express the rigid inverse. -/
def neg (a : Vec3) : Vec3 := ⟨-a.x, -a.y, -a.z⟩

/-- `Vec3.dot` (gl-matrix `vec3.dot`). -/
def dot (a b : Vec3) : ℚ := a.x * b.x + a.y * b.y + a.z * b.z

/-- `Vec3.cross` (gl-matrix `vec3.cross`). -/
def cross (a b : Vec3) : Vec3 :=
  ⟨a.y * b.z - a.z * b.y, a.z * b.x - a.x * b.z, a.x * b.y - a.y * b.x⟩

/-- Modelled from the spec: `Vec3.lerp` — the file
`packages/core/src/math/Vec3.ts` is not under `src/`; the spec (§4.A) states
"Vec3 `lerp` is component-wise linear" and the unit tests pin
`a.lerp(b, 0.5)` to the midpoint.  gl-matrix `vec3.lerp` computes
`a + (b − a)·t` component-wise. -/
def lerp (a b : Vec3) (t : ℚ) : Vec3 :=
  ⟨a.x + (b.x - a.x) * t, a.y + (b.y - a.y) * t, a.z + (b.z - a.z) * t⟩

end Vec3

/-- Unit quaternion `(x, y, z, w)`, from `src/math/Quaternion.ts`
(gl-matrix convention). -/
structure Quaternion where
  x : ℚ
  y : ℚ
  z : ℚ
  w : ℚ
deriving DecidableEq, Repr

namespace Quaternion

/-- `Quaternion.identity()` — `(0, 0, 0, 1)`. -/
def identity : Quaternion := ⟨0, 0, 0, 1⟩

/-- `Quaternion.multiply` — the Hamilton product `this × other`, exactly the
gl-matrix `quat.multiply` component formulas. -/
def multiply (a b : Quaternion) : Quaternion :=
  ⟨a.x * b.w + a.w * b.x + a.y * b.z - a.z * b.y,
   a.y * b.w + a.w * b.y + a.z * b.x - a.x * b.z,
   a.z * b.w + a.w * b.z + a.x * b.y - a.y * b.x,
   a.w * b.w - a.x * b.x - a.y * b.y - a.z * b.z⟩

/-- Quaternion conjugate.  For the unit quaternions of the data model this is
the rotation inverse; it is the rotation part of the inverse of the rigid
matrix `glMat4.invert` computes in `Transform.invert`. -/
def conjugate (a : Quaternion) : Quaternion := ⟨-a.x, -a.y, -a.z, a.w⟩

/-- Squared norm `x² + y² + z² + w²`. -/
def norm2 (a : Quaternion) : ℚ := a.x * a.x + a.y * a.y + a.z * a.z + a.w * a.w

/-- The data-model constraint of spec §3: rotations are unit quaternions. -/
def IsUnit (a : Quaternion) : Prop := norm2 a = 1

instance (a : Quaternion) : Decidable (IsUnit a) := by
  unfold IsUnit; infer_instance

/-- The vector part of a quaternion. -/
def vecPart (a : Quaternion) : Vec3 := ⟨a.x, a.y, a.z⟩

/-- `Quaternion.rotateVec3` — gl-matrix `vec3.transformQuat`:
`v + 2w·(u × v) + 2·(u × (u × v))` with `u` the vector part.  This is exactly
the polynomial the 3×3 block of `mat4.fromRotationTranslation` applies, so it
is also how every matrix-mediated operation of `Transform` moves points. -/
def rotateVec3 (q : Quaternion) (v : Vec3) : Vec3 :=
  let u : Vec3 := vecPart q
  let uv : Vec3 := u.cross v
  let uuv : Vec3 := u.cross uv
  (v.add (uv.scale (2 * q.w))).add (uuv.scale 2)

/-- Negation of all four components; `q` and `−q` denote the same rotation. -/
def negQ (a : Quaternion) : Quaternion := ⟨-a.x, -a.y, -a.z, -a.w⟩

/-- Quaternion dot product (used by `slerp` for shortest-arc handling and by
`Quaternion.equals`). -/
def dotQ (a b : Quaternion) : ℚ := a.x * b.x + a.y * b.y + a.z * b.z + a.w * b.w

/-- Modelled from the spec: `Quaternion.slerp` — the file
`packages/core/src/math/Quaternion.ts` is not under `src/`.  Spec §4.A:
"Quaternion `slerp` uses shortest-arc (negate one operand if dot < 0)".  The
spherical weights `sin((1−t)Ω)/sin Ω` are not rational-valued, so the
interpolation weights are modelled linearly (`(1−t)·a + t·b'`), which agrees
with SLERP at `t = 0`, `t = 1`, and whenever the two endpoints coincide —
the only inputs at which the claims below evaluate it (gl-matrix itself
falls back to exactly this linear blend for nearly parallel endpoints). -/
def slerp (a b : Quaternion) (t : ℚ) : Quaternion :=
  let b' := if dotQ a b < 0 then negQ b else b
  ⟨a.x + (b'.x - a.x) * t, a.y + (b'.y - a.y) * t,
   a.z + (b'.z - a.z) * t, a.w + (b'.w - a.w) * t⟩

end Quaternion

/-- Rigid-body transform (translation + rotation), from
`src/math/Transform.ts`. -/
structure Transform where
  translation : Vec3
  rotation : Quaternion
deriving DecidableEq, Repr

namespace Transform

/-- `Transform.identity()`. -/
def identity : Transform := ⟨Vec3.zero, Quaternion.identity⟩

/-- `Transform.compose` — the source multiplies the two column-major TRS
matrices (`glMat4.multiply`) and decomposes back.  For the rigid matrices
`fromRotationTranslation` builds, the translation column of the product is
exactly `t₁ + R(q₁)·t₂` (a polynomial identity, captured here verbatim), and
the decomposed rotation is the Hamilton product `q₁ ⊗ q₂` up to quaternion
sign for unit rotations (the library's own `Quaternion.equals` identifies
`q` and `−q`). -/
def compose (a b : Transform) : Transform :=
  ⟨a.translation.add (Quaternion.rotateVec3 a.rotation b.translation),
   a.rotation.multiply b.rotation⟩

/-- `Transform.invert` — the source inverts the 4×4 TRS matrix with
`glMat4.invert` and decomposes.  For the rigid matrix of a unit rotation the
inverse is the rigid matrix of `(R⁻¹·(−t), q̄)`, captured here directly. -/
def invert (a : Transform) : Transform :=
  ⟨Quaternion.rotateVec3 (Quaternion.conjugate a.rotation) a.translation.neg,
   Quaternion.conjugate a.rotation⟩

/-- `Transform.transformPoint` — the source multiplies the TRS matrix with
`(p, 1)`; the result is exactly `R(q)·p + t`, i.e. rotate then translate. -/
def transformPoint (a : Transform) (p : Vec3) : Vec3 :=
  (Quaternion.rotateVec3 a.rotation p).add a.translation

end Transform

/-! ### Quaternion algebra

Exact component-level facts about the gl-matrix formulas, used to settle the
algebraic claims.  All proofs are polynomial identities (`ring`), with the
unit-norm hypothesis of the data model exactly where rigid-motion structure
is required. -/

namespace Quaternion

theorem multiply_assoc (a b c : Quaternion) :
    multiply (multiply a b) c = multiply a (multiply b c) := by
  simp only [multiply, Quaternion.mk.injEq]
  refine ⟨?_, ?_, ?_, ?_⟩ <;> ring

theorem multiply_identity (a : Quaternion) : multiply a identity = a := by
  cases a
  simp only [multiply, identity, Quaternion.mk.injEq]
  refine ⟨?_, ?_, ?_, ?_⟩ <;> ring

theorem identity_multiply (a : Quaternion) : multiply identity a = a := by
  cases a
  simp only [multiply, identity, Quaternion.mk.injEq]
  refine ⟨?_, ?_, ?_, ?_⟩ <;> ring

/-- `q̄ ⊗ q = (0,0,0,‖q‖²)` — an unconditional polynomial identity. -/
theorem conjugate_multiply_self (q : Quaternion) :
    multiply (conjugate q) q = ⟨0, 0, 0, norm2 q⟩ := by
  simp only [multiply, conjugate, norm2, Quaternion.mk.injEq]
  refine ⟨?_, ?_, ?_, ?_⟩ <;> ring

/-- `q ⊗ q̄ = (0,0,0,‖q‖²)`. -/
theorem multiply_conjugate_self (q : Quaternion) :
    multiply q (conjugate q) = ⟨0, 0, 0, norm2 q⟩ := by
  simp only [multiply, conjugate, norm2, Quaternion.mk.injEq]
  refine ⟨?_, ?_, ?_, ?_⟩ <;> ring

/-- Norm multiplicativity (Euler's four-square identity). -/
theorem norm2_multiply (a b : Quaternion) :
    norm2 (multiply a b) = norm2 a * norm2 b := by
  simp only [multiply, norm2]; ring

theorem norm2_conjugate (a : Quaternion) : norm2 (conjugate a) = norm2 a := by
  simp only [conjugate, norm2]; ring

theorem IsUnit.multiply {a b : Quaternion} (ha : IsUnit a) (hb : IsUnit b) :
    IsUnit (Quaternion.multiply a b) := by
  unfold IsUnit at *
  rw [norm2_multiply, ha, hb]; norm_num

theorem IsUnit.conjugate {a : Quaternion} (ha : IsUnit a) :
    IsUnit (Quaternion.conjugate a) := by
  unfold IsUnit at *
  rw [norm2_conjugate]; exact ha

/-- Embeds a vector as a pure quaternion. -/
def ofVec (v : Vec3) : Quaternion := ⟨v.x, v.y, v.z, 0⟩

/-- The gl-matrix rotation formula versus the quaternion sandwich:
`rotate q v = vec(q ⊗ v ⊗ q̄) + (1 − ‖q‖²)·v`, unconditionally. -/
theorem rotateVec3_eq_sandwich (q : Quaternion) (v : Vec3) :
    rotateVec3 q v =
      (vecPart (multiply (multiply q (ofVec v)) (conjugate q))).add
        (v.scale (1 - norm2 q)) := by
  simp only [rotateVec3, multiply, conjugate, ofVec, vecPart, norm2, Vec3.add,
    Vec3.cross, Vec3.scale, Vec3.mk.injEq]
  refine ⟨?_, ?_, ?_⟩ <;> ring

/-- The sandwich of a pure quaternion is pure. -/
theorem sandwich_w (q : Quaternion) (v : Vec3) :
    (multiply (multiply q (ofVec v)) (conjugate q)).w = 0 := by
  simp only [multiply, conjugate, ofVec]; ring

/-- Rotation by a unit quaternion is the quaternion sandwich. -/
theorem rotateVec3_eq_sandwich_of_unit {q : Quaternion} (hq : IsUnit q)
    (v : Vec3) :
    rotateVec3 q v = vecPart (multiply (multiply q (ofVec v)) (conjugate q)) := by
  rw [rotateVec3_eq_sandwich, hq]
  cases v
  cases q
  simp only [multiply, conjugate, ofVec, vecPart, Vec3.add, Vec3.scale,
    Vec3.mk.injEq]
  refine ⟨?_, ?_, ?_⟩ <;> ring

/-- A pure quaternion is the embedding of its vector part. -/
theorem ofVec_vecPart {p : Quaternion} (hp : p.w = 0) : ofVec (vecPart p) = p := by
  cases p; simp_all [ofVec, vecPart]

theorem conjugate_multiply (a b : Quaternion) :
    conjugate (multiply a b) = multiply (conjugate b) (conjugate a) := by
  simp only [multiply, conjugate, Quaternion.mk.injEq]
  refine ⟨?_, ?_, ?_, ?_⟩ <;> ring

/-- Multiplying by the scalar quaternion `(0,0,0,1)` on the right is the
identity. -/
theorem multiply_scalar_one (a : Quaternion) :
    multiply a ⟨0, 0, 0, 1⟩ = a := by
  cases a
  simp only [multiply, Quaternion.mk.injEq]
  refine ⟨?_, ?_, ?_, ?_⟩ <;> ring

/-- Multiplying by the scalar quaternion `(0,0,0,1)` on the left is the
identity. -/
theorem scalar_one_multiply (a : Quaternion) :
    multiply ⟨0, 0, 0, 1⟩ a = a := by
  cases a
  simp only [multiply, Quaternion.mk.injEq]
  refine ⟨?_, ?_, ?_, ?_⟩ <;> ring

/-- Rotation by a product of unit quaternions composes the rotations. -/
theorem rotateVec3_multiply {a b : Quaternion} (ha : IsUnit a) (hb : IsUnit b)
    (v : Vec3) :
    rotateVec3 (multiply a b) v = rotateVec3 a (rotateVec3 b v) := by
  rw [rotateVec3_eq_sandwich_of_unit (ha.multiply hb),
    rotateVec3_eq_sandwich_of_unit hb, rotateVec3_eq_sandwich_of_unit ha,
    ofVec_vecPart (sandwich_w b v), conjugate_multiply]
  simp only [multiply_assoc]

/-- Rotating by a scalar quaternion `(0,0,0,w)` is the identity map. -/
theorem rotateVec3_scalar (w : ℚ) (v : Vec3) :
    rotateVec3 ⟨0, 0, 0, w⟩ v = v := by
  cases v
  simp only [rotateVec3, vecPart, Vec3.cross, Vec3.add, Vec3.scale,
    Vec3.mk.injEq]
  refine ⟨?_, ?_, ?_⟩ <;> ring

theorem rotateVec3_identity (v : Vec3) : rotateVec3 identity v = v :=
  rotateVec3_scalar 1 v

/-- Rotation is additive in the vector argument. -/
theorem rotateVec3_add (q : Quaternion) (v w : Vec3) :
    rotateVec3 q (v.add w) = (rotateVec3 q v).add (rotateVec3 q w) := by
  simp only [rotateVec3, vecPart, Vec3.cross, Vec3.add, Vec3.scale,
    Vec3.mk.injEq]
  refine ⟨?_, ?_, ?_⟩ <;> ring

theorem rotateVec3_neg (q : Quaternion) (v : Vec3) :
    rotateVec3 q v.neg = (rotateVec3 q v).neg := by
  simp only [rotateVec3, vecPart, Vec3.cross, Vec3.add, Vec3.scale, Vec3.neg,
    Vec3.mk.injEq]
  refine ⟨?_, ?_, ?_⟩ <;> ring

theorem rotateVec3_zero (q : Quaternion) : rotateVec3 q Vec3.zero = Vec3.zero := by
  simp only [rotateVec3, vecPart, Vec3.cross, Vec3.add, Vec3.scale, Vec3.zero,
    Vec3.mk.injEq]
  refine ⟨?_, ?_, ?_⟩ <;> ring

end Quaternion

namespace Transform

/-- The data-model requirement that a transform's rotation is unit. -/
def HasUnitRotation (a : Transform) : Prop := Quaternion.IsUnit a.rotation

theorem HasUnitRotation.compose {a b : Transform} (ha : HasUnitRotation a)
    (hb : HasUnitRotation b) : HasUnitRotation (Transform.compose a b) :=
  Quaternion.IsUnit.multiply ha hb

theorem identity_hasUnitRotation : HasUnitRotation Transform.identity := by
  unfold HasUnitRotation Quaternion.IsUnit Quaternion.norm2 Transform.identity
    Quaternion.identity
  norm_num

/-- The inverse-cancellation identity behind the `getTransform` inverse
property: for transforms with unit rotations,
`(T⁻¹ ∘ U) ∘ (U⁻¹ ∘ T) = identity`. -/
theorem invert_compose_cancel {T U : Transform} (hT : HasUnitRotation T)
    (hU : HasUnitRotation U) :
    compose (compose (invert T) U) (compose (invert U) T) = Transform.identity := by
  cases T with
  | mk t q =>
    cases U with
    | mk u r =>
      unfold HasUnitRotation at hT hU
      simp only [Transform.rotation] at hT hU
      have hcq : Quaternion.IsUnit (Quaternion.conjugate q) := hT.conjugate
      simp only [compose, invert, Transform.identity, Transform.mk.injEq]
      constructor
      · -- translation component
        rw [Quaternion.rotateVec3_add,
          ← Quaternion.rotateVec3_multiply (hcq.multiply hU) hU.conjugate,
          ← Quaternion.rotateVec3_multiply (hcq.multiply hU) hU.conjugate]
        rw [Quaternion.multiply_assoc, Quaternion.multiply_conjugate_self, hU]
        rw [Quaternion.multiply_scalar_one]
        have hz : (Vec3.add (Vec3.add (Vec3.neg t) u) (Vec3.add (Vec3.neg u) t))
            = Vec3.zero := by
          cases t; cases u
          simp only [Vec3.add, Vec3.neg, Vec3.zero, Vec3.mk.injEq]
          refine ⟨?_, ?_, ?_⟩ <;> ring
        simp only [← Quaternion.rotateVec3_add]
        rw [hz, Quaternion.rotateVec3_zero]
      · -- rotation component
        rw [Quaternion.multiply_assoc, ← Quaternion.multiply_assoc r,
          Quaternion.multiply_conjugate_self, hU]
        rw [Quaternion.scalar_one_multiply, Quaternion.conjugate_multiply_self,
          hT]
        rfl

end Transform

/-! ### Errors

The library throws `Error` subclasses with stable messages
(`CycleDetectedError`, `RangeError`, plain `Error`); spec §7 names the error
kinds.  Each kind is a distinct constructor.  `outOfFuel` is an artefact of
the embedding: the source's unguarded walks terminate only on graphs
satisfying the documented invariants, so the embedding runs them on explicit
fuel; fuel exhaustion is proved unreachable for well-formed trees. -/

inductive TFError where
  | duplicateFrame (id : String)
  | parentNotFound (id : String)
  | frameNotFound (id : String)
  | hasChildrenErr (id : String)
  | cycleDetected (id : String)
  | notConnected (a b : String)
  | bufferEmpty
  | outOfRange
  | outOfFuel
deriving DecidableEq, Repr

/-! ### Temporal buffer

`TransformBuffer` from `packages/core/src/BufferedTFTree.ts`: a sorted list
of time-stamped transforms with binary-search insertion and age-based
pruning. -/

/-- `TransformStamped` from `types.ts`. -/
structure TransformStamped where
  timestamp : ℚ
  transform : Transform
deriving DecidableEq, Repr

/-- Placeholder entry used to totalise list indexing; every access is
index-checked by the surrounding control flow exactly as in the source. -/
def defaultStamped : TransformStamped := ⟨0, Transform.identity⟩

/-- The binary-search loop shared by `upperBound` and `lowerBound` (the two
private methods differ only in the comparison applied at `mid`).  `lo`/`hi`
evolve exactly as in the source; the loop halves `hi − lo`, so
`entries.length + 1` fuel always suffices (proved in `bsearch_run`). -/
def bsearch (es : List TransformStamped) (p : TransformStamped → Bool) :
    ℕ → ℕ → ℕ → ℕ
  | 0, lo, _ => lo
  | fuel + 1, lo, hi =>
    if lo < hi then
      let mid := (lo + hi) / 2
      if p (es.getD mid defaultStamped) then bsearch es p fuel (mid + 1) hi
      else bsearch es p fuel lo mid
    else lo

/-- Per-frame sorted buffer of stamped transforms. -/
structure TransformBuffer where
  entries : List TransformStamped
  maxDuration : ℚ
deriving DecidableEq, Repr

namespace TransformBuffer

/-- A freshly constructed buffer (`new TransformBuffer(maxDuration)`). -/
def mkEmpty (maxDuration : ℚ) : TransformBuffer := ⟨[], maxDuration⟩

/-- `upperBound(ts)` — index of the first entry with timestamp strictly
greater than `ts`. -/
def upperBound (b : TransformBuffer) (ts : ℚ) : ℕ :=
  bsearch b.entries (fun e => decide (e.timestamp ≤ ts))
    (b.entries.length + 1) 0 b.entries.length

/-- `lowerBound(ts)` — index of the first entry with timestamp `≥ ts`. -/
def lowerBound (b : TransformBuffer) (ts : ℚ) : ℕ :=
  bsearch b.entries (fun e => decide (e.timestamp < ts))
    (b.entries.length + 1) 0 b.entries.length

/-- `prune(latestTimestamp)` — the source scans from the front while
`entries[i].timestamp < latestTimestamp − maxDuration` and splices off the
scanned prefix, i.e. `dropWhile`. -/
def pruneList (es : List TransformStamped) (latestTimestamp maxDuration : ℚ) :
    List TransformStamped :=
  es.dropWhile (fun e => decide (e.timestamp < latestTimestamp - maxDuration))

/-- `push(entry)` — insert at `upperBound(entry.timestamp)` then prune with
the **pushed** entry's timestamp as `latestTimestamp`. -/
def push (b : TransformBuffer) (entry : TransformStamped) : TransformBuffer :=
  let idx := b.upperBound entry.timestamp
  { b with
    entries := pruneList (b.entries.insertIdx idx entry) entry.timestamp
      b.maxDuration }

/-- Timestamp of the first (oldest, given sortedness) retained entry. -/
def oldestTs (b : TransformBuffer) : ℚ :=
  (b.entries.headD defaultStamped).timestamp

/-- Timestamp of the last (newest, given sortedness) retained entry. -/
def newestTs (b : TransformBuffer) : ℚ :=
  (b.entries.getLastD defaultStamped).timestamp

/-- `interpolateAt(timestamp)` from `packages/core/src/BufferedTFTree.ts`
lines 48–83, branch for branch. -/
def interpolateAt (b : TransformBuffer) (timestamp : ℚ) :
    Except TFError Transform :=
  if b.entries.length = 0 then .error .bufferEmpty
  else
    let oldest := b.oldestTs
    if timestamp < oldest then .error .outOfRange
    else
      let newest := b.newestTs
      if newest ≤ timestamp then
        .ok (b.entries.getLastD defaultStamped).transform
      else
        let hi := b.lowerBound timestamp
        let ehi := b.entries.getD hi defaultStamped
        if ehi.timestamp = timestamp then .ok ehi.transform
        else
          let a := b.entries.getD (hi - 1) defaultStamped
          let t := (timestamp - a.timestamp) / (ehi.timestamp - a.timestamp)
          .ok ⟨a.transform.translation.lerp ehi.transform.translation t,
               a.transform.rotation.slerp ehi.transform.rotation t⟩

/-- Sequential pushes (the only way the library fills a buffer). -/
def pushAll (b : TransformBuffer) (l : List TransformStamped) :
    TransformBuffer :=
  l.foldl push b

end TransformBuffer

/-- The sortedness invariant of the buffer (spec §3: "samples … sorted …
ascending"; ties are permitted transiently by upper-bound insertion). -/
def SortedB (es : List TransformStamped) : Prop :=
  List.Sorted (fun a b => a.timestamp ≤ b.timestamp) es

/-! Binary-search facts. -/

theorem bsearch_le (es : List TransformStamped) (p : TransformStamped → Bool) :
    ∀ fuel lo hi, lo ≤ hi → bsearch es p fuel lo hi ≤ hi := by
  intro fuel
  induction fuel with
  | zero => intro lo hi h; simpa [bsearch] using h
  | succ n ih =>
    intro lo hi h
    simp only [bsearch]
    split
    · split
      · exact Nat.le_trans (ih _ _ (by omega)) (Nat.le_refl _)
      · exact Nat.le_trans (ih _ _ (by omega)) (by omega)
    · exact h

/-- The binary search returns the boundary index `k` whenever the predicate
holds strictly below `k` and fails from `k` on, and the fuel covers the
window width.  This is the loop invariant of the source's `upperBound` /
`lowerBound`. -/
theorem bsearch_run (es : List TransformStamped) (p : TransformStamped → Bool)
    (k : ℕ) (hk : k ≤ es.length)
    (h1 : ∀ i (h : i < es.length), i < k → p (es.get ⟨i, h⟩) = true)
    (h2 : ∀ i (h : i < es.length), k ≤ i → p (es.get ⟨i, h⟩) = false) :
    ∀ fuel lo hi, lo ≤ k → k ≤ hi → hi ≤ es.length → hi - lo ≤ fuel →
      bsearch es p fuel lo hi = k := by
  intro fuel
  induction fuel with
  | zero =>
    intro lo hi hlo hhi _ hf
    simp only [bsearch]
    omega
  | succ n ih =>
    intro lo hi hlo hhi hle hf
    simp only [bsearch]
    by_cases hlh : lo < hi
    · simp only [if_pos hlh]
      have hmid : (lo + hi) / 2 < hi := by omega
      have hmlt : (lo + hi) / 2 < es.length := by omega
      rw [List.getD_eq_getElem es defaultStamped hmlt]
      by_cases hp : p es[(lo + hi) / 2] = true
      · have hmk : (lo + hi) / 2 < k := by
          by_contra hcon
          have := h2 ((lo + hi) / 2) hmlt (by omega)
          simp only [List.get_eq_getElem] at this
          rw [this] at hp
          exact Bool.false_ne_true hp
        rw [if_pos hp]
        exact ih _ _ (by omega) hhi hle (by omega)
      · have hkm : k ≤ (lo + hi) / 2 := by
          by_contra hcon
          have := h1 ((lo + hi) / 2) hmlt (by omega)
          simp only [List.get_eq_getElem] at this
          exact hp this
        rw [if_neg hp]
        exact ih _ _ hlo hkm (by omega) (by omega)
    · simp only [if_neg hlh]
      omega

/-- When every entry satisfies the move-right predicate, the search lands at
the end of the list; in particular a push with a maximal timestamp appends. -/
theorem upperBound_of_all_le (b : TransformBuffer) (ts : ℚ)
    (h : ∀ e ∈ b.entries, e.timestamp ≤ ts) :
    b.upperBound ts = b.entries.length := by
  unfold TransformBuffer.upperBound
  refine bsearch_run b.entries _ b.entries.length (Nat.le_refl _) ?_ ?_
    (b.entries.length + 1) 0 b.entries.length (Nat.zero_le _) (Nat.le_refl _)
    (Nat.le_refl _) (by omega)
  · intro i hi _
    simpa using h _ (b.entries.get_mem i hi)
  · intro i _ hk
    omega

/-! Buffer invariant lemmas. -/

/-- Elements surviving `pruneList` on a sorted list are at least the cutoff:
the scan removes the whole (contiguous, by sortedness) too-old front. -/
theorem pruneList_ge (es : List TransformStamped) (c : ℚ) (hs : SortedB es) :
    ∀ e ∈ es.dropWhile (fun e => decide (e.timestamp < c)), c ≤ e.timestamp := by
  induction es with
  | nil => intro e he; simp [List.dropWhile] at he
  | cons a t ih =>
    intro e he
    rw [List.dropWhile_cons] at he
    by_cases hp : a.timestamp < c
    · simp only [hp, decide_True, if_true] at he
      exact ih ((List.sorted_cons.mp hs).2) e he
    · simp only [hp, decide_False, if_false] at he
      rcases List.mem_cons.mp he with rfl | het
      · exact le_of_not_lt hp
      · exact le_trans (le_of_not_lt hp) ((List.sorted_cons.mp hs).1 e het)

/-- `getLastD` of a non-empty list is a member. -/
theorem getLastD_mem {α : Type} (l : List α) (d : α) (h : l ≠ []) :
    l.getLastD d ∈ l := by
  rw [List.getLastD_eq_getLast?, List.getLast?_eq_getLast l h]
  exact List.getLast_mem h

/-- One monotone push: if the pushed timestamp is at least every retained
timestamp, the buffer stays sorted, all retained entries stay at most the
pushed timestamp, and all retained entries are within `maxDuration` of it. -/
theorem push_step (b : TransformBuffer) (entry : TransformStamped)
    (hs : SortedB b.entries)
    (hm : ∀ e ∈ b.entries, e.timestamp ≤ entry.timestamp) :
    SortedB (b.push entry).entries ∧
    (∀ e ∈ (b.push entry).entries, e.timestamp ≤ entry.timestamp) ∧
    (∀ e ∈ (b.push entry).entries,
      entry.timestamp - b.maxDuration ≤ e.timestamp) := by
  have hub : b.upperBound entry.timestamp = b.entries.length :=
    upperBound_of_all_le b entry.timestamp hm
  have hins : b.entries.insertIdx (b.upperBound entry.timestamp) entry
      = b.entries ++ [entry] := by
    rw [hub]; exact List.insertIdx_length_self b.entries entry
  have happ : SortedB (b.entries ++ [entry]) :=
    List.pairwise_append.mpr ⟨hs, List.pairwise_singleton _ _,
      fun a ha e he => by
        rcases List.mem_singleton.mp he with rfl
        exact hm a ha⟩
  have hpush : (b.push entry).entries
      = (b.entries ++ [entry]).dropWhile
          (fun e => decide (e.timestamp < entry.timestamp - b.maxDuration)) := by
    simp only [TransformBuffer.push, TransformBuffer.pruneList, hins]
  refine ⟨?_, ?_, ?_⟩
  · rw [hpush]
    exact List.Pairwise.sublist (List.dropWhile_sublist _) happ
  · intro e he
    rw [hpush] at he
    have : e ∈ b.entries ++ [entry] :=
      (List.dropWhile_sublist _).subset he
    rcases List.mem_append.mp this with h1 | h1
    · exact hm e h1
    · rcases List.mem_singleton.mp h1 with rfl; exact le_refl _
  · intro e he
    rw [hpush] at he
    exact pruneList_ge _ _ happ e he

/-- Several monotone pushes keep the pruning bound at every intermediate
state (the auxiliary induction behind the amended pruning claim). -/
theorem pushAll_bound :
    ∀ (l : List TransformStamped) (b : TransformBuffer),
      SortedB b.entries →
      (∀ e ∈ b.entries, ∀ x ∈ l, e.timestamp ≤ x.timestamp) →
      List.Pairwise (fun a c => a.timestamp ≤ c.timestamp) l →
      (∀ s ∈ b.entries, b.newestTs - s.timestamp ≤ b.maxDuration) →
      ∀ s ∈ (b.pushAll l).entries,
        (b.pushAll l).newestTs - s.timestamp ≤ b.maxDuration := by
  intro l
  induction l with
  | nil =>
    intro b _ _ _ hbound s hrs
    simpa [TransformBuffer.pushAll] using hbound s hrs
  | cons x xs ih =>
    intro b hs hm hp hbound
    have hstep := push_step b x hs (fun e he => hm e he x (by simp))
    have hxxs : ∀ c ∈ xs, x.timestamp ≤ c.timestamp :=
      fun c hc => (List.pairwise_cons.mp hp).1 c hc
    have hmax : (b.push x).maxDuration = b.maxDuration := rfl
    have hbound' : ∀ s ∈ (b.push x).entries,
        (b.push x).newestTs - s.timestamp ≤ (b.push x).maxDuration := by
      intro s hrs
      by_cases hne : (b.push x).entries = []
      · rw [hne] at hrs; simp at hrs
      · have hlast := getLastD_mem (b.push x).entries defaultStamped hne
        have h1 : (b.push x).newestTs ≤ x.timestamp :=
          hstep.2.1 _ hlast
        have h2 : x.timestamp - b.maxDuration ≤ s.timestamp :=
          hstep.2.2 s hrs
        rw [hmax]
        unfold TransformBuffer.newestTs at h1 ⊢
        linarith
    have : (b.pushAll (x :: xs)) = (b.push x).pushAll xs := by
      simp [TransformBuffer.pushAll]
    rw [this]
    have := ih (b.push x) hstep.1
      (fun e he c hc => le_trans (hstep.2.1 e he) (hxxs c hc))
      (List.pairwise_cons.mp hp).2 hbound'
    simpa [hmax] using this

/-- On a sorted non-empty buffer the first entry's timestamp bounds the last
entry's. -/
theorem oldestTs_le_newestTs (b : TransformBuffer) (h : b.entries ≠ [])
    (hs : SortedB b.entries) : b.oldestTs ≤ b.newestTs := by
  unfold TransformBuffer.oldestTs TransformBuffer.newestTs
  cases hb : b.entries with
  | nil => exact absurd hb h
  | cons a t =>
    rw [hb] at hs
    have hmem := getLastD_mem (a :: t) defaultStamped (by simp)
    rcases List.mem_cons.mp hmem with hh | ht
    · rw [List.headD_cons, hh]
    · rw [List.headD_cons]
      exact (List.sorted_cons.mp hs).1 _ ht

/-- **C3 (amended)**: pruning bound for monotone push sequences — starting
from an empty buffer with retention window `d` and pushing entries whose
timestamps never decrease, after any push (i.e. for every number `n` of
pushes performed) every retained sample `s` satisfies
`newest.timestamp − s.timestamp ≤ d`. -/
theorem C3_pruning_bound_monotone (d : ℚ) (l : List TransformStamped)
    (hmono : List.Pairwise (fun a c => a.timestamp ≤ c.timestamp) l) (n : ℕ) :
    ∀ s ∈ ((TransformBuffer.mkEmpty d).pushAll (l.take n)).entries,
      ((TransformBuffer.mkEmpty d).pushAll (l.take n)).newestTs - s.timestamp
        ≤ d := by
  have h := pushAll_bound (l.take n) (TransformBuffer.mkEmpty d)
    (by simp [TransformBuffer.mkEmpty, SortedB])
    (by simp [TransformBuffer.mkEmpty])
    (List.Pairwise.sublist (List.take_sublist n l) hmono)
    (by simp [TransformBuffer.mkEmpty])
  simpa [TransformBuffer.mkEmpty] using h

/-- Witness for C3 (amended) at a concrete monotone history: after two
pushes (timestamps 0 and 50, window 100) the sample stamped 0 is within the
bound. -/
theorem C3_pruning_bound_monotone_witness :
    ((TransformBuffer.mkEmpty 100).pushAll
        (([⟨0, Transform.identity⟩, ⟨50, Transform.identity⟩,
           ⟨300, Transform.identity⟩] : List TransformStamped).take 2)).newestTs
      - (⟨0, Transform.identity⟩ : TransformStamped).timestamp ≤ 100 := by
  refine C3_pruning_bound_monotone 100
    [⟨0, Transform.identity⟩, ⟨50, Transform.identity⟩,
     ⟨300, Transform.identity⟩] ?_ 2 ⟨0, Transform.identity⟩ ?_
  · norm_num [List.pairwise_cons]
  · simp [TransformBuffer.pushAll, TransformBuffer.push,
      TransformBuffer.upperBound, bsearch, TransformBuffer.pruneList,
      TransformBuffer.mkEmpty]
    norm_num

/-- **C3 (counterexample)**: with out-of-order timestamps the pruning bound
fails — `prune` uses the *pushed* timestamp as "latest", so pushing an old
sample (timestamp 50) after a newer one (timestamp 300) into a buffer with
window 100 retains a sample 250 ms older than the newest. -/
theorem C3_pruning_counterexample :
    ∃ s ∈ (((TransformBuffer.mkEmpty 100).push
        ⟨300, Transform.identity⟩).push ⟨50, Transform.identity⟩).entries,
      100 < (((TransformBuffer.mkEmpty 100).push
        ⟨300, Transform.identity⟩).push ⟨50, Transform.identity⟩).newestTs
        - s.timestamp := by
  have hB : (((TransformBuffer.mkEmpty 100).push
      ⟨300, Transform.identity⟩).push ⟨50, Transform.identity⟩).entries
      = [⟨50, Transform.identity⟩, ⟨300, Transform.identity⟩] := by
    simp [TransformBuffer.push, TransformBuffer.upperBound, bsearch,
      TransformBuffer.pruneList, TransformBuffer.mkEmpty]
    norm_num
  refine ⟨⟨50, Transform.identity⟩, ?_, ?_⟩
  · rw [hB]; simp
  · unfold TransformBuffer.newestTs
    rw [hB]
    norm_num

/-- **C5**: boundary semantics of `interpolateAt` on a sorted buffer — it
reports the buffer-empty error exactly when there are no samples; otherwise
it reports the `RangeError` out-of-range error exactly when the query is
strictly before the oldest retained sample; and at or beyond the newest
sample it clamps, returning the newest sample's transform unchanged. -/
theorem C5_interpolate_boundaries (b : TransformBuffer) (ts : ℚ)
    (hs : SortedB b.entries) :
    (b.interpolateAt ts = .error .bufferEmpty ↔ b.entries = []) ∧
    (b.interpolateAt ts = .error .outOfRange ↔
      (b.entries ≠ [] ∧ ts < b.oldestTs)) ∧
    (b.entries ≠ [] → b.newestTs ≤ ts →
      b.interpolateAt ts = .ok (b.entries.getLastD defaultStamped).transform) := by
  by_cases he : b.entries = []
  · refine ⟨?_, ?_, ?_⟩ <;>
      simp [TransformBuffer.interpolateAt, he]
  · have hlen : ¬ b.entries.length = 0 := by
      simpa [List.length_eq_zero] using he
    have hol := oldestTs_le_newestTs b he hs
    unfold TransformBuffer.interpolateAt
    simp only [if_neg hlen]
    by_cases hlt : ts < b.oldestTs
    · simp only [if_pos hlt]
      refine ⟨by simp [he], by simp [he, hlt], ?_⟩
      intro _ hnew
      exact absurd hlt (by linarith)
    · simp only [if_neg hlt]
      by_cases hnew : b.newestTs ≤ ts
      · simp only [if_pos hnew]
        exact ⟨by simp [he], by simp [hlt], fun _ _ => by trivial⟩
      · simp only [if_neg hnew]
        by_cases hexact :
            (b.entries.getD (b.lowerBound ts) defaultStamped).timestamp = ts
        · simp only [if_pos hexact]
          exact ⟨by simp [he], by simp [hlt], fun _ h => absurd h hnew⟩
        · simp only [if_neg hexact]
          exact ⟨by simp [he], by simp [hlt], fun _ h => absurd h hnew⟩

/-- Witness for C5 at a concrete buffer (entries stamped 0 and 10, query at
20): the query clamps to the newest sample's transform. -/
theorem C5_interpolate_boundaries_witness :
    (TransformBuffer.mk
        [⟨0, ⟨⟨1, 2, 3⟩, Quaternion.identity⟩⟩,
         ⟨10, ⟨⟨4, 5, 6⟩, Quaternion.identity⟩⟩] 100).interpolateAt 20
      = .ok ⟨⟨4, 5, 6⟩, Quaternion.identity⟩ := by
  have h := C5_interpolate_boundaries
    (TransformBuffer.mk
      [⟨0, ⟨⟨1, 2, 3⟩, Quaternion.identity⟩⟩,
       ⟨10, ⟨⟨4, 5, 6⟩, Quaternion.identity⟩⟩] 100) 20
    (by norm_num [SortedB, List.sorted_cons])
  have h3 := h.2.2 (by simp) (by norm_num [TransformBuffer.newestTs])
  simpa using h3

/-! ### The frame graph (`src/src/TFTree.ts`)

State of a `TFTree` instance.  JavaScript `Map`s preserve insertion order and
`Map.set` of an existing key overwrites in place; both are modelled with
ordered lists.  `frames` is keyed by `FrameNode.id` (every `frames.set` in
the source uses the node's own id as key). -/

/-- `FrameNode` from `types.ts`. -/
structure FrameNode where
  id : String
  parentId : Option String
  transform : Transform
deriving DecidableEq, Repr

/-- The four private fields of `TFTree`. -/
structure TFTree where
  frames : List FrameNode
  dirtySet : List String
  worldTransformCache : List (String × Transform)
  childrenMap : List (String × List String)
deriving DecidableEq, Repr

/-- JS `Map.set` keyed by frame id: overwrite in place, else append. -/
def framesSet (fs : List FrameNode) (id : String) (node : FrameNode) :
    List FrameNode :=
  if fs.any (fun f => f.id == id) then
    fs.map (fun f => if f.id == id then node else f)
  else fs ++ [node]

/-- JS `Set.add`: append when absent (insertion order preserved). -/
def setAdd (s : List String) (id : String) : List String :=
  if s.contains id then s else s ++ [id]

/-- JS `Set.delete`. -/
def setDelete (s : List String) (id : String) : List String :=
  s.filter (fun x => !(x == id))

/-- JS `Map.get` on an association list. -/
def assocGet {α : Type} (m : List (String × α)) (k : String) : Option α :=
  (m.find? (fun p => p.1 == k)).map Prod.snd

/-- JS `Map.set` on an association list. -/
def assocSet {α : Type} (m : List (String × α)) (k : String) (v : α) :
    List (String × α) :=
  if m.any (fun p => p.1 == k) then
    m.map (fun p => if p.1 == k then (k, v) else p)
  else m ++ [(k, v)]

/-- JS `Map.delete` on an association list. -/
def assocDelete {α : Type} (m : List (String × α)) (k : String) :
    List (String × α) :=
  m.filter (fun p => !(p.1 == k))

/-- `childrenMap.get(parentId)!.add(id)` — the entry exists for every
registered frame (established by `addFrame` itself), so updating in place is
the behaviour of the source's non-null assertion. -/
def childAdd (m : List (String × List String)) (pid cid : String) :
    List (String × List String) :=
  m.map (fun p => if p.1 == pid then (p.1, setAdd p.2 cid) else p)

/-- `childrenMap.get(parentId)?.delete(id)`. -/
def childDelete (m : List (String × List String)) (pid cid : String) :
    List (String × List String) :=
  m.map (fun p => if p.1 == pid then (p.1, setDelete p.2 cid) else p)

namespace TFTree

/-- `new TFTree()`. -/
def empty : TFTree := ⟨[], [], [], []⟩

/-- `frames.get(id)`. -/
def findFrame (tr : TFTree) (id : String) : Option FrameNode :=
  tr.frames.find? (fun f => f.id == id)

/-- `hasFrame(id)` / `frames.has(id)`. -/
def hasFrame (tr : TFTree) (id : String) : Bool :=
  (tr.findFrame id).isSome

/-- `frameIds()` — registered ids in insertion order. -/
def frameIds (tr : TFTree) : List String := tr.frames.map (fun f => f.id)

/-- `childrenMap.get(id) ?? []`. -/
def childValues (tr : TFTree) (id : String) : List String :=
  (assocGet tr.childrenMap id).getD []

/-- The `addFrame` cycle check: `current := parentId`; while defined, fail if
`current === id`, else step to `frames.get(current)?.parentId`.  The loop has
no visited set — it terminates only because well-formed graphs are acyclic —
so the embedding runs it on fuel (`frames.length + 1` suffices, see the
well-formedness lemmas). -/
def chainContains (tr : TFTree) (id : String) :
    ℕ → Option String → Except TFError Bool
  | _, none => .ok false
  | 0, some _ => .error .outOfFuel
  | fuel + 1, some current =>
    if current == id then .ok true
    else chainContains tr id fuel
      ((tr.findFrame current).bind (fun f => f.parentId))

/-- The successful tail of `addFrame`: insert the node, mark it dirty,
ensure a `childrenMap` entry for it, and link it into the parent's child
set. -/
def registerFrame (tr : TFTree) (id : String) (parentId : Option String)
    (transform : Transform) : TFTree :=
  let tr1 : TFTree :=
    { tr with frames := framesSet tr.frames id ⟨id, parentId, transform⟩,
              dirtySet := setAdd tr.dirtySet id }
  let tr2 : TFTree :=
    { tr1 with childrenMap :=
        if (assocGet tr1.childrenMap id).isSome then tr1.childrenMap
        else tr1.childrenMap ++ [(id, [])] }
  match parentId with
  | none => tr2
  | some pid => { tr2 with childrenMap := childAdd tr2.childrenMap pid id }

/-- `addFrame(id, parentId?, transform)` (lines 43–78). -/
def addFrame (tr : TFTree) (id : String) (parentId : Option String)
    (transform : Transform) : TFTree × Option TFError :=
  if tr.hasFrame id then (tr, some (.duplicateFrame id))
  else
    match parentId with
    | none => (registerFrame tr id none transform, none)
    | some pid =>
      if !(tr.hasFrame pid) then (tr, some (.parentNotFound pid))
      else
        match chainContains tr id (tr.frames.length + 1) (some pid) with
        | .error e => (tr, some e)
        | .ok true => (tr, some (.cycleDetected id))
        | .ok false => (registerFrame tr id (some pid) transform, none)

end TFTree

mutual

/-- `markSubtreeDirty(id)` (lines 308–314): add `id` to the dirty set, drop
its cache entry, recurse into `childrenMap.get(id) ?? []`.  The recursion
terminates because well-formed graphs are acyclic; the embedding bounds the
depth with fuel (`frames.length + 1` suffices, proved below). -/
def markSubtreeDirtyF : ℕ → TFTree → String → TFTree × Option TFError
  | 0, tr, _ => (tr, some .outOfFuel)
  | fuel + 1, tr, id =>
    let tr1 : TFTree :=
      { tr with dirtySet := setAdd tr.dirtySet id,
                worldTransformCache := assocDelete tr.worldTransformCache id }
    markChildrenF fuel tr1 (tr1.childValues id)

/-- The `for (const childId of ...)` loop of `markSubtreeDirty`. -/
def markChildrenF : ℕ → TFTree → List String → TFTree × Option TFError
  | _, tr, [] => (tr, none)
  | fuel, tr, c :: cs =>
    match markSubtreeDirtyF fuel tr c with
    | (tr', none) => markChildrenF fuel tr' cs
    | r => r

end

namespace TFTree

/-- `updateTransform(id, transform)` (lines 85–92). -/
def updateTransform (tr : TFTree) (id : String) (transform : Transform) :
    TFTree × Option TFError :=
  match tr.findFrame id with
  | none => (tr, some (.frameNotFound id))
  | some frame =>
    let node : FrameNode := { frame with transform := transform }
    let tr1 : TFTree := { tr with frames := framesSet tr.frames id node }
    markSubtreeDirtyF (tr.frames.length + 1) tr1 id

/-- `updateFrame` — alias for `updateTransform`. -/
def updateFrame (tr : TFTree) (id : String) (transform : Transform) :
    TFTree × Option TFError :=
  tr.updateTransform id transform

/-- First pass of `updateTransforms` (lines 114–121): iterate
`Object.entries(updates)` in order, throwing on the first unknown id —
entries *before* it have already been applied when the throw happens. -/
def applyUpdates : TFTree → List (String × Transform) → TFTree × Option TFError
  | tr, [] => (tr, none)
  | tr, (id, transform) :: rest =>
    match tr.findFrame id with
    | none => (tr, some (.frameNotFound id))
    | some frame =>
      let node : FrameNode := { frame with transform := transform }
      applyUpdates { tr with frames := framesSet tr.frames id node } rest

/-- The second-pass ancestor walk of `updateTransforms` (lines 128–136):
walk `parentId` links looking for a batch key. -/
def ancestorInKeys (tr : TFTree) (keys : List String) :
    ℕ → Option String → Except TFError Bool
  | _, none => .ok false
  | 0, some _ => .error .outOfFuel
  | fuel + 1, some p =>
    if keys.contains p then .ok true
    else ancestorInKeys tr keys fuel
      ((tr.findFrame p).bind (fun f => f.parentId))

/-- Second pass of `updateTransforms` (lines 126–140): for each key whose
ancestor chain contains no other key, mark its subtree dirty. -/
def markPass (keys : List String) :
    TFTree → List String → TFTree × Option TFError
  | tr, [] => (tr, none)
  | tr, id :: rest =>
    match ancestorInKeys tr keys (tr.frames.length + 1)
        ((tr.findFrame id).bind (fun f => f.parentId)) with
    | .error e => (tr, some e)
    | .ok true => markPass keys tr rest
    | .ok false =>
      match markSubtreeDirtyF (tr.frames.length + 1) tr id with
      | (tr', none) => markPass keys tr' rest
      | r => r

/-- `updateTransforms(updates)` (lines 113–141).  `updates` models
`Object.entries` of the `Record` argument, whose keys are pairwise distinct
— `new Set(Object.keys(updates))` in insertion order is then exactly
`updates.map Prod.fst`. -/
def updateTransforms (tr : TFTree) (updates : List (String × Transform)) :
    TFTree × Option TFError :=
  match applyUpdates tr updates with
  | (tr1, some e) => (tr1, some e)
  | (tr1, none) => markPass (updates.map Prod.fst) tr1 (updates.map Prod.fst)

/-- `removeFrame(id)` (lines 150–170). -/
def removeFrame (tr : TFTree) (id : String) : TFTree × Option TFError :=
  if !(tr.hasFrame id) then (tr, some (.frameNotFound id))
  else if tr.frames.any (fun f => f.parentId == some id) then
    (tr, some (.hasChildrenErr id))
  else
    let parentId := (tr.findFrame id).bind (fun f => f.parentId)
    let tr1 : TFTree :=
      { tr with
        frames := tr.frames.filter (fun f => !(f.id == id)),
        worldTransformCache := assocDelete tr.worldTransformCache id,
        dirtySet := setDelete tr.dirtySet id,
        childrenMap := assocDelete tr.childrenMap id }
    match parentId with
    | none => (tr1, none)
    | some pid =>
      ({ tr1 with childrenMap := childDelete tr1.childrenMap pid id }, none)

/-- `getWorldTransform(id, visiting)` (lines 321–338): memoised recursive
world-transform computation with an active-visit cycle check.  The recursion
follows parent links, so fuel `frames.length + 1` suffices on well-formed
graphs. -/
def getWorldTransformF :
    ℕ → TFTree → List String → String → TFTree × Except TFError Transform
  | 0, tr, _, _ => (tr, .error .outOfFuel)
  | fuel + 1, tr, visiting, id =>
    if !(tr.dirtySet.contains id)
        && (assocGet tr.worldTransformCache id).isSome then
      (tr, .ok ((assocGet tr.worldTransformCache id).getD Transform.identity))
    else if visiting.contains id then
      (tr, .error (.cycleDetected id))
    else
      match tr.findFrame id with
      | none =>
        -- `this.frames.get(id)!` — reachable only on graphs corrupted by
        -- the caller; spec §7 prescribes reporting `FrameNotFound`.
        (tr, .error (.frameNotFound id))
      | some frame =>
        match frame.parentId with
        | none =>
          ({ tr with
              worldTransformCache :=
                assocSet tr.worldTransformCache id frame.transform,
              dirtySet := setDelete tr.dirtySet id }, .ok frame.transform)
        | some pid =>
          match getWorldTransformF fuel tr (setAdd visiting id) pid with
          | (tr', .ok pw) =>
            let world := pw.compose frame.transform
            ({ tr' with
                worldTransformCache :=
                  assocSet tr'.worldTransformCache id world,
                dirtySet := setDelete tr'.dirtySet id }, .ok world)
          | (tr', .error e) => (tr', .error e)

/-- `chainToRoot(id)` (lines 344–358): the ordered id chain from `id` to its
root, with a visited-set cycle check. -/
def chainToRootF (tr : TFTree) :
    ℕ → List String → Option String → Except TFError (List String)
  | _, _, none => .ok []
  | 0, _, some _ => .error .outOfFuel
  | fuel + 1, visited, some current =>
    if visited.contains current then .error (.cycleDetected current)
    else
      match chainToRootF tr fuel (setAdd visited current)
          ((tr.findFrame current).bind (fun f => f.parentId)) with
      | .error e => .error e
      | .ok rest => .ok (current :: rest)

/-- `getTransform(from, to)` (lines 194–230): existence checks, identity
short-circuit, LCA connectivity check on the two root chains, then
`worldOf(from)⁻¹ ∘ worldOf(to)` through the cache. -/
def getTransform (tr : TFTree) (fromId toId : String) :
    TFTree × Except TFError Transform :=
  if !(tr.hasFrame fromId) then (tr, .error (.frameNotFound fromId))
  else if !(tr.hasFrame toId) then (tr, .error (.frameNotFound toId))
  else if fromId == toId then (tr, .ok Transform.identity)
  else
    match chainToRootF tr (tr.frames.length + 1) [] (some fromId) with
    | .error e => (tr, .error e)
    | .ok fromChain =>
      match chainToRootF tr (tr.frames.length + 1) [] (some toId) with
      | .error e => (tr, .error e)
      | .ok toChain =>
        match fromChain.find? (fun x => toChain.contains x) with
        | none => (tr, .error (.notConnected fromId toId))
        | some _ =>
          match getWorldTransformF (tr.frames.length + 1) tr [] fromId with
          | (tr1, .error e) => (tr1, .error e)
          | (tr1, .ok wFrom) =>
            match getWorldTransformF (tr1.frames.length + 1) tr1 [] toId with
            | (tr2, .error e) => (tr2, .error e)
            | (tr2, .ok wTo) => (tr2, .ok (wFrom.invert.compose wTo))

end TFTree

/-- One serialized frame record (`FrameNodeJSON` from `types.ts`):
`{id, parentId | null, transform: {translation: [x,y,z],
rotation: [x,y,z,w]}}`. -/
structure FrameNodeJSON where
  id : String
  parentId : Option String
  translation : ℚ × ℚ × ℚ
  rotation : ℚ × ℚ × ℚ × ℚ
deriving DecidableEq, Repr

namespace TFTree

/-- `toJSON()` (lines 247–257): emit frames in insertion order;
`toArray()` on `Vec3`/`Quaternion` yields the component tuples. -/
def toJSON (tr : TFTree) : List FrameNodeJSON :=
  tr.frames.map (fun f =>
    ⟨f.id, f.parentId,
     (f.transform.translation.x, f.transform.translation.y,
      f.transform.translation.z),
     (f.transform.rotation.x, f.transform.rotation.y,
      f.transform.rotation.z, f.transform.rotation.w)⟩)

/-- The replay loop of `fromJSON` (lines 274–284): sequential `addFrame`,
propagating the first error (`fromArray` inverts `toArray` exactly). -/
def fromJSONAux : TFTree → List FrameNodeJSON → TFTree × Option TFError
  | tr, [] => (tr, none)
  | tr, r :: rest =>
    match addFrame tr r.id r.parentId
        ⟨⟨r.translation.1, r.translation.2.1, r.translation.2.2⟩,
         ⟨r.rotation.1, r.rotation.2.1, r.rotation.2.2.1,
          r.rotation.2.2.2⟩⟩ with
    | (tr', none) => fromJSONAux tr' rest
    | e => e

/-- `TFTree.fromJSON(data)`. -/
def fromJSON (data : List FrameNodeJSON) : TFTree × Option TFError :=
  fromJSONAux empty data

end TFTree

/-! ### Map/set lemmas

Lookup behaviour of the insertion-ordered `Map`/`Set` encodings.  Each is
proved once for a generic key projection and instantiated for the frames map
(keyed by `FrameNode.id`) and the association lists (keyed by `Prod.fst`). -/

theorem contains_iff (l : List String) (a : String) :
    l.contains a = true ↔ a ∈ l := by
  simp [List.contains]

theorem mem_setAdd {s : List String} {a x : String} :
    x ∈ setAdd s a ↔ x ∈ s ∨ x = a := by
  unfold setAdd
  split
  · rename_i h
    have ha : a ∈ s := (contains_iff s a).mp h
    constructor
    · exact Or.inl
    · rintro (hx | rfl)
      · exact hx
      · exact ha
  · simp

theorem mem_setDelete {s : List String} {a x : String} :
    x ∈ setDelete s a ↔ x ∈ s ∧ x ≠ a := by
  unfold setDelete
  simp [List.mem_filter]

theorem contains_setAdd (s : List String) (a x : String) :
    ((setAdd s a).contains x = true) ↔ (s.contains x = true ∨ x = a) := by
  rw [contains_iff, mem_setAdd, contains_iff]

theorem contains_setDelete (s : List String) (a x : String) :
    ((setDelete s a).contains x = true) ↔ (s.contains x = true ∧ x ≠ a) := by
  rw [contains_iff, mem_setDelete, contains_iff]

/-- Overwriting the entry keyed `id` does not disturb lookups for `x ≠ id`. -/
theorem find?_replace_ne {α : Type} (key : α → String) (fs : List α)
    (id x : String) (node : α) (hid : key node = id) (hx : x ≠ id) :
    List.find? (fun f => key f == x)
        (fs.map (fun f => if key f == id then node else f))
      = List.find? (fun f => key f == x) fs := by
  induction fs with
  | nil => rfl
  | cons f t ih =>
    by_cases hf : key f = id
    · rw [List.map_cons, if_pos (show (key f == id) = true by simp [hf]),
        @List.find?_cons_of_neg _ (fun f => key f == x) node _
          (by simp [hid]; exact fun h => hx h.symm),
        @List.find?_cons_of_neg _ (fun f => key f == x) f _
          (by simp [hf]; exact fun h => hx h.symm)]
      exact ih
    · rw [List.map_cons, if_neg (show ¬ ((key f == id) = true) by simp [hf])]
      by_cases hfx : key f = x
      · rw [@List.find?_cons_of_pos _ (fun f => key f == x) f _ (by simp [hfx]),
          @List.find?_cons_of_pos _ (fun f => key f == x) f _ (by simp [hfx])]
      · rw [@List.find?_cons_of_neg _ (fun f => key f == x) f _ (by simp [hfx]),
          @List.find?_cons_of_neg _ (fun f => key f == x) f _ (by simp [hfx])]
        exact ih

/-- Overwriting the entry keyed `id` makes lookup of `id` yield the new
value, provided some entry with that key exists. -/
theorem find?_replace_self {α : Type} (key : α → String) (fs : List α)
    (id : String) (node : α) (hid : key node = id)
    (hpresent : fs.any (fun f => key f == id) = true) :
    List.find? (fun f => key f == id)
        (fs.map (fun f => if key f == id then node else f))
      = some node := by
  induction fs with
  | nil => simp at hpresent
  | cons f t ih =>
    by_cases hf : key f = id
    · rw [List.map_cons, if_pos (show (key f == id) = true by simp [hf]),
        @List.find?_cons_of_pos _ (fun f => key f == id) node _ (by simp [hid])]
    · rw [List.map_cons, if_neg (show ¬ ((key f == id) = true) by simp [hf]),
        @List.find?_cons_of_neg _ (fun f => key f == id) f _ (by simp [hf])]
      refine ih ?_
      have := hpresent
      simp only [List.any_cons, Bool.or_eq_true] at this
      rcases this with h1 | h1
      · exact absurd (by simpa using h1) hf
      · exact h1

/-- Lookup after `framesSet` (keyed consistently): the new node under its
own id, everything else unchanged. -/
theorem find?_framesSet (fs : List FrameNode) (id x : String)
    (node : FrameNode) (hid : node.id = id) :
    List.find? (fun f => f.id == x) (framesSet fs id node)
      = if x = id then some node
        else List.find? (fun f => f.id == x) fs := by
  unfold framesSet
  by_cases hx : x = id
  · subst hx
    rw [if_pos rfl]
    split
    · exact find?_replace_self FrameNode.id fs x node hid (by assumption)
    · rename_i h
      rw [List.find?_append]
      have hnone : List.find? (fun f => f.id == x) fs = none := by
        rw [List.find?_eq_none]
        intro g hg
        intro hgx
        exact absurd (List.any_eq_true.mpr ⟨g, hg, hgx⟩) h
      rw [hnone]
      simp [hid]
  · rw [if_neg hx]
    split
    · exact find?_replace_ne FrameNode.id fs id x node hid hx
    · rw [List.find?_append]
      have h2 : List.find? (fun f => f.id == x) [node] = none := by
        simp [hid]
        exact fun h => hx h.symm
      rw [h2]
      cases List.find? (fun f => f.id == x) fs <;> rfl

/-- Lookup after `assocSet`: the new value under `k`, others unchanged. -/
theorem assocGet_assocSet {α : Type} (m : List (String × α)) (k x : String)
    (v : α) :
    assocGet (assocSet m k v) x = if x = k then some v else assocGet m x := by
  unfold assocSet assocGet
  by_cases hx : x = k
  · subst hx
    rw [if_pos rfl]
    split
    · rw [find?_replace_self Prod.fst m x (x, v) rfl (by assumption)]
      rfl
    · rename_i h
      rw [List.find?_append]
      have hnone : List.find? (fun p => p.1 == x) m = none := by
        rw [List.find?_eq_none]
        intro g hg hcon
        exact absurd (List.any_eq_true.mpr ⟨g, hg, hcon⟩) h
      rw [hnone]
      simp
  · rw [if_neg hx]
    split
    · rw [find?_replace_ne Prod.fst m k x (k, v) rfl hx]
    · rw [List.find?_append]
      have h2 : List.find? (fun p => p.1 == x) [(k, v)] = none := by
        simp
        exact fun h => hx h.symm
      rw [h2]
      cases List.find? (fun p => p.1 == x) m <;> rfl

/-- Lookup after `assocDelete`: gone under `k`, others unchanged. -/
theorem assocGet_assocDelete {α : Type} (m : List (String × α)) (k x : String) :
    assocGet (assocDelete m k) x = if x = k then none else assocGet m x := by
  unfold assocDelete assocGet
  by_cases hx : x = k
  · subst hx
    rw [if_pos rfl]
    have hnone : List.find? (fun p => p.1 == x)
        (m.filter (fun p => !(p.1 == x))) = none := by
      rw [List.find?_eq_none]
      intro p hp
      rw [List.mem_filter] at hp
      intro hpx
      rw [hpx] at hp
      simp at hp
    rw [hnone]
    rfl
  · rw [if_neg hx]
    induction m with
    | nil => rfl
    | cons p t ih =>
      by_cases hp : p.1 = k
      · rw [List.filter_cons_of_neg (by simp [hp]),
          @List.find?_cons_of_neg _ (fun p => p.1 == x) p _
            (by simp [hp]; exact fun h => hx h.symm)]
        exact ih
      · rw [List.filter_cons_of_pos (by simp [hp])]
        by_cases hpx : p.1 = x
        · rw [@List.find?_cons_of_pos _ (fun p => p.1 == x) p _ (by simp [hpx]),
            @List.find?_cons_of_pos _ (fun p => p.1 == x) p _ (by simp [hpx])]
        · rw [@List.find?_cons_of_neg _ (fun p => p.1 == x) p _ (by simp [hpx]),
            @List.find?_cons_of_neg _ (fun p => p.1 == x) p _ (by simp [hpx])]
          exact ih

/-- A key-preserving value rewrite commutes with association lookup. -/
theorem find?_mapVal {α : Type} (g : String × α → String × α)
    (hg : ∀ p, (g p).1 = p.1) (m : List (String × α)) (x : String) :
    List.find? (fun p => p.1 == x) (m.map g)
      = (List.find? (fun p => p.1 == x) m).map g := by
  induction m with
  | nil => rfl
  | cons p t ih =>
    by_cases hpx : p.1 = x
    · rw [List.map_cons,
        @List.find?_cons_of_pos _ (fun p => p.1 == x) (g p) _
          (by simp [hg, hpx]),
        @List.find?_cons_of_pos _ (fun p => p.1 == x) p _ (by simp [hpx])]
      rfl
    · rw [List.map_cons,
        @List.find?_cons_of_neg _ (fun p => p.1 == x) (g p) _
          (by simp [hg, hpx]),
        @List.find?_cons_of_neg _ (fun p => p.1 == x) p _ (by simp [hpx])]
      exact ih

/-- `childAdd` through lookup. -/
theorem assocGet_childAdd (m : List (String × List String)) (pid cid x : String) :
    assocGet (childAdd m pid cid) x
      = (assocGet m x).map (fun l => if x = pid then setAdd l cid else l) := by
  unfold childAdd assocGet
  rw [find?_mapVal _ (fun p => by by_cases h : p.1 = pid <;> simp [h]) m x]
  cases hfind : List.find? (fun p => p.1 == x) m with
  | none => rfl
  | some e =>
    have he : e.1 = x := by simpa using List.find?_some hfind
    by_cases hxp : x = pid
    · simp [he, hxp]
    · simp [he, hxp]

/-- `childDelete` through lookup. -/
theorem assocGet_childDelete (m : List (String × List String))
    (pid cid x : String) :
    assocGet (childDelete m pid cid) x
      = (assocGet m x).map (fun l => if x = pid then setDelete l cid else l) := by
  unfold childDelete assocGet
  rw [find?_mapVal _ (fun p => by by_cases h : p.1 = pid <;> simp [h]) m x]
  cases hfind : List.find? (fun p => p.1 == x) m with
  | none => rfl
  | some e =>
    have he : e.1 = x := by simpa using List.find?_some hfind
    by_cases hxp : x = pid
    · simp [he, hxp]
    · simp [he, hxp]

/-- Lookup through appending a single entry at the end. -/
theorem assocGet_append_single {α : Type} (m : List (String × α)) (k : String)
    (v : α) (x : String) :
    assocGet (m ++ [(k, v)]) x
      = match assocGet m x with
        | some w => some w
        | none => if x = k then some v else none := by
  unfold assocGet
  rw [List.find?_append]
  cases hfind : List.find? (fun p => p.1 == x) m with
  | some e => rfl
  | none =>
    simp only [Option.none_or]
    by_cases hxk : x = k
    · subst hxk
      rw [@List.find?_cons_of_pos _ (fun p => p.1 == x) (x, v) _ (by simp)]
      simp
    · rw [@List.find?_cons_of_neg _ (fun p => p.1 == x) (k, v) _
        (by simp; exact fun h => hxk h.symm)]
      simp [hxk]

/-! ### Graph predicates and invariants

Spec-side characterisations of ancestry, subtree membership, depth, and the
structurally determined world transform; the well-formedness invariants of
spec §3; and transport lemmas between trees that agree on the relevant part
of the frame structure. -/

/-- `AncSelf tr a x`: `a` lies on the parent chain from `x` up to its root
(including `x` itself). -/
inductive AncSelf (tr : TFTree) : String → String → Prop
  | refl (x : String) : AncSelf tr x x
  | step (a x : String) (f : FrameNode) (p : String) :
      tr.findFrame x = some f → f.parentId = some p → AncSelf tr a p →
      AncSelf tr a x

/-- `y` belongs to the subtree rooted at `root` (spec §4.B): `root` lies on
`y`'s parent chain. -/
def InSubtree (tr : TFTree) (root y : String) : Prop := AncSelf tr root y

/-- `a` is a proper ancestor of `x` (spec §4.E batch rule). -/
def ProperAnc (tr : TFTree) (a x : String) : Prop :=
  ∃ f p, tr.findFrame x = some f ∧ f.parentId = some p ∧ AncSelf tr a p

/-- The parent chain below `x` has length `n` (a root has depth 0). -/
inductive HasDepth (tr : TFTree) : String → ℕ → Prop
  | root (x : String) (f : FrameNode) :
      tr.findFrame x = some f → f.parentId = none → HasDepth tr x 0
  | child (x : String) (f : FrameNode) (p : String) (n : ℕ) :
      tr.findFrame x = some f → f.parentId = some p →
      HasDepth tr p n → HasDepth tr x (n + 1)

/-- The world transform determined by the graph structure (spec §4.C):
the composition of local transforms from the root down. -/
inductive WorldIs (tr : TFTree) : String → Transform → Prop
  | root (x : String) (f : FrameNode) :
      tr.findFrame x = some f → f.parentId = none → WorldIs tr x f.transform
  | child (x : String) (f : FrameNode) (p : String) (pw : Transform) :
      tr.findFrame x = some f → f.parentId = some p →
      WorldIs tr p pw → WorldIs tr x (pw.compose f.transform)

/-- Structural well-formedness: the invariants of spec §3 that the public
mutators maintain. -/
structure WF (tr : TFTree) : Prop where
  nodup : (tr.frames.map FrameNode.id).Nodup
  depths : ∀ f ∈ tr.frames, ∃ n, HasDepth tr f.id n
  topo : ∀ l1 f l2, tr.frames = l1 ++ f :: l2 →
    ∀ pid, f.parentId = some pid → pid ∈ l1.map FrameNode.id
  childrenMem : ∀ p c, c ∈ tr.childValues p ↔
    ∃ f ∈ tr.frames, f.id = c ∧ f.parentId = some p
  childrenKeys : ∀ f ∈ tr.frames, (assocGet tr.childrenMap f.id).isSome = true

/-- Cache coherence (spec §3, world-transform-cache invariant): every clean
cache entry stores the structurally determined world transform. -/
def Coherent (tr : TFTree) : Prop :=
  ∀ x T, tr.dirtySet.contains x = false →
    assocGet tr.worldTransformCache x = some T → WorldIs tr x T

/-! Basic facts about the predicates. -/

theorem findFrame_mem {tr : TFTree} {x : String} {f : FrameNode}
    (h : tr.findFrame x = some f) : f ∈ tr.frames ∧ f.id = x := by
  unfold TFTree.findFrame at h
  exact ⟨List.mem_of_find?_eq_some h, by simpa using List.find?_some h⟩

theorem find?_eq_of_mem_nodup {α : Type} (key : α → String) (l : List α)
    (hnd : (l.map key).Nodup) {f : α} (hf : f ∈ l) :
    l.find? (fun g => key g == key f) = some f := by
  induction l with
  | nil => simp at hf
  | cons g t ih =>
    have hnd' := hnd
    rw [List.map_cons, List.nodup_cons] at hnd'
    rcases List.mem_cons.mp hf with rfl | hft
    · exact List.find?_cons_of_pos _ (by simp)
    · have hgne : key g ≠ key f := by
        intro heq
        exact hnd'.1 (heq ▸ List.mem_map_of_mem key hft)
      rw [List.find?_cons_of_neg _ (by simpa using hgne)]
      exact ih hnd'.2 hft

theorem mem_findFrame {tr : TFTree} (hnd : (tr.frames.map FrameNode.id).Nodup)
    {f : FrameNode} (hf : f ∈ tr.frames) : tr.findFrame f.id = some f :=
  find?_eq_of_mem_nodup FrameNode.id tr.frames hnd hf

theorem hasDepth_functional {tr : TFTree} {x : String} {n m : ℕ}
    (h1 : HasDepth tr x n) (h2 : HasDepth tr x m) : n = m := by
  induction h1 generalizing m with
  | root x f hf hp =>
    cases h2 with
    | root _ g hg hq => rfl
    | child _ g q k hg hk _ =>
      rw [hf, Option.some.injEq] at hg
      subst hg
      rw [hp] at hk
      cases hk
  | child x f p n hf hp hd ih =>
    cases h2 with
    | root _ g hg hq =>
      rw [hf, Option.some.injEq] at hg
      subst hg
      rw [hp] at hq
      cases hq
    | child _ g q k hg hk hdd =>
      rw [hf, Option.some.injEq] at hg
      subst hg
      rw [hp, Option.some.injEq] at hk
      subst hk
      rw [ih hdd]

theorem hasDepth_child_inv {tr : TFTree} {x p : String} {f : FrameNode} {n : ℕ}
    (hf : tr.findFrame x = some f) (hp : f.parentId = some p)
    (h : HasDepth tr x n) : ∃ m, n = m + 1 ∧ HasDepth tr p m := by
  cases h with
  | root _ g hg hq =>
    rw [hf, Option.some.injEq] at hg
    subst hg
    rw [hp] at hq
    cases hq
  | child _ g q k hg hk hdd =>
    rw [hf, Option.some.injEq] at hg
    subst hg
    rw [hp, Option.some.injEq] at hk
    subst hk
    exact ⟨k, rfl, hdd⟩

theorem ancSelf_depth {tr : TFTree} {a x : String} {n : ℕ}
    (hanc : AncSelf tr a x) (hd : HasDepth tr x n) :
    ∃ m, HasDepth tr a m ∧ (a = x ∨ m < n) := by
  induction hanc generalizing n with
  | refl => exact ⟨n, hd, Or.inl rfl⟩
  | step x f p hf hp _ ih =>
    obtain ⟨m, rfl, hdp⟩ := hasDepth_child_inv hf hp hd
    obtain ⟨k, hk, hor⟩ := ih hdp
    refine ⟨k, hk, Or.inr ?_⟩
    rcases hor with rfl | hlt
    · have := hasDepth_functional hk hdp
      omega
    · omega

/-- On a graph where the frame has a depth, no frame is its own proper
ancestor. -/
theorem not_properAnc_self {tr : TFTree} {x : String} {n : ℕ}
    (hd : HasDepth tr x n) : ¬ ProperAnc tr x x := by
  rintro ⟨f, p, hf, hp, hanc⟩
  obtain ⟨m, rfl, hdp⟩ := hasDepth_child_inv hf hp hd
  obtain ⟨k, hk, hor⟩ := ancSelf_depth hanc hdp
  have h1 := hasDepth_functional hk hd
  rcases hor with rfl | hlt
  · have := hasDepth_functional hd hdp
    omega
  · omega

theorem worldIs_functional {tr : TFTree} {x : String} {T U : Transform}
    (h1 : WorldIs tr x T) (h2 : WorldIs tr x U) : T = U := by
  induction h1 generalizing U with
  | root x f hf hp =>
    cases h2 with
    | root _ g hg hq =>
      rw [hf, Option.some.injEq] at hg
      subst hg
      rfl
    | child _ g q qw hg hk _ =>
      rw [hf, Option.some.injEq] at hg
      subst hg
      rw [hp] at hk
      cases hk
  | child x f p pw hf hp hw ih =>
    cases h2 with
    | root _ g hg hq =>
      rw [hf, Option.some.injEq] at hg
      subst hg
      rw [hp] at hq
      cases hq
    | child _ g q qw hg hk hww =>
      rw [hf, Option.some.injEq] at hg
      subst hg
      rw [hp, Option.some.injEq] at hk
      subst hk
      rw [ih hww]

/-! Transport between trees agreeing on the relevant chains. -/

theorem ancSelf_transport {tr tr' : TFTree} {a x : String}
    (H : ∀ y, AncSelf tr y x → tr'.findFrame y = tr.findFrame y)
    (h : AncSelf tr a x) : AncSelf tr' a x := by
  induction h with
  | refl => exact AncSelf.refl _
  | step x f p hf hp hanc ih =>
    refine AncSelf.step a x f p ?_ hp ?_
    · rw [H x (AncSelf.refl x), hf]
    · refine ih ?_
      intro y hy
      exact H y (AncSelf.step y x f p hf hp hy)

theorem hasDepth_transport {tr tr' : TFTree} {x : String} {n : ℕ}
    (H : ∀ y, AncSelf tr y x → tr'.findFrame y = tr.findFrame y)
    (h : HasDepth tr x n) : HasDepth tr' x n := by
  induction h with
  | root x' f hf hp =>
    refine HasDepth.root x' f ?_ hp
    rw [H x' (AncSelf.refl x'), hf]
  | child x' f p n hf hp _ ih =>
    refine HasDepth.child x' f p n ?_ hp ?_
    · rw [H x' (AncSelf.refl x'), hf]
    · refine ih ?_
      intro y hy
      exact H y (AncSelf.step y x' f p hf hp hy)

theorem worldIs_transport {tr tr' : TFTree} {x : String} {T : Transform}
    (H : ∀ y, AncSelf tr y x → tr'.findFrame y = tr.findFrame y)
    (h : WorldIs tr x T) : WorldIs tr' x T := by
  induction h with
  | root x' f hf hp =>
    refine WorldIs.root x' f ?_ hp
    rw [H x' (AncSelf.refl x'), hf]
  | child x' f p pw hf hp _ ih =>
    refine WorldIs.child x' f p pw ?_ hp ?_
    · rw [H x' (AncSelf.refl x'), hf]
    · refine ih ?_
      intro y hy
      exact H y (AncSelf.step y x' f p hf hp hy)

/-- Decomposition of subtree membership at the root: `y` is `root` itself or
lies in the subtree of one of `root`'s children. -/
theorem ancSelf_top {tr : TFTree} {root y : String} (h : AncSelf tr root y) :
    y = root ∨ ∃ c fc, tr.findFrame c = some fc ∧ fc.parentId = some root ∧
      AncSelf tr c y := by
  induction h with
  | refl => exact Or.inl rfl
  | step x f p hf hp hanc ih =>
    rcases ih with rfl | ⟨c, fc, hc, hcp, hcy⟩
    · exact Or.inr ⟨x, f, hf, hp, AncSelf.refl x⟩
    · exact Or.inr ⟨c, fc, hc, hcp, AncSelf.step c x f p hf hp hcy⟩

/-! ### Dirty-marking characterisation

`markSubtreeDirty` marks exactly the subtree of the given frame (spec §4.C
"Dirty propagation"): the DFS over `childrenMap` visits precisely the frames
whose parent chain passes through the root of the marking. -/

/-- Chains are no longer than the frame count (so `frames.length + 1` fuel
covers every walk on a well-formed tree). -/
theorem depth_lt_length {tr : TFTree} (hwf : WF tr) {x : String} {n : ℕ}
    (hd : HasDepth tr x n) : n < tr.frames.length := by
  have key : ∀ {y : String} {m : ℕ}, HasDepth tr y m →
      ∃ l : List String, l.length = m + 1 ∧ l.Nodup ∧
        (∀ c ∈ l, c ∈ tr.frames.map FrameNode.id) ∧
        (∀ c ∈ l, ∃ k ≤ m, HasDepth tr c k) := by
    intro y m hdy
    induction hdy with
    | root x f hf hp =>
      refine ⟨[x], rfl, List.nodup_singleton x, ?_, ?_⟩
      · intro c hc
        rw [List.mem_singleton] at hc
        subst hc
        rcases findFrame_mem hf with ⟨hmem, hid⟩
        exact hid ▸ List.mem_map_of_mem _ hmem
      · intro c hc
        rw [List.mem_singleton] at hc
        subst hc
        exact ⟨0, Nat.le_refl 0, HasDepth.root _ f hf hp⟩
    | child x f p m hf hp hdp ih =>
      obtain ⟨l, hlen, hnd, hmem, hdep⟩ := ih
      have hxl : x ∉ l := by
        intro hx
        obtain ⟨k, hk, hdk⟩ := hdep x hx
        have := hasDepth_functional hdk (HasDepth.child x f p m hf hp hdp)
        omega
      refine ⟨x :: l, by simp [hlen], List.Nodup.cons hxl hnd, ?_, ?_⟩
      · intro c hc
        rcases List.mem_cons.mp hc with rfl | hcl
        · rcases findFrame_mem hf with ⟨hmem', hid⟩
          exact hid ▸ List.mem_map_of_mem _ hmem'
        · exact hmem c hcl
      · intro c hc
        rcases List.mem_cons.mp hc with rfl | hcl
        · exact ⟨m + 1, Nat.le_refl _, HasDepth.child c f p m hf hp hdp⟩
        · obtain ⟨k, hk, hdk⟩ := hdep c hcl
          exact ⟨k, Nat.le_succ_of_le hk, hdk⟩
  obtain ⟨l, hlen, hnd, hmem, _⟩ := key hd
  have hsub : l ⊆ tr.frames.map FrameNode.id := fun c hc => hmem c hc
  have := (List.subperm_of_subset hnd hsub).length_le
  have hlm : (tr.frames.map FrameNode.id).length = tr.frames.length :=
    List.length_map _ _
  omega

/-- Well-formedness transports across trees with the same frames and
children map (the dirty set and cache play no role in `WF`). -/
theorem wf_of_struct_eq {tr tr' : TFTree} (hf : tr'.frames = tr.frames)
    (hc : tr'.childrenMap = tr.childrenMap) (hwf : WF tr) : WF tr' := by
  have hfind : ∀ y, tr'.findFrame y = tr.findFrame y := by
    intro y
    unfold TFTree.findFrame
    rw [hf]
  have hchild : ∀ p, tr'.childValues p = tr.childValues p := by
    intro p
    unfold TFTree.childValues
    rw [hc]
  refine ⟨?_, ?_, ?_, ?_, ?_⟩
  · rw [hf]; exact hwf.nodup
  · intro f hfm
    rw [hf] at hfm
    obtain ⟨n, hn⟩ := hwf.depths f hfm
    exact ⟨n, hasDepth_transport (fun y _ => hfind y) hn⟩
  · intro l1 f l2 heq pid hpid
    rw [hf] at heq
    exact hwf.topo l1 f l2 heq pid hpid
  · intro p c
    rw [hchild, hf]
    exact hwf.childrenMem p c
  · intro f hfm
    rw [hc]
    rw [hf] at hfm
    exact hwf.childrenKeys f hfm

theorem ancSelf_congr {tr tr' : TFTree} (hfind : ∀ y, tr'.findFrame y = tr.findFrame y)
    {a x : String} : AncSelf tr a x ↔ AncSelf tr' a x :=
  ⟨ancSelf_transport (fun y _ => hfind y),
   ancSelf_transport (fun y _ => (hfind y).symm)⟩

/-- If `c`'s parent is `q` and `c` is on `y`'s chain, then `q` is on `y`'s
chain as well. -/
theorem ancSelf_parent {tr : TFTree} {c y q : String} {fc : FrameNode}
    (hc : tr.findFrame c = some fc) (hq : fc.parentId = some q)
    (h : AncSelf tr c y) : AncSelf tr q y := by
  induction h with
  | refl => exact AncSelf.step q c fc q hc hq (AncSelf.refl q)
  | step x f p hf hp _ ih => exact AncSelf.step q x f p hf hp ih

/-- Subtree membership decomposed through `childrenMap` (requires the
children map to be coherent with the parent fields). -/
theorem inSubtree_iff_children {tr : TFTree} (hwf : WF tr) (id y : String) :
    InSubtree tr id y ↔
      y = id ∨ ∃ c ∈ tr.childValues id, InSubtree tr c y := by
  constructor
  · intro h
    rcases ancSelf_top h with rfl | ⟨c, fc, hc, hcp, hcy⟩
    · exact Or.inl rfl
    · refine Or.inr ⟨c, ?_, hcy⟩
      rw [hwf.childrenMem]
      rcases findFrame_mem hc with ⟨hmem, hid⟩
      exact ⟨fc, hmem, hid, hcp⟩
  · rintro (rfl | ⟨c, hcv, hcy⟩)
    · exact AncSelf.refl y
    · rw [hwf.childrenMem] at hcv
      obtain ⟨fc, hmem, rfl, hcp⟩ := hcv
      exact ancSelf_parent (mem_findFrame hwf.nodup hmem) hcp hcy

/-- Effect of `markSubtreeDirty`: with enough fuel (covered by
`frames.length + 1` via `depth_lt_length`) it succeeds, touches neither
`frames` nor `childrenMap`, adds exactly the subtree of `id` to the dirty
set, and evicts exactly the subtree's cache entries. -/
theorem mark_spec : ∀ fuel : ℕ, ∀ tr : TFTree, ∀ id : String, ∀ n : ℕ,
    WF tr → HasDepth tr id n → tr.frames.length - n ≤ fuel →
    ∃ tr', markSubtreeDirtyF fuel tr id = (tr', none) ∧
      tr'.frames = tr.frames ∧ tr'.childrenMap = tr.childrenMap ∧
      (∀ x, x ∈ tr'.dirtySet ↔ x ∈ tr.dirtySet ∨ InSubtree tr id x) ∧
      (∀ x, InSubtree tr id x → assocGet tr'.worldTransformCache x = none) ∧
      (∀ x, ¬ InSubtree tr id x →
        assocGet tr'.worldTransformCache x
          = assocGet tr.worldTransformCache x) := by
  intro fuel
  induction fuel using Nat.strong_induction_on with
  | _ fuel ihF =>
    intro tr id n hwf hd hfuel
    cases fuel with
    | zero =>
      have := depth_lt_length hwf hd
      omega
    | succ g =>
      have hglt : g < g + 1 := Nat.lt_succ_self g
      -- the state after the local mutation of `markSubtreeDirty`
      set tr1 : TFTree :=
        { tr with dirtySet := setAdd tr.dirtySet id,
                  worldTransformCache :=
                    assocDelete tr.worldTransformCache id } with htr1
      have hfind1 : ∀ y, tr1.findFrame y = tr.findFrame y := fun _ => rfl
      have inner : ∀ cs : List String, ∀ tr2 : TFTree,
          tr2.frames = tr.frames → tr2.childrenMap = tr.childrenMap →
          (∀ c ∈ cs, ∃ m, HasDepth tr c m ∧ tr.frames.length - m ≤ g) →
          ∃ tr3, markChildrenF g tr2 cs = (tr3, none) ∧
            tr3.frames = tr.frames ∧ tr3.childrenMap = tr.childrenMap ∧
            (∀ x, x ∈ tr3.dirtySet ↔ x ∈ tr2.dirtySet ∨
              ∃ c ∈ cs, InSubtree tr c x) ∧
            (∀ x, (∃ c ∈ cs, InSubtree tr c x) →
              assocGet tr3.worldTransformCache x = none) ∧
            (∀ x, ¬ (∃ c ∈ cs, InSubtree tr c x) →
              assocGet tr3.worldTransformCache x
                = assocGet tr2.worldTransformCache x) := by
        intro cs
        induction cs with
        | nil =>
          intro tr2 hf2 hc2 _
          refine ⟨tr2, by simp [markChildrenF], hf2, hc2, ?_, ?_, ?_⟩ <;> simp
        | cons c cs' ihcs =>
          intro tr2 hf2 hc2 hdep
          obtain ⟨m, hdm, hfm⟩ := hdep c (by simp)
          have hfind2 : ∀ y, tr2.findFrame y = tr.findFrame y := by
            intro y
            unfold TFTree.findFrame
            rw [hf2]
          have hwf2 : WF tr2 := wf_of_struct_eq hf2 hc2 hwf
          have hdm2 : HasDepth tr2 c m :=
            hasDepth_transport (fun y _ => hfind2 y) hdm
          obtain ⟨tr2', hmark, hf2', hc2', hdirty', hcnone', hckeep'⟩ :=
            ihF g hglt tr2 c m hwf2 hdm2 (by rw [hf2]; exact hfm)
          have hsub2 : ∀ a x, InSubtree tr2 a x ↔ InSubtree tr a x :=
            fun a x => (ancSelf_congr hfind2).symm
          obtain ⟨tr3, hrest, hf3, hc3, hdirty3, hcnone3, hckeep3⟩ :=
            ihcs tr2' (by rw [hf2', hf2]) (by rw [hc2', hc2]) (fun d hdcs =>
              hdep d (by simp [hdcs]))
          refine ⟨tr3, ?_, hf3, hc3, ?_, ?_, ?_⟩
          · simp only [markChildrenF, hmark]
            exact hrest
          · intro x
            rw [hdirty3 x, hdirty' x, hsub2 c x]
            simp only [List.mem_cons]
            constructor
            · rintro ((h | h) | ⟨d, hd1, hd2⟩)
              · exact Or.inl h
              · exact Or.inr ⟨c, Or.inl rfl, h⟩
              · exact Or.inr ⟨d, Or.inr hd1, hd2⟩
            · rintro (h | ⟨d, (rfl | hd1), hd2⟩)
              · exact Or.inl (Or.inl h)
              · exact Or.inl (Or.inr hd2)
              · exact Or.inr ⟨d, hd1, hd2⟩
          · intro x hx
            obtain ⟨d, hd1, hd2⟩ := hx
            rcases List.mem_cons.mp hd1 with rfl | hd1'
            · by_cases hcs : ∃ d ∈ cs', InSubtree tr d x
              · exact hcnone3 x hcs
              · rw [hckeep3 x hcs]
                exact hcnone' x ((hsub2 d x).mpr hd2)
            · exact hcnone3 x ⟨d, hd1', hd2⟩
          · intro x hx
            have hxc : ¬ InSubtree tr c x := fun h => hx ⟨c, by simp, h⟩
            have hxcs : ¬ ∃ d ∈ cs', InSubtree tr d x :=
              fun ⟨d, hd1, hd2⟩ => hx ⟨d, by simp [hd1], hd2⟩
            rw [hckeep3 x hxcs, hckeep' x (fun h => hxc ((hsub2 c x).mp h))]
      have hchildren : ∀ c ∈ tr.childValues id,
          ∃ m, HasDepth tr c m ∧ tr.frames.length - m ≤ g := by
        intro c hc
        rw [hwf.childrenMem] at hc
        obtain ⟨fc, hmem, rfl, hcp⟩ := hc
        have hfc : tr.findFrame fc.id = some fc := mem_findFrame hwf.nodup hmem
        exact ⟨n + 1, HasDepth.child fc.id fc id n hfc hcp hd, by omega⟩
      obtain ⟨tr3, hrun, hf3, hc3, hdirty3, hcnone3, hckeep3⟩ :=
        inner (tr.childValues id) tr1 rfl rfl hchildren
      refine ⟨tr3, ?_, hf3, hc3, ?_, ?_, ?_⟩
      · simp only [markSubtreeDirtyF]
        exact hrun
      · intro x
        rw [hdirty3 x]
        have h1 : x ∈ tr1.dirtySet ↔ x ∈ tr.dirtySet ∨ x = id := mem_setAdd
        rw [h1, inSubtree_iff_children hwf id x]
        tauto
      · intro x hx
        rw [inSubtree_iff_children hwf id x] at hx
        rcases hx with rfl | ⟨c, hc1, hc2⟩
        · by_cases hcs : ∃ c ∈ tr.childValues x, InSubtree tr c x
          · exact hcnone3 x hcs
          · rw [hckeep3 x hcs]
            show assocGet (assocDelete tr.worldTransformCache x) x = none
            rw [assocGet_assocDelete]
            simp
        · exact hcnone3 x ⟨c, hc1, hc2⟩
      · intro x hx
        rw [inSubtree_iff_children hwf id x] at hx
        push_neg at hx
        have hxid : x ≠ id := hx.1
        have hxcs : ¬ ∃ c ∈ tr.childValues id, InSubtree tr c x := by
          rintro ⟨c, hc1, hc2⟩
          exact (hx.2 c hc1) hc2
        rw [hckeep3 x hxcs]
        show assocGet (assocDelete tr.worldTransformCache id) x
          = assocGet tr.worldTransformCache x
        rw [assocGet_assocDelete]
        simp [hxid]

/-! ### Parent-structure congruence

Transform updates replace frame nodes but preserve ids and parent links;
ancestry, depth and subtree membership depend only on the latter. -/

/-- The id→parent view of the frame map. -/
def parentOf (tr : TFTree) (y : String) : Option (Option String) :=
  (tr.findFrame y).map (fun f => f.parentId)

theorem ancSelf_congr_parent {tr tr' : TFTree}
    (H : ∀ y, parentOf tr' y = parentOf tr y) {a x : String}
    (h : AncSelf tr a x) : AncSelf tr' a x := by
  induction h with
  | refl => exact AncSelf.refl _
  | step x f p hf hp _ ih =>
    have hx : parentOf tr' x = some (some p) := by
      rw [H x]
      unfold parentOf
      rw [hf, Option.map_some', hp]
    unfold parentOf at hx
    rcases Option.map_eq_some'.mp hx with ⟨f', hf', hp'⟩
    exact AncSelf.step _ x f' p hf' hp' ih

theorem hasDepth_congr_parent {tr tr' : TFTree}
    (H : ∀ y, parentOf tr' y = parentOf tr y) {x : String} {n : ℕ}
    (h : HasDepth tr x n) : HasDepth tr' x n := by
  induction h with
  | root x f hf hp =>
    have hx : parentOf tr' x = some none := by
      rw [H x]
      unfold parentOf
      rw [hf, Option.map_some', hp]
    unfold parentOf at hx
    rcases Option.map_eq_some'.mp hx with ⟨f', hf', hp'⟩
    exact HasDepth.root x f' hf' hp'
  | child x f p n hf hp _ ih =>
    have hx : parentOf tr' x = some (some p) := by
      rw [H x]
      unfold parentOf
      rw [hf, Option.map_some', hp]
    unfold parentOf at hx
    rcases Option.map_eq_some'.mp hx with ⟨f', hf', hp'⟩
    exact HasDepth.child x f' p n hf' hp' ih

theorem inSubtree_congr_parent {tr tr' : TFTree}
    (H : ∀ y, parentOf tr' y = parentOf tr y) {root y : String} :
    InSubtree tr root y ↔ InSubtree tr' root y :=
  ⟨ancSelf_congr_parent H,
   ancSelf_congr_parent (fun z => (H z).symm)⟩

/-- `find?` by key commutes with a key-preserving rewrite of the members. -/
theorem find?_keyMap {α : Type} (key : α → String) (g : α → α) (l : List α)
    (hg : ∀ a ∈ l, key (g a) = key a) (x : String) :
    List.find? (fun f => key f == x) (l.map g)
      = (List.find? (fun f => key f == x) l).map g := by
  induction l with
  | nil => rfl
  | cons f t ih =>
    have hgf : key (g f) = key f := hg f (by simp)
    by_cases hfx : key f = x
    · rw [List.map_cons,
        @List.find?_cons_of_pos _ (fun f => key f == x) (g f) _
          (by simp [hgf, hfx]),
        @List.find?_cons_of_pos _ (fun f => key f == x) f _ (by simp [hfx])]
      rfl
    · rw [List.map_cons,
        @List.find?_cons_of_neg _ (fun f => key f == x) (g f) _
          (by simp [hgf, hfx]),
        @List.find?_cons_of_neg _ (fun f => key f == x) f _ (by simp [hfx])]
      exact ih (fun a ha => hg a (by simp [ha]))

/-- Well-formedness survives a pointwise id- and parent-preserving rewrite
of the frame nodes. -/
theorem wf_map_transport {tr tr' : TFTree} (g : FrameNode → FrameNode)
    (hg_id : ∀ f ∈ tr.frames, (g f).id = f.id)
    (hg_par : ∀ f ∈ tr.frames, (g f).parentId = f.parentId)
    (hf : tr'.frames = tr.frames.map g) (hc : tr'.childrenMap = tr.childrenMap)
    (hwf : WF tr) :
    WF tr' ∧ (∀ y, parentOf tr' y = parentOf tr y) := by
  have hfind : ∀ y, tr'.findFrame y
      = (tr.findFrame y).map g := by
    intro y
    unfold TFTree.findFrame
    rw [hf]
    exact find?_keyMap FrameNode.id g tr.frames hg_id y
  have hpar : ∀ y, parentOf tr' y = parentOf tr y := by
    intro y
    unfold parentOf
    rw [hfind y]
    cases hfy : tr.findFrame y with
    | none => rfl
    | some f =>
      have hfm : f ∈ tr.frames := (findFrame_mem hfy).1
      simp [hg_par f hfm]
  refine ⟨⟨?_, ?_, ?_, ?_, ?_⟩, hpar⟩
  · rw [hf, List.map_map]
    have : (FrameNode.id ∘ g) ∘ (fun f => f) = FrameNode.id ∘ g := rfl
    rw [show tr.frames.map (FrameNode.id ∘ g)
        = tr.frames.map FrameNode.id from
      List.map_congr_left (fun f hfm => hg_id f hfm)]
    exact hwf.nodup
  · intro f hfm
    rw [hf] at hfm
    rcases List.mem_map.mp hfm with ⟨f0, hf0, rfl⟩
    obtain ⟨n, hn⟩ := hwf.depths f0 hf0
    refine ⟨n, ?_⟩
    rw [hg_id f0 hf0]
    exact hasDepth_congr_parent hpar hn
  · intro l1 f l2 heq pid hpid
    rw [hf] at heq
    rcases List.map_eq_append_iff.mp heq with ⟨l1', lrest, hsplit, hl1, hl2⟩
    cases lrest with
    | nil => simp at hl2
    | cons f0 l2' =>
      rw [List.map_cons] at hl2
      have hff0 : f = g f0 := by
        have := hl2
        injection this with h1 _
        exact h1.symm
      have hl2tail : l2 = l2'.map g := by
        injection hl2 with _ h2
        exact h2.symm
      have hf0mem : f0 ∈ tr.frames := by
        rw [hsplit]
        simp
      have hpid0 : f0.parentId = some pid := by
        rw [← hg_par f0 hf0mem, ← hff0]
        exact hpid
      have htopo := hwf.topo l1' f0 l2' hsplit pid hpid0
      rw [← hl1, List.map_map]
      rcases List.mem_map.mp htopo with ⟨c0, hc0, hcid⟩
      refine List.mem_map.mpr ⟨c0, hc0, ?_⟩
      have hc0mem : c0 ∈ tr.frames := by
        rw [hsplit]
        exact List.mem_append.mpr (Or.inl hc0)
      show (g c0).id = pid
      rw [hg_id c0 hc0mem]
      exact hcid
  · intro p c
    have hcv : tr'.childValues p = tr.childValues p := by
      unfold TFTree.childValues
      rw [hc]
    rw [hcv, hwf.childrenMem p c, hf]
    constructor
    · rintro ⟨f0, hf0, rfl, hp0⟩
      refine ⟨g f0, List.mem_map_of_mem g hf0, ?_, ?_⟩
      · exact hg_id f0 hf0
      · rw [hg_par f0 hf0]
        exact hp0
    · rintro ⟨f1, hf1, hid1, hp1⟩
      rcases List.mem_map.mp hf1 with ⟨f0, hf0, rfl⟩
      refine ⟨f0, hf0, ?_, ?_⟩
      · rw [← hg_id f0 hf0]
        exact hid1
      · rw [← hg_par f0 hf0]
        exact hp1
  · intro f hfm
    rw [hf] at hfm
    rcases List.mem_map.mp hfm with ⟨f0, hf0, rfl⟩
    rw [hc, hg_id f0 hf0]
    exact hwf.childrenKeys f0 hf0

/-! ### Mutator characterisations -/

/-- With a unique id column, any member carrying the looked-up id *is* the
looked-up node. -/
theorem findFrame_unique {tr : TFTree} (hwf : WF tr) {id : String}
    {f f' : FrameNode} (hfind : tr.findFrame id = some f)
    (hmem : f' ∈ tr.frames) (hid : f'.id = id) : f' = f := by
  have h2 := mem_findFrame hwf.nodup hmem
  rw [hid, hfind] at h2
  exact ((Option.some.injEq _ _).mp h2).symm

/-- Facts about the frames-map overwrite `frames.set(id, {...frame,
transform})` both update passes perform. -/
theorem framesSet_update_facts {tr : TFTree} {id : String} {f : FrameNode}
    (T : Transform) (hwf : WF tr) (hfind : tr.findFrame id = some f) :
    ∀ trS : TFTree,
      trS.frames = framesSet tr.frames id ({ f with transform := T }) →
      trS.childrenMap = tr.childrenMap →
      WF trS ∧ (∀ y, parentOf trS y = parentOf tr y) ∧
        trS.frames.length = tr.frames.length ∧
        (∀ y, trS.findFrame y
          = if y = id then some ({ f with transform := T })
            else tr.findFrame y) := by
  intro trS hfS hcS
  have hpresent : tr.frames.any (fun h => h.id == id) = true := by
    refine List.any_eq_true.mpr ⟨f, (findFrame_mem hfind).1, ?_⟩
    simp [(findFrame_mem hfind).2]
  have hmapform : framesSet tr.frames id ({ f with transform := T })
      = tr.frames.map
          (fun h => if h.id == id then ({ f with transform := T }) else h) := by
    unfold framesSet
    rw [if_pos hpresent]
  have hg_id : ∀ h ∈ tr.frames,
      ((fun h => if h.id == id then ({ f with transform := T }) else h) h).id
        = h.id := by
    intro h _
    by_cases hh : h.id = id
    · have hb : (h.id == id) = true := by simp [hh]
      show (if h.id == id then ({ f with transform := T }) else h).id = h.id
      rw [if_pos hb]
      show f.id = h.id
      rw [(findFrame_mem hfind).2, hh]
    · simp [hh]
  have hg_par : ∀ h ∈ tr.frames,
      ((fun h => if h.id == id then ({ f with transform := T }) else h)
        h).parentId = h.parentId := by
    intro h hmem
    by_cases hh : h.id = id
    · have : h = f := findFrame_unique hwf hfind hmem hh
      subst this
      simp [hh]
    · simp [hh]
  obtain ⟨hwfS, hparS⟩ := wf_map_transport _ hg_id hg_par
    (by rw [hfS, hmapform]) hcS hwf
  refine ⟨hwfS, hparS, ?_, ?_⟩
  · rw [hfS, hmapform, List.length_map]
  · intro y
    unfold TFTree.findFrame
    rw [hfS]
    rw [find?_framesSet tr.frames id y ({ f with transform := T })
      (findFrame_mem hfind).2]

/-- Effect of a successful `updateTransform` (C2, single-update part):
the frame's transform is replaced and exactly its subtree is invalidated. -/
theorem updateTransform_spec {tr : TFTree} {id : String} {f : FrameNode}
    (T : Transform) (hwf : WF tr) (hfind : tr.findFrame id = some f) :
    ∃ tr', tr.updateTransform id T = (tr', none) ∧
      tr'.frames = framesSet tr.frames id ({ f with transform := T }) ∧
      tr'.childrenMap = tr.childrenMap ∧
      WF tr' ∧ (∀ y, parentOf tr' y = parentOf tr y) ∧
      tr'.frames.length = tr.frames.length ∧
      (∀ x, x ∈ tr'.dirtySet ↔ x ∈ tr.dirtySet ∨ InSubtree tr id x) ∧
      (∀ x, InSubtree tr id x →
        assocGet tr'.worldTransformCache x = none) ∧
      (∀ x, ¬ InSubtree tr id x →
        assocGet tr'.worldTransformCache x
          = assocGet tr.worldTransformCache x) := by
  set trM : TFTree :=
    { tr with frames := framesSet tr.frames id ({ f with transform := T }) }
    with htrM
  obtain ⟨hwfM, hparM, hlenM, hfindM⟩ :=
    framesSet_update_facts T hwf hfind trM rfl rfl
  obtain ⟨n, hdn⟩ := by
    have := hwf.depths f (findFrame_mem hfind).1
    rwa [(findFrame_mem hfind).2] at this
  have hdnM : HasDepth trM id n := hasDepth_congr_parent hparM hdn
  obtain ⟨tr', hmark, hfr', hch', hdirty', hcnone', hckeep'⟩ :=
    mark_spec (tr.frames.length + 1) trM id n hwfM hdnM (by omega)
  refine ⟨tr', ?_, by rw [hfr'], by rw [hch'], ?_, ?_, ?_, ?_, ?_, ?_⟩
  · show tr.updateTransform id T = (tr', none)
    unfold TFTree.updateTransform
    rw [hfind]
    exact hmark
  · exact wf_of_struct_eq hfr' hch' hwfM
  · intro y
    have : tr'.findFrame y = trM.findFrame y := by
      unfold TFTree.findFrame
      rw [hfr']
    unfold parentOf
    rw [this]
    exact hparM y
  · rw [hfr']
    exact hlenM
  · intro x
    rw [hdirty' x]
    exact or_congr_right (inSubtree_congr_parent hparM).symm
  · intro x hx
    exact hcnone' x ((inSubtree_congr_parent hparM).mp hx)
  · intro x hx
    exact hckeep' x (fun h => hx ((inSubtree_congr_parent hparM).mpr h))

/-- `hasFrame` is the definedness of the parent view. -/
theorem hasFrame_eq_isSome (tr : TFTree) (y : String) :
    tr.hasFrame y = (tr.findFrame y).isSome := rfl

/-- Registration status is determined by the parent view. -/
theorem hasFrame_congr_parent {tr tr' : TFTree}
    (H : ∀ y, parentOf tr' y = parentOf tr y) (y : String) :
    tr'.hasFrame y = tr.hasFrame y := by
  have h1 : ∀ t : TFTree, t.hasFrame y = (parentOf t y).isSome := by
    intro t
    unfold TFTree.hasFrame parentOf
    cases h : t.findFrame y <;> simp [h]
  rw [h1, h1, H]

/-- First-pass characterisation on an all-registered batch (lines 115–121):
it succeeds, rewrites only the transforms of the listed frames, and leaves
the dirty set, cache and children map untouched. -/
theorem applyUpdates_spec :
    ∀ (updates : List (String × Transform)) (tr : TFTree),
    WF tr → (∀ k ∈ updates.map Prod.fst, tr.hasFrame k = true) →
    ∃ tr1, TFTree.applyUpdates tr updates = (tr1, none) ∧
      WF tr1 ∧ (∀ y, parentOf tr1 y = parentOf tr y) ∧
      tr1.childrenMap = tr.childrenMap ∧
      tr1.dirtySet = tr.dirtySet ∧
      tr1.worldTransformCache = tr.worldTransformCache ∧
      tr1.frames.length = tr.frames.length := by
  intro updates
  induction updates with
  | nil =>
    intro tr hwf _
    exact ⟨tr, rfl, hwf, fun _ => rfl, rfl, rfl, rfl, rfl⟩
  | cons u rest ih =>
    intro tr hwf hkeys
    obtain ⟨id, T⟩ := u
    have hid : tr.hasFrame id = true := hkeys id (by simp)
    rw [hasFrame_eq_isSome] at hid
    obtain ⟨f, hfind⟩ := Option.isSome_iff_exists.mp hid
    set trM : TFTree :=
      { tr with frames := framesSet tr.frames id ({ f with transform := T }) }
      with htrM
    obtain ⟨hwfM, hparM, hlenM, _⟩ :=
      framesSet_update_facts T hwf hfind trM rfl rfl
    have hkeysM : ∀ k ∈ rest.map Prod.fst, trM.hasFrame k = true := by
      intro k hk
      rw [hasFrame_congr_parent hparM]
      exact hkeys k (by simp [hk])
    obtain ⟨tr1, happ, hwf1, hpar1, hch1, hd1, hc1, hlen1⟩ := ih trM hwfM hkeysM
    refine ⟨tr1, ?_, hwf1, fun y => (hpar1 y).trans (hparM y), hch1, hd1, hc1,
      hlen1.trans hlenM⟩
    show TFTree.applyUpdates tr ((id, T) :: rest) = (tr1, none)
    unfold TFTree.applyUpdates
    rw [hfind]
    exact happ

/-- First-pass failure shape (C1): a batch with an all-registered prefix
followed by an unregistered key throws `FrameNotFound` *after* the prefix's
transforms have already been applied; dirty set and cache are untouched. -/
theorem applyUpdates_fail :
    ∀ (good : List (String × Transform)) (tr : TFTree),
    WF tr → (∀ k ∈ good.map Prod.fst, tr.hasFrame k = true) →
    ∀ (bad : String) (T : Transform) (rest : List (String × Transform)),
    tr.hasFrame bad = false →
    ∃ tr1, TFTree.applyUpdates tr (good ++ (bad, T) :: rest)
        = (tr1, some (.frameNotFound bad)) ∧
      TFTree.applyUpdates tr good = (tr1, none) ∧
      WF tr1 ∧ (∀ y, parentOf tr1 y = parentOf tr y) ∧
      tr1.childrenMap = tr.childrenMap ∧
      tr1.dirtySet = tr.dirtySet ∧
      tr1.worldTransformCache = tr.worldTransformCache := by
  intro good
  induction good with
  | nil =>
    intro tr hwf _ bad T rest hbad
    have hnone : tr.findFrame bad = none := by
      cases h : tr.findFrame bad with
      | none => rfl
      | some f =>
        rw [hasFrame_eq_isSome, h] at hbad
        simp at hbad
    refine ⟨tr, ?_, rfl, hwf, fun _ => rfl, rfl, rfl, rfl⟩
    show TFTree.applyUpdates tr ((bad, T) :: rest) = (tr, some (.frameNotFound bad))
    unfold TFTree.applyUpdates
    rw [hnone]
  | cons u rest' ih =>
    intro tr hwf hkeys bad T rest hbad
    obtain ⟨id, U⟩ := u
    have hid : tr.hasFrame id = true := hkeys id (by simp)
    rw [hasFrame_eq_isSome] at hid
    obtain ⟨f, hfind⟩ := Option.isSome_iff_exists.mp hid
    set trM : TFTree :=
      { tr with frames := framesSet tr.frames id ({ f with transform := U }) }
      with htrM
    obtain ⟨hwfM, hparM, _, _⟩ :=
      framesSet_update_facts U hwf hfind trM rfl rfl
    have hkeysM : ∀ k ∈ rest'.map Prod.fst, trM.hasFrame k = true := by
      intro k hk
      rw [hasFrame_congr_parent hparM]
      exact hkeys k (by simp [hk])
    have hbadM : trM.hasFrame bad = false := by
      rw [hasFrame_congr_parent hparM]
      exact hbad
    obtain ⟨tr1, happ, hpre, hwf1, hpar1, hch1, hd1, hc1⟩ :=
      ih trM hwfM hkeysM bad T rest hbadM
    refine ⟨tr1, ?_, ?_, hwf1, fun y => (hpar1 y).trans (hparM y), hch1, hd1, hc1⟩
    · show TFTree.applyUpdates tr ((id, U) :: (rest' ++ (bad, T) :: rest))
        = (tr1, some (.frameNotFound bad))
      unfold TFTree.applyUpdates
      rw [hfind]
      exact happ
    · show TFTree.applyUpdates tr ((id, U) :: rest') = (tr1, none)
      unfold TFTree.applyUpdates
      rw [hfind]
      exact hpre

/-- Proper-ancestry is determined by the parent view. -/
theorem properAnc_congr_parent {tr tr' : TFTree}
    (H : ∀ y, parentOf tr' y = parentOf tr y) {a x : String} :
    ProperAnc tr' a x ↔ ProperAnc tr a x := by
  unfold ProperAnc
  constructor
  · rintro ⟨f, p, hf, hp, hanc⟩
    have hx : parentOf tr x = some (some p) := by
      rw [← H x]
      unfold parentOf
      rw [hf, Option.map_some', hp]
    unfold parentOf at hx
    rcases Option.map_eq_some'.mp hx with ⟨g, hg, hgp⟩
    exact ⟨g, p, hg, hgp, ancSelf_congr_parent (fun z => (H z).symm) hanc⟩
  · rintro ⟨f, p, hf, hp, hanc⟩
    have hx : parentOf tr' x = some (some p) := by
      rw [H x]
      unfold parentOf
      rw [hf, Option.map_some', hp]
    unfold parentOf at hx
    rcases Option.map_eq_some'.mp hx with ⟨g, hg, hgp⟩
    exact ⟨g, p, hg, hgp, ancSelf_congr_parent H hanc⟩

/-- The ancestor walk starting from "no parent" reports `false` at any
fuel. -/
theorem ancestorInKeys_none (tr : TFTree) (keys : List String) (fuel : ℕ) :
    TFTree.ancestorInKeys tr keys fuel none = .ok false := by
  cases fuel <;> rfl

/-- Characterisation of the second-pass ancestor walk (lines 128–136):
starting at a registered frame `p` of depth `n` with fuel above `n`, it
terminates and reports whether some member of `keys` lies on `p`'s
ancestor-or-self chain. -/
theorem ancestorInKeys_spec {tr : TFTree} (keys : List String) :
    ∀ (n fuel : ℕ) (p : String), HasDepth tr p n → n < fuel →
    ∃ b, TFTree.ancestorInKeys tr keys fuel (some p) = .ok b ∧
      (b = true ↔ ∃ a ∈ keys, AncSelf tr a p) := by
  intro n
  induction n using Nat.strong_induction_on with
  | _ n ih =>
    intro fuel p hd hfuel
    cases fuel with
    | zero => omega
    | succ g =>
      cases hp : keys.contains p with
      | true =>
        refine ⟨true, ?_, ?_⟩
        · unfold TFTree.ancestorInKeys
          rw [hp]
          rfl
        · simp only [eq_self_iff_true, true_iff]
          exact ⟨p, (contains_iff keys p).mp hp, AncSelf.refl p⟩
      | false =>
        have hpnot : p ∉ keys := by
          intro hmem
          rw [(contains_iff keys p).mpr hmem] at hp
          cases hp
        cases hd with
        | root _ f hf hpid =>
          refine ⟨false, ?_, ?_⟩
          · unfold TFTree.ancestorInKeys
            rw [hp]
            show TFTree.ancestorInKeys tr keys g
              ((tr.findFrame p).bind (fun f => f.parentId)) = .ok false
            rw [hf]
            show TFTree.ancestorInKeys tr keys g f.parentId = .ok false
            rw [hpid]
            exact ancestorInKeys_none tr keys g
          · simp only [Bool.false_eq_true, false_iff]
            rintro ⟨a, ha, hanc⟩
            cases hanc with
            | refl => exact hpnot ha
            | step _ f' q hf' hq _ =>
              rw [hf, Option.some.injEq] at hf'
              subst hf'
              rw [hpid] at hq
              cases hq
        | child _ f q m hf hpid hdq =>
          have hmg : m < g := by omega
          obtain ⟨b, hrun, hiff⟩ := ih m (by omega) g q hdq hmg
          refine ⟨b, ?_, ?_⟩
          · unfold TFTree.ancestorInKeys
            rw [hp]
            show TFTree.ancestorInKeys tr keys g
              ((tr.findFrame p).bind (fun f => f.parentId)) = .ok b
            rw [hf]
            show TFTree.ancestorInKeys tr keys g f.parentId = .ok b
            rw [hpid]
            exact hrun
          · rw [hiff]
            constructor
            · rintro ⟨a, ha, hanc⟩
              exact ⟨a, ha, AncSelf.step a p f q hf hpid hanc⟩
            · rintro ⟨a, ha, hanc⟩
              cases hanc with
              | refl => exact absurd ha hpnot
              | step _ f' q' hf' hq' hanc' =>
                rw [hf, Option.some.injEq] at hf'
                subst hf'
                rw [hpid, Option.some.injEq] at hq'
                subst hq'
                exact ⟨a, ha, hanc'⟩

/-- Characterisation of the second pass of `updateTransforms`
(lines 126–140): on registered keys it succeeds, leaves frames and children
untouched, adds to the dirty set exactly the subtrees of the listed keys
that have no proper ancestor among `keys`, and evicts exactly those cache
entries. -/
theorem markPass_spec (keys : List String) :
    ∀ (l : List String) (tr : TFTree), WF tr →
    (∀ k ∈ l, tr.hasFrame k = true) →
    ∃ tr', TFTree.markPass keys tr l = (tr', none) ∧
      tr'.frames = tr.frames ∧ tr'.childrenMap = tr.childrenMap ∧
      (∀ x, x ∈ tr'.dirtySet ↔ x ∈ tr.dirtySet ∨
        ∃ k ∈ l, (¬ ∃ a ∈ keys, ProperAnc tr a k) ∧ InSubtree tr k x) ∧
      (∀ x, (∃ k ∈ l, (¬ ∃ a ∈ keys, ProperAnc tr a k) ∧ InSubtree tr k x) →
        assocGet tr'.worldTransformCache x = none) ∧
      (∀ x, (¬ ∃ k ∈ l, (¬ ∃ a ∈ keys, ProperAnc tr a k) ∧ InSubtree tr k x) →
        assocGet tr'.worldTransformCache x
          = assocGet tr.worldTransformCache x) := by
  intro l
  induction l with
  | nil =>
    intro tr hwf _
    refine ⟨tr, rfl, rfl, rfl, ?_, ?_, ?_⟩
    · intro x
      simp
    · intro x hx
      simp at hx
    · intro x _
      rfl
  | cons id rest ih =>
    intro tr hwf hkeys
    have hid : tr.hasFrame id = true := hkeys id (by simp)
    rw [hasFrame_eq_isSome] at hid
    obtain ⟨f, hfind⟩ := Option.isSome_iff_exists.mp hid
    obtain ⟨n, hd⟩ := by
      have := hwf.depths f (findFrame_mem hfind).1
      rwa [(findFrame_mem hfind).2] at this
    -- how the ancestor walk for `id` starts
    have hstart : (tr.findFrame id).bind (fun g => g.parentId) = f.parentId := by
      rw [hfind]
      rfl
    cases hpid : f.parentId with
    | none =>
      have hwalk : TFTree.ancestorInKeys tr keys (tr.frames.length + 1)
          ((tr.findFrame id).bind (fun f => f.parentId)) = .ok false := by
        rw [hstart, hpid]
        exact ancestorInKeys_none tr keys _
      have hnprop : ¬ ∃ a ∈ keys, ProperAnc tr a id := by
        rintro ⟨a, ha, f', p', hf', hp', hanc⟩
        rw [hfind, Option.some.injEq] at hf'
        subst hf'
        rw [hpid] at hp'
        cases hp'
      obtain ⟨tr2, hmark, hfr2, hch2, hdirty2, hcnone2, hckeep2⟩ :=
        mark_spec (tr.frames.length + 1) tr id n hwf hd (by omega)
      have hwf2 : WF tr2 := wf_of_struct_eq hfr2 hch2 hwf
      have hpar2 : ∀ y, parentOf tr2 y = parentOf tr y := by
        intro y
        unfold parentOf TFTree.findFrame
        rw [hfr2]
      have hkeys2 : ∀ k ∈ rest, tr2.hasFrame k = true := by
        intro k hk
        rw [hasFrame_congr_parent hpar2]
        exact hkeys k (by simp [hk])
      obtain ⟨tr', hrest, hfr', hch', hdirty', hcnone', hckeep'⟩ :=
        ih tr2 hwf2 hkeys2
      have hcond : ∀ x,
          (∃ k ∈ rest, (¬ ∃ a ∈ keys, ProperAnc tr2 a k) ∧ InSubtree tr2 k x)
          ↔ (∃ k ∈ rest, (¬ ∃ a ∈ keys, ProperAnc tr a k) ∧ InSubtree tr k x) := by
        intro x
        constructor
        · rintro ⟨k, hk, hna, hin⟩
          exact ⟨k, hk,
            fun ⟨a, ha, hpa⟩ => hna ⟨a, ha, (properAnc_congr_parent hpar2).mpr hpa⟩,
            (inSubtree_congr_parent hpar2).mpr hin⟩
        · rintro ⟨k, hk, hna, hin⟩
          exact ⟨k, hk,
            fun ⟨a, ha, hpa⟩ => hna ⟨a, ha, (properAnc_congr_parent hpar2).mp hpa⟩,
            (inSubtree_congr_parent hpar2).mp hin⟩
      have hidcl : ∀ x,
          (∃ k ∈ (id :: rest), (¬ ∃ a ∈ keys, ProperAnc tr a k) ∧ InSubtree tr k x)
          ↔ (InSubtree tr id x ∨
            ∃ k ∈ rest, (¬ ∃ a ∈ keys, ProperAnc tr a k) ∧ InSubtree tr k x) := by
        intro x
        constructor
        · rintro ⟨k, hk, hna, hin⟩
          rcases List.mem_cons.mp hk with rfl | hk'
          · exact Or.inl hin
          · exact Or.inr ⟨k, hk', hna, hin⟩
        · rintro (hin | ⟨k, hk', hna, hin⟩)
          · exact ⟨id, by simp, hnprop, hin⟩
          · exact ⟨k, by simp [hk'], hna, hin⟩
      refine ⟨tr', ?_, hfr'.trans hfr2, hch'.trans hch2, ?_, ?_, ?_⟩
      · show TFTree.markPass keys tr (id :: rest) = (tr', none)
        unfold TFTree.markPass
        rw [hwalk, hmark]
        exact hrest
      · intro x
        rw [hdirty' x, hdirty2 x, hcond x, hidcl x]
        tauto
      · intro x hx
        rcases (hidcl x).mp hx with hin | hrest'
        · by_cases hc : ∃ k ∈ rest, (¬ ∃ a ∈ keys, ProperAnc tr2 a k) ∧
              InSubtree tr2 k x
          · exact hcnone' x hc
          · rw [hckeep' x hc]
            exact hcnone2 x hin
        · exact hcnone' x ((hcond x).mpr hrest')
      · intro x hx
        have hnid : ¬ InSubtree tr id x :=
          fun hin => hx ((hidcl x).mpr (Or.inl hin))
        have hnrest : ¬ ∃ k ∈ rest, (¬ ∃ a ∈ keys, ProperAnc tr a k) ∧
            InSubtree tr k x :=
          fun h => hx ((hidcl x).mpr (Or.inr h))
        rw [hckeep' x (fun h => hnrest ((hcond x).mp h))]
        exact hckeep2 x hnid
    | some q =>
      obtain ⟨m, hnm, hdq⟩ := hasDepth_child_inv hfind hpid hd
      have hmlt : m < tr.frames.length + 1 := by
        have := depth_lt_length hwf hdq
        omega
      obtain ⟨b, hrun, hiff⟩ :=
        ancestorInKeys_spec keys m (tr.frames.length + 1) q hdq hmlt
      have hwalk : TFTree.ancestorInKeys tr keys (tr.frames.length + 1)
          ((tr.findFrame id).bind (fun f => f.parentId)) = .ok b := by
        rw [hstart, hpid]
        exact hrun
      cases b with
      | true =>
        have hprop : ∃ a ∈ keys, ProperAnc tr a id := by
          obtain ⟨a, ha, hanc⟩ := hiff.mp rfl
          exact ⟨a, ha, f, q, hfind, hpid, hanc⟩
        obtain ⟨tr', hrest, hfr', hch', hdirty', hcnone', hckeep'⟩ :=
          ih tr hwf (fun k hk => hkeys k (by simp [hk]))
        have hidcl : ∀ x,
            (∃ k ∈ (id :: rest), (¬ ∃ a ∈ keys, ProperAnc tr a k) ∧ InSubtree tr k x)
            ↔ (∃ k ∈ rest, (¬ ∃ a ∈ keys, ProperAnc tr a k) ∧ InSubtree tr k x) := by
          intro x
          constructor
          · rintro ⟨k, hk, hna, hin⟩
            rcases List.mem_cons.mp hk with rfl | hk'
            · exact absurd hprop hna
            · exact ⟨k, hk', hna, hin⟩
          · rintro ⟨k, hk', hna, hin⟩
            exact ⟨k, by simp [hk'], hna, hin⟩
        refine ⟨tr', ?_, hfr', hch', ?_, ?_, ?_⟩
        · show TFTree.markPass keys tr (id :: rest) = (tr', none)
          unfold TFTree.markPass
          rw [hwalk]
          exact hrest
        · intro x
          rw [hdirty' x, hidcl x]
        · intro x hx
          exact hcnone' x ((hidcl x).mp hx)
        · intro x hx
          exact hckeep' x (fun h => hx ((hidcl x).mpr h))
      | false =>
        have hnprop : ¬ ∃ a ∈ keys, ProperAnc tr a id := by
          rintro ⟨a, ha, f', p', hf', hp', hanc⟩
          rw [hfind, Option.some.injEq] at hf'
          subst hf'
          rw [hpid, Option.some.injEq] at hp'
          subst hp'
          have : (false : Bool) = true := hiff.mpr ⟨a, ha, hanc⟩
          cases this
        obtain ⟨tr2, hmark, hfr2, hch2, hdirty2, hcnone2, hckeep2⟩ :=
          mark_spec (tr.frames.length + 1) tr id n hwf hd (by omega)
        have hwf2 : WF tr2 := wf_of_struct_eq hfr2 hch2 hwf
        have hpar2 : ∀ y, parentOf tr2 y = parentOf tr y := by
          intro y
          unfold parentOf TFTree.findFrame
          rw [hfr2]
        have hkeys2 : ∀ k ∈ rest, tr2.hasFrame k = true := by
          intro k hk
          rw [hasFrame_congr_parent hpar2]
          exact hkeys k (by simp [hk])
        obtain ⟨tr', hrest, hfr', hch', hdirty', hcnone', hckeep'⟩ :=
          ih tr2 hwf2 hkeys2
        have hcond : ∀ x,
            (∃ k ∈ rest, (¬ ∃ a ∈ keys, ProperAnc tr2 a k) ∧ InSubtree tr2 k x)
            ↔ (∃ k ∈ rest, (¬ ∃ a ∈ keys, ProperAnc tr a k) ∧ InSubtree tr k x) := by
          intro x
          constructor
          · rintro ⟨k, hk, hna, hin⟩
            exact ⟨k, hk,
              fun ⟨a, ha, hpa⟩ => hna ⟨a, ha, (properAnc_congr_parent hpar2).mpr hpa⟩,
              (inSubtree_congr_parent hpar2).mpr hin⟩
          · rintro ⟨k, hk, hna, hin⟩
            exact ⟨k, hk,
              fun ⟨a, ha, hpa⟩ => hna ⟨a, ha, (properAnc_congr_parent hpar2).mp hpa⟩,
              (inSubtree_congr_parent hpar2).mp hin⟩
        have hidcl : ∀ x,
            (∃ k ∈ (id :: rest), (¬ ∃ a ∈ keys, ProperAnc tr a k) ∧ InSubtree tr k x)
            ↔ (InSubtree tr id x ∨
              ∃ k ∈ rest, (¬ ∃ a ∈ keys, ProperAnc tr a k) ∧ InSubtree tr k x) := by
          intro x
          constructor
          · rintro ⟨k, hk, hna, hin⟩
            rcases List.mem_cons.mp hk with rfl | hk'
            · exact Or.inl hin
            · exact Or.inr ⟨k, hk', hna, hin⟩
          · rintro (hin | ⟨k, hk', hna, hin⟩)
            · exact ⟨id, by simp, hnprop, hin⟩
            · exact ⟨k, by simp [hk'], hna, hin⟩
        refine ⟨tr', ?_, hfr'.trans hfr2, hch'.trans hch2, ?_, ?_, ?_⟩
        · show TFTree.markPass keys tr (id :: rest) = (tr', none)
          unfold TFTree.markPass
          rw [hwalk, hmark]
          exact hrest
        · intro x
          rw [hdirty' x, hdirty2 x, hcond x, hidcl x]
          tauto
        · intro x hx
          rcases (hidcl x).mp hx with hin | hrest'
          · by_cases hc : ∃ k ∈ rest, (¬ ∃ a ∈ keys, ProperAnc tr2 a k) ∧
                InSubtree tr2 k x
            · exact hcnone' x hc
            · rw [hckeep' x hc]
              exact hcnone2 x hin
          · exact hcnone' x ((hcond x).mpr hrest')
        · intro x hx
          have hnid : ¬ InSubtree tr id x :=
            fun hin => hx ((hidcl x).mpr (Or.inl hin))
          have hnrest : ¬ ∃ k ∈ rest, (¬ ∃ a ∈ keys, ProperAnc tr a k) ∧
              InSubtree tr k x :=
            fun h => hx ((hidcl x).mpr (Or.inr h))
          rw [hckeep' x (fun h => hnrest ((hcond x).mp h))]
          exact hckeep2 x hnid

/-- Full characterisation of a successful `updateTransforms` batch on
registered keys (lines 113–141). -/
theorem updateTransforms_spec {tr : TFTree} (hwf : WF tr)
    (updates : List (String × Transform))
    (hkeys : ∀ k ∈ updates.map Prod.fst, tr.hasFrame k = true) :
    ∃ tr', tr.updateTransforms updates = (tr', none) ∧
      WF tr' ∧ (∀ y, parentOf tr' y = parentOf tr y) ∧
      (∀ x, x ∈ tr'.dirtySet ↔ x ∈ tr.dirtySet ∨
        ∃ k ∈ updates.map Prod.fst,
          (¬ ∃ a ∈ updates.map Prod.fst, ProperAnc tr a k) ∧ InSubtree tr k x) ∧
      (∀ x, (∃ k ∈ updates.map Prod.fst,
          (¬ ∃ a ∈ updates.map Prod.fst, ProperAnc tr a k) ∧ InSubtree tr k x) →
        assocGet tr'.worldTransformCache x = none) ∧
      (∀ x, (¬ ∃ k ∈ updates.map Prod.fst,
          (¬ ∃ a ∈ updates.map Prod.fst, ProperAnc tr a k) ∧ InSubtree tr k x) →
        assocGet tr'.worldTransformCache x
          = assocGet tr.worldTransformCache x) := by
  obtain ⟨tr1, happ, hwf1, hpar1, hch1, hd1, hc1, hlen1⟩ :=
    applyUpdates_spec updates tr hwf hkeys
  have hkeys1 : ∀ k ∈ updates.map Prod.fst, tr1.hasFrame k = true := by
    intro k hk
    rw [hasFrame_congr_parent hpar1]
    exact hkeys k hk
  obtain ⟨tr', hmp, hfr', hch', hdirty', hcnone', hckeep'⟩ :=
    markPass_spec (updates.map Prod.fst) (updates.map Prod.fst) tr1 hwf1 hkeys1
  have hpar' : ∀ y, parentOf tr' y = parentOf tr y := by
    intro y
    have hfy : tr'.findFrame y = tr1.findFrame y := by
      unfold TFTree.findFrame
      rw [hfr']
    unfold parentOf
    rw [hfy]
    exact hpar1 y
  have hcond : ∀ x, (∃ k ∈ updates.map Prod.fst,
      (¬ ∃ a ∈ updates.map Prod.fst, ProperAnc tr1 a k) ∧ InSubtree tr1 k x)
      ↔ (∃ k ∈ updates.map Prod.fst,
      (¬ ∃ a ∈ updates.map Prod.fst, ProperAnc tr a k) ∧ InSubtree tr k x) := by
    intro x
    constructor
    · rintro ⟨k, hk, hna, hin⟩
      exact ⟨k, hk,
        fun ⟨a, ha, hpa⟩ => hna ⟨a, ha, (properAnc_congr_parent hpar1).mpr hpa⟩,
        (inSubtree_congr_parent hpar1).mpr hin⟩
    · rintro ⟨k, hk, hna, hin⟩
      exact ⟨k, hk,
        fun ⟨a, ha, hpa⟩ => hna ⟨a, ha, (properAnc_congr_parent hpar1).mp hpa⟩,
        (inSubtree_congr_parent hpar1).mp hin⟩
  refine ⟨tr', ?_, wf_of_struct_eq hfr' hch' hwf1, hpar', ?_, ?_, ?_⟩
  · show tr.updateTransforms updates = (tr', none)
    unfold TFTree.updateTransforms
    rw [happ]
    exact hmp
  · intro x
    rw [hdirty' x, hcond x, hd1]
  · intro x hx
    exact hcnone' x ((hcond x).mpr hx)
  · intro x hx
    rw [hckeep' x (fun h => hx ((hcond x).mp h))]
    exact congrArg (fun m => assocGet m x) hc1

/-! ### Frame registration (`addFrame`) -/

/-- A frame with a depth is registered. -/
theorem hasDepth_isSome {tr : TFTree} {z : String} {m : ℕ}
    (h : HasDepth tr z m) : (tr.findFrame z).isSome = true := by
  cases h with
  | root _ f hf _ => rw [hf]; rfl
  | child _ f p n hf _ _ => rw [hf]; rfl

/-- An unregistered id cannot lie on the ancestor chain of a registered
frame (parents of registered frames are registered). -/
theorem unregistered_not_anc {tr : TFTree} (hwf : WF tr) {id x : String}
    (hid : tr.findFrame id = none) (hx : (tr.findFrame x).isSome = true)
    (hanc : AncSelf tr id x) : False := by
  rcases ancSelf_top hanc with rfl | ⟨c, fc, hc, hcp, _⟩
  · rw [hid] at hx
    cases hx
  · obtain ⟨n, hdc⟩ := by
      have := hwf.depths fc (findFrame_mem hc).1
      rwa [(findFrame_mem hc).2] at this
    obtain ⟨m, _, hdid⟩ := hasDepth_child_inv hc hcp hdc
    have := hasDepth_isSome hdid
    rw [hid] at this
    cases this

/-- `find?` by id through appending a single node at the end. -/
theorem find?_node_append (fs : List FrameNode) (node : FrameNode)
    (y : String) :
    List.find? (fun f => f.id == y) (fs ++ [node])
      = match List.find? (fun f => f.id == y) fs with
        | some f => some f
        | none => if node.id == y then some node else none := by
  rw [List.find?_append]
  cases h : List.find? (fun f => f.id == y) fs with
  | some f => rfl
  | none =>
    simp only [Option.none_or]
    cases hn : (node.id == y) with
    | true =>
      rw [@List.find?_cons_of_pos _ (fun f => f.id == y) node _ hn]
      simp [hn]
    | false =>
      rw [@List.find?_cons_of_neg _ (fun f => f.id == y) node _ (by simp_all)]
      simp [hn]

/-- Topological order survives appending a node whose parent is already
present. -/
theorem topo_append {fs : List FrameNode} {node : FrameNode}
    (htopo : ∀ l1 f l2, fs = l1 ++ f :: l2 →
      ∀ pid, f.parentId = some pid → pid ∈ l1.map FrameNode.id)
    (hnode : ∀ pid, node.parentId = some pid → pid ∈ fs.map FrameNode.id) :
    ∀ l1 f l2, fs ++ [node] = l1 ++ f :: l2 →
      ∀ pid, f.parentId = some pid → pid ∈ l1.map FrameNode.id := by
  intro l1 f l2 heq pid hpid
  rcases List.append_eq_append_iff.mp heq with ⟨a, ha1, ha2⟩ | ⟨c, hc1, hc2⟩
  · cases a with
    | nil =>
      rw [List.append_nil] at ha1
      rcases List.cons.injEq _ _ _ _ ▸ ha2 with ⟨rfl, rfl⟩
      subst ha1
      exact hnode pid hpid
    | cons b bs =>
      have : ([node] : List FrameNode).length = (b :: bs ++ f :: l2).length := by
        rw [ha2]
      simp at this
  · cases c with
    | nil =>
      rw [List.append_nil] at hc1
      rcases List.cons.injEq _ _ _ _ ▸ hc2.symm with ⟨rfl, rfl⟩
      subst hc1
      exact hnode pid hpid
    | cons g t =>
      rcases List.cons.injEq _ _ _ _ ▸ hc2 with ⟨rfl, hl2⟩
      exact htopo l1 f t (by rw [hc1]) pid hpid

/-- The `addFrame` cycle walk from "no parent" reports `false` at any
fuel. -/
theorem chainContains_none (tr : TFTree) (id : String) (fuel : ℕ) :
    TFTree.chainContains tr id fuel none = .ok false := by
  cases fuel <;> rfl

/-- The `addFrame` cycle walk never meets an unregistered id: starting at a
registered frame of depth `n` with fuel above `n`, it terminates with
`false`. -/
theorem chainContains_spec {tr : TFTree} {id : String}
    (hid : tr.findFrame id = none) :
    ∀ (n fuel : ℕ) (p : String), HasDepth tr p n → n < fuel →
    TFTree.chainContains tr id fuel (some p) = .ok false := by
  intro n
  induction n using Nat.strong_induction_on with
  | _ n ih =>
    intro fuel p hd hfuel
    cases fuel with
    | zero => omega
    | succ g =>
      have hne : (p == id) = false := by
        cases hpq : (p == id) with
        | true =>
          have : p = id := by simpa using hpq
          subst this
          have := hasDepth_isSome hd
          rw [hid] at this
          cases this
        | false => rfl
      cases hd with
      | root _ f hf hpid =>
        unfold TFTree.chainContains
        rw [hne]
        show TFTree.chainContains tr id g
          ((tr.findFrame p).bind (fun f => f.parentId)) = .ok false
        rw [hf]
        show TFTree.chainContains tr id g f.parentId = .ok false
        rw [hpid]
        exact chainContains_none tr id g
      | child _ f q m hf hpid hdq =>
        unfold TFTree.chainContains
        rw [hne]
        show TFTree.chainContains tr id g
          ((tr.findFrame p).bind (fun f => f.parentId)) = .ok false
        rw [hf]
        show TFTree.chainContains tr id g f.parentId = .ok false
        rw [hpid]
        exact ih m (by omega) g q hdq (by omega)

/-- Characterisation of the successful tail of `addFrame` (lines 69–77):
the node is appended, marked dirty, wired into the children map, and every
well-formedness invariant is preserved. -/
theorem registerFrame_spec {tr : TFTree} (hwf : WF tr) {id : String}
    (pid : Option String) (T : Transform)
    (hid : tr.findFrame id = none)
    (hpidOK : ∀ q, pid = some q → tr.hasFrame q = true) :
    (TFTree.registerFrame tr id pid T).frames
        = tr.frames ++ [⟨id, pid, T⟩] ∧
      (∀ y, (TFTree.registerFrame tr id pid T).findFrame y
        = if y = id then some ⟨id, pid, T⟩ else tr.findFrame y) ∧
      (TFTree.registerFrame tr id pid T).dirtySet = setAdd tr.dirtySet id ∧
      (TFTree.registerFrame tr id pid T).worldTransformCache
        = tr.worldTransformCache ∧
      WF (TFTree.registerFrame tr id pid T) := by
  have hid' : List.find? (fun f => f.id == id) tr.frames = none := hid
  have hany : tr.frames.any (fun f => f.id == id) = false := by
    rw [List.any_eq_false]
    intro f hf hbeq
    have hfi : f.id = id := by simpa using hbeq
    have h2 := mem_findFrame hwf.nodup hf
    rw [hfi, hid] at h2
    cases h2
  have hframesSet :
      framesSet tr.frames id ⟨id, pid, T⟩ = tr.frames ++ [⟨id, pid, T⟩] := by
    unfold framesSet
    rw [hany]
    rfl
  have hfr : (TFTree.registerFrame tr id pid T).frames
      = tr.frames ++ [⟨id, pid, T⟩] := by
    unfold TFTree.registerFrame
    cases pid <;> simp [hframesSet]
  have hds : (TFTree.registerFrame tr id pid T).dirtySet
      = setAdd tr.dirtySet id := by
    unfold TFTree.registerFrame
    cases pid <;> rfl
  have hwc : (TFTree.registerFrame tr id pid T).worldTransformCache
      = tr.worldTransformCache := by
    unfold TFTree.registerFrame
    cases pid <;> rfl
  have hfind' : ∀ y, (TFTree.registerFrame tr id pid T).findFrame y
      = if y = id then some ⟨id, pid, T⟩ else tr.findFrame y := by
    intro y
    unfold TFTree.findFrame
    rw [hfr, find?_node_append]
    by_cases hy : y = id
    · subst hy
      rw [hid']
      simp
    · cases hfy : List.find? (fun f => f.id == y) tr.frames with
      | some f =>
        rw [if_neg hy]
      | none =>
        rw [if_neg hy]
        have hne : ((⟨id, pid, T⟩ : FrameNode).id == y) = false := by
          simp
          exact fun h => hy h.symm
        rw [hne]
        rfl
  have hmemid : id ∉ tr.frames.map FrameNode.id := by
    intro hmem
    rcases List.mem_map.mp hmem with ⟨f, hf, hfid⟩
    have h2 := mem_findFrame hwf.nodup hf
    rw [hfid, hid] at h2
    cases h2
  have hnodup' : ((tr.frames ++ [(⟨id, pid, T⟩ : FrameNode)]).map
      FrameNode.id).Nodup := by
    rw [List.map_append, List.nodup_append]
    refine ⟨hwf.nodup, List.nodup_singleton _, ?_⟩
    intro a ha hb
    have hab : a = id := by simpa using hb
    subst hab
    exact hmemid ha
  have htrans : ∀ x, (tr.findFrame x).isSome = true →
      ∀ y, AncSelf tr y x →
      (TFTree.registerFrame tr id pid T).findFrame y = tr.findFrame y := by
    intro x hx y hanc
    rw [hfind' y]
    by_cases hy : y = id
    · subst hy
      exact (unregistered_not_anc hwf hid hx hanc).elim
    · rw [if_neg hy]
  have hnoparent_id : ∀ c,
      ¬ (∃ f ∈ tr.frames, f.id = c ∧ f.parentId = some id) := by
    rintro c ⟨f, hf, _, hfp⟩
    obtain ⟨n, hdn⟩ := hwf.depths f hf
    obtain ⟨m, _, hdid⟩ :=
      hasDepth_child_inv (mem_findFrame hwf.nodup hf) hfp hdn
    have h3 := hasDepth_isSome hdid
    rw [hid] at h3
    cases h3
  set cm2 := if (assocGet tr.childrenMap id).isSome then tr.childrenMap
      else tr.childrenMap ++ [(id, [])] with hcm2def
  have hcm2get : ∀ p, p ≠ id →
      assocGet cm2 p = assocGet tr.childrenMap p := by
    intro p hp
    rw [hcm2def]
    split
    · rfl
    · rw [assocGet_append_single]
      cases h : assocGet tr.childrenMap p with
      | some w => rfl
      | none => simp [hp]
  have hcm2idval : (assocGet cm2 id).getD [] = tr.childValues id := by
    rw [hcm2def]
    split
    · rfl
    · rename_i hnone
      have h0 : assocGet tr.childrenMap id = none := by
        cases h : assocGet tr.childrenMap id with
        | none => rfl
        | some w =>
          rw [h] at hnone
          simp at hnone
      rw [assocGet_append_single, h0]
      unfold TFTree.childValues
      rw [h0]
      simp
  have hcm2idsome : (assocGet cm2 id).isSome = true := by
    rw [hcm2def]
    split
    · rename_i h
      exact h
    · rename_i hnone
      have h0 : assocGet tr.childrenMap id = none := by
        cases h : assocGet tr.childrenMap id with
        | none => rfl
        | some w =>
          rw [h] at hnone
          simp at hnone
      rw [assocGet_append_single, h0]
      simp
  have hdepths' : ∀ f ∈ tr.frames ++ [(⟨id, pid, T⟩ : FrameNode)],
      ∃ n, HasDepth (TFTree.registerFrame tr id pid T) f.id n := by
    intro f hf
    rcases List.mem_append.mp hf with hfo | hfn
    · obtain ⟨n, hn⟩ := hwf.depths f hfo
      refine ⟨n, hasDepth_transport ?_ hn⟩
      intro y hy
      exact htrans f.id (by rw [mem_findFrame hwf.nodup hfo]; rfl) y hy
    · rw [List.mem_singleton] at hfn
      subst hfn
      show ∃ n, HasDepth (TFTree.registerFrame tr id pid T) id n
      cases hpc : pid with
      | none =>
        have hfind2 := hfind' id
        rw [hpc] at hfind2
        refine ⟨0, HasDepth.root id ⟨id, none, T⟩ ?_ rfl⟩
        rw [hfind2, if_pos rfl]
      | some q =>
        have hfind2 := hfind' id
        rw [hpc] at hfind2
        have hq := hpidOK q hpc
        rw [hasFrame_eq_isSome] at hq
        obtain ⟨fq, hfq⟩ := Option.isSome_iff_exists.mp hq
        obtain ⟨m, hdm⟩ := by
          have hd0 := hwf.depths fq (findFrame_mem hfq).1
          rwa [(findFrame_mem hfq).2] at hd0
        have htrans2 : ∀ y, AncSelf tr y q →
            (TFTree.registerFrame tr id (some q) T).findFrame y
              = tr.findFrame y := by
          intro y hy
          have h4 := htrans q (by rw [hfq]; rfl) y hy
          rw [hpc] at h4
          exact h4
        refine ⟨m + 1, HasDepth.child id ⟨id, some q, T⟩ q m ?_ rfl ?_⟩
        · rw [hfind2, if_pos rfl]
        · exact hasDepth_transport (fun y hy => htrans2 y hy) hdm
  have hnodeok : ∀ p, (⟨id, pid, T⟩ : FrameNode).parentId = some p →
      p ∈ tr.frames.map FrameNode.id := by
    intro p hp
    have hq := hpidOK p hp
    rw [hasFrame_eq_isSome] at hq
    obtain ⟨fq, hfq⟩ := Option.isSome_iff_exists.mp hq
    exact (findFrame_mem hfq).2 ▸ List.mem_map_of_mem _ (findFrame_mem hfq).1
  have hchildmem : ∀ p c,
      c ∈ (TFTree.registerFrame tr id pid T).childValues p ↔
      ∃ f ∈ (TFTree.registerFrame tr id pid T).frames,
        f.id = c ∧ f.parentId = some p := by
    cases hpc : pid with
    | none =>
      have hcmn : (TFTree.registerFrame tr id none T).childrenMap = cm2 := by
        rw [hcm2def]
        rfl
      rw [hpc] at hfr
      intro p c
      have hval : (TFTree.registerFrame tr id none T).childValues p
          = (assocGet cm2 p).getD [] := by
        unfold TFTree.childValues
        rw [hcmn]
      constructor
      · intro hc
        rw [hval] at hc
        by_cases hp : p = id
        · subst hp
          rw [hcm2idval] at hc
          exact absurd ((hwf.childrenMem p c).mp hc) (hnoparent_id c)
        · rw [hcm2get p hp] at hc
          rcases (hwf.childrenMem p c).mp hc with ⟨f, hfo, hfid, hfp⟩
          refine ⟨f, ?_, hfid, hfp⟩
          rw [hfr]
          exact List.mem_append_left _ hfo
      · rintro ⟨f, hf, hfid, hfp⟩
        rw [hfr] at hf
        rcases List.mem_append.mp hf with hfo | hfn
        · by_cases hp : p = id
          · subst hp
            exact absurd ⟨f, hfo, hfid, hfp⟩ (hnoparent_id c)
          · rw [hval, hcm2get p hp]
            exact (hwf.childrenMem p c).mpr ⟨f, hfo, hfid, hfp⟩
        · rw [List.mem_singleton] at hfn
          subst hfn
          exact Option.noConfusion hfp
    | some q =>
      have hcms : (TFTree.registerFrame tr id (some q) T).childrenMap
          = childAdd cm2 q id := by
        rw [hcm2def]
        rfl
      rw [hpc] at hfr
      have hq := hpidOK q hpc
      rw [hasFrame_eq_isSome] at hq
      obtain ⟨fq, hfq⟩ := Option.isSome_iff_exists.mp hq
      have hqid : q ≠ id := by
        intro h
        rw [h, hid] at hfq
        cases hfq
      have hcm2q : assocGet cm2 q = some (tr.childValues q) := by
        cases h : assocGet tr.childrenMap q with
        | none =>
          have hk := hwf.childrenKeys fq (findFrame_mem hfq).1
          rw [(findFrame_mem hfq).2, h] at hk
          cases hk
        | some w =>
          rw [hcm2get q hqid, h]
          unfold TFTree.childValues
          rw [h]
          rfl
      intro p c
      have hval : (TFTree.registerFrame tr id (some q) T).childValues p
          = ((assocGet cm2 p).map
              (fun l => if p = q then setAdd l id else l)).getD [] := by
        unfold TFTree.childValues
        rw [hcms, assocGet_childAdd]
      constructor
      · intro hc
        rw [hval] at hc
        by_cases hp : p = q
        · rw [hp] at hc ⊢
          have hred : (Option.map (fun l => if q = q then setAdd l id else l)
              (assocGet cm2 q)).getD [] = setAdd (tr.childValues q) id := by
            rw [hcm2q]
            simp
          rw [hred] at hc
          rcases mem_setAdd.mp hc with hco | hcid
          · rcases (hwf.childrenMem q c).mp hco with ⟨f, hfo, hfid, hfp⟩
            refine ⟨f, ?_, hfid, hfp⟩
            rw [hfr]
            exact List.mem_append_left _ hfo
          · refine ⟨⟨id, some q, T⟩, ?_, hcid.symm, rfl⟩
            rw [hfr]
            simp
        · have hc2 : c ∈ (assocGet cm2 p).getD [] := by
            cases h2 : assocGet cm2 p with
            | none =>
              rw [h2] at hc
              simp at hc
            | some w =>
              rw [h2] at hc
              simp only [Option.map_some', Option.getD_some, if_neg hp] at hc
              exact hc
          by_cases hp2 : p = id
          · subst hp2
            rw [hcm2idval] at hc2
            exact absurd ((hwf.childrenMem p c).mp hc2) (hnoparent_id c)
          · rw [hcm2get p hp2] at hc2
            rcases (hwf.childrenMem p c).mp hc2 with ⟨f, hfo, hfid, hfp⟩
            refine ⟨f, ?_, hfid, hfp⟩
            rw [hfr]
            exact List.mem_append_left _ hfo
      · rintro ⟨f, hf, hfid, hfp⟩
        rw [hfr] at hf
        rw [hval]
        rcases List.mem_append.mp hf with hfo | hfn
        · by_cases hp : p = q
          · rw [hp] at hfp ⊢
            have hred : (Option.map (fun l => if q = q then setAdd l id else l)
                (assocGet cm2 q)).getD [] = setAdd (tr.childValues q) id := by
              rw [hcm2q]
              simp
            rw [hred]
            exact mem_setAdd.mpr
              (Or.inl ((hwf.childrenMem q c).mpr ⟨f, hfo, hfid, hfp⟩))
          · by_cases hp2 : p = id
            · rw [hp2] at hfp
              exact absurd ⟨f, hfo, hfid, hfp⟩ (hnoparent_id c)
            · have hcv := (hwf.childrenMem p c).mpr ⟨f, hfo, hfid, hfp⟩
              cases h2 : assocGet cm2 p with
              | none =>
                have h2' : assocGet tr.childrenMap p = none := by
                  rw [← hcm2get p hp2]
                  exact h2
                unfold TFTree.childValues at hcv
                rw [h2'] at hcv
                simp at hcv
              | some w =>
                have h2' : assocGet tr.childrenMap p = some w := by
                  rw [← hcm2get p hp2]
                  exact h2
                unfold TFTree.childValues at hcv
                rw [h2'] at hcv
                simp only [Option.map_some', Option.getD_some, if_neg hp]
                exact hcv
        · rw [List.mem_singleton] at hfn
          subst hfn
          have hqp : q = p := by simpa using hfp
          rw [← hqp]
          have hred : (Option.map (fun l => if q = q then setAdd l id else l)
              (assocGet cm2 q)).getD [] = setAdd (tr.childValues q) id := by
            rw [hcm2q]
            simp
          rw [hred]
          exact mem_setAdd.mpr (Or.inr hfid.symm)
  have hchildkeys : ∀ f ∈ (TFTree.registerFrame tr id pid T).frames,
      (assocGet (TFTree.registerFrame tr id pid T).childrenMap f.id).isSome
        = true := by
    cases hpc : pid with
    | none =>
      have hcmn : (TFTree.registerFrame tr id none T).childrenMap = cm2 := by
        rw [hcm2def]
        rfl
      rw [hpc] at hfr
      intro f hf
      rw [hfr] at hf
      rw [hcmn]
      by_cases hfi : f.id = id
      · rw [hfi]
        exact hcm2idsome
      · rcases List.mem_append.mp hf with hfo | hfn
        · rw [hcm2get f.id hfi]
          exact hwf.childrenKeys f hfo
        · rw [List.mem_singleton] at hfn
          subst hfn
          exact absurd rfl hfi
    | some q =>
      have hcms : (TFTree.registerFrame tr id (some q) T).childrenMap
          = childAdd cm2 q id := by
        rw [hcm2def]
        rfl
      rw [hpc] at hfr
      intro f hf
      rw [hfr] at hf
      rw [hcms, assocGet_childAdd]
      by_cases hfi : f.id = id
      · rw [hfi]
        cases h2 : assocGet cm2 id with
        | none =>
          rw [h2] at hcm2idsome
          simp at hcm2idsome
        | some w => simp
      · rcases List.mem_append.mp hf with hfo | hfn
        · have hk := hwf.childrenKeys f hfo
          cases h2 : assocGet tr.childrenMap f.id with
          | none =>
            rw [h2] at hk
            simp at hk
          | some w =>
            rw [hcm2get f.id hfi, h2]
            simp
        · rw [List.mem_singleton] at hfn
          subst hfn
          exact absurd rfl hfi
  refine ⟨hfr, hfind', hds, hwc, ?_, ?_, ?_, hchildmem, hchildkeys⟩
  · rw [hfr]
    exact hnodup'
  · intro f hf
    rw [hfr] at hf
    exact hdepths' f hf
  · intro l1 f l2 heq p hp
    rw [hfr] at heq
    exact topo_append hwf.topo hnodeok l1 f l2 heq p hp

/-- The empty tree is well-formed. -/
theorem wf_empty : WF TFTree.empty := by
  refine ⟨?_, ?_, ?_, ?_, ?_⟩
  · simp [TFTree.empty]
  · intro f hf
    simp [TFTree.empty] at hf
  · intro l1 f l2 heq
    have : ([] : List FrameNode) = l1 ++ f :: l2 := heq
    simp at this
  · intro p c
    constructor
    · intro hc
      simp [TFTree.childValues, assocGet, TFTree.empty] at hc
    · rintro ⟨f, hf, _⟩
      simp [TFTree.empty] at hf
  · intro f hf
    simp [TFTree.empty] at hf

/-- Characterisation of a successful `addFrame` (lines 43–78): with a fresh
id and a registered (or absent) parent it succeeds and behaves as
`registerFrame`. -/
theorem addFrame_spec {tr : TFTree} (hwf : WF tr) {id : String}
    (pid : Option String) (T : Transform)
    (hid : tr.hasFrame id = false)
    (hpidOK : ∀ q, pid = some q → tr.hasFrame q = true) :
    ∃ tr', tr.addFrame id pid T = (tr', none) ∧
      tr'.frames = tr.frames ++ [⟨id, pid, T⟩] ∧
      (∀ y, tr'.findFrame y
        = if y = id then some ⟨id, pid, T⟩ else tr.findFrame y) ∧
      tr'.dirtySet = setAdd tr.dirtySet id ∧
      tr'.worldTransformCache = tr.worldTransformCache ∧
      WF tr' := by
  have hidn : tr.findFrame id = none := by
    rw [hasFrame_eq_isSome] at hid
    cases h : tr.findFrame id with
    | none => rfl
    | some f =>
      rw [h] at hid
      cases hid
  obtain ⟨hfr, hfind', hds, hwc, hwf'⟩ :=
    registerFrame_spec hwf pid T hidn hpidOK
  refine ⟨TFTree.registerFrame tr id pid T, ?_, hfr, hfind', hds, hwc, hwf'⟩
  cases hpc : pid with
  | none => simp [TFTree.addFrame, hid]
  | some q =>
    have hq := hpidOK q hpc
    have hfq : (tr.findFrame q).isSome = true := hq
    obtain ⟨fq, hfq'⟩ := Option.isSome_iff_exists.mp hfq
    obtain ⟨m, hdm⟩ := by
      have hd0 := hwf.depths fq (findFrame_mem hfq').1
      rwa [(findFrame_mem hfq').2] at hd0
    have hrun := chainContains_spec hidn m (tr.frames.length + 1) q hdm
      (by have := depth_lt_length hwf hdm; omega)
    simp [TFTree.addFrame, hid, hq, hrun]

/-- C9 helper: `addFrame` on a well-formed tree never reports a cycle. -/
theorem addFrame_no_cycle {tr : TFTree} (hwf : WF tr) (id : String)
    (pid : Option String) (T : Transform) :
    ∀ x, (tr.addFrame id pid T).2 ≠ some (TFError.cycleDetected x) := by
  intro x
  cases hid : tr.hasFrame id with
  | true => simp [TFTree.addFrame, hid]
  | false =>
    cases hpc : pid with
    | none => simp [TFTree.addFrame, hid]
    | some q =>
      cases hq : tr.hasFrame q with
      | false => simp [TFTree.addFrame, hid, hq]
      | true =>
        have hidn : tr.findFrame id = none := by
          rw [hasFrame_eq_isSome] at hid
          cases h : tr.findFrame id with
          | none => rfl
          | some f =>
            rw [h] at hid
            cases hid
        have hfq : (tr.findFrame q).isSome = true := hq
        obtain ⟨fq, hfq'⟩ := Option.isSome_iff_exists.mp hfq
        obtain ⟨m, hdm⟩ := by
          have hd0 := hwf.depths fq (findFrame_mem hfq').1
          rwa [(findFrame_mem hfq').2] at hd0
        have hrun := chainContains_spec hidn m (tr.frames.length + 1) q hdm
          (by have := depth_lt_length hwf hdm; omega)
        simp [TFTree.addFrame, hid, hq, hrun]

/-- C9: on any well-formed tree — in particular any tree reachable through
the public API, where every frame's `parentId` names a registered frame and
no frame is its own ancestor — the `CycleDetected` branch of `addFrame` is
unreachable: the duplicate-id check guarantees the requested id is absent,
so the walk up the parent chain never meets it and `addFrame` never reports
a cycle, whatever id, parent and transform are passed. -/
theorem C9_addFrame_cycle_unreachable {tr : TFTree} (hwf : WF tr)
    (id : String) (pid : Option String) (T : Transform) (x : String) :
    (tr.addFrame id pid T).2 ≠ some (TFError.cycleDetected x) :=
  addFrame_no_cycle hwf id pid T x

/-- C9 witness: a concrete two-frame tree; adding "a" under "w" does not
report a cycle. -/
theorem C9_addFrame_cycle_unreachable_witness :
    ((TFTree.empty.addFrame "w" none Transform.identity).1.addFrame "a"
        (some "w") Transform.identity).2
      ≠ some (TFError.cycleDetected "a") := by
  obtain ⟨tr1, heq, hfr1, hfind1, hds1, hwc1, hwf1⟩ :=
    @addFrame_spec TFTree.empty wf_empty "w" none Transform.identity rfl
      (fun q h => nomatch h)
  have h1 : (TFTree.empty.addFrame "w" none Transform.identity).1 = tr1 := by
    rw [heq]
  rw [h1]
  exact C9_addFrame_cycle_unreachable hwf1 "a" (some "w") Transform.identity "a"

/-- C1 counterexample: batch update is *not* all-or-nothing.  In a
one-frame tree holding "a" with the identity transform, the batch
`{a ↦ (1,0,0)-translation, x ↦ identity}` throws `FrameNotFound "x"` — yet
"a"'s local transform has already been replaced by the new value, so the
tree is *not* left unchanged. -/
theorem C1_batch_atomicity_counterexample :
    ((TFTree.empty.addFrame "a" none Transform.identity).1.updateTransforms
        [("a", ⟨⟨1, 0, 0⟩, Quaternion.identity⟩), ("x", Transform.identity)]).2
      = some (TFError.frameNotFound "x") ∧
    ((((TFTree.empty.addFrame "a" none Transform.identity).1.updateTransforms
        [("a", ⟨⟨1, 0, 0⟩, Quaternion.identity⟩),
         ("x", Transform.identity)]).1.findFrame "a").map
        (fun f => f.transform))
      = some ⟨⟨1, 0, 0⟩, Quaternion.identity⟩ ∧
    (((TFTree.empty.addFrame "a" none Transform.identity).1.findFrame
        "a").map (fun f => f.transform)) = some Transform.identity ∧
    (⟨⟨1, 0, 0⟩, Quaternion.identity⟩ : Transform) ≠ Transform.identity := by
  refine ⟨rfl, rfl, rfl, ?_⟩
  intro h
  have hx : (1 : ℚ) = 0 := congrArg (fun t => t.translation.x) h
  norm_num at hx

/-- C1 (amended): if every id in the batch is registered,
`updateTransforms` fully succeeds; if an unregistered id occurs, the call
throws `FrameNotFound` and leaves the dirty set, world-transform cache and
children map untouched, but the transforms of the entries *preceding* the
first unregistered id have already been applied — the tree is left in the
state produced by running the first pass on the registered prefix. -/
theorem C1_batch_partial_on_failure {tr : TFTree} (hwf : WF tr) :
    (∀ updates : List (String × Transform),
      (∀ k ∈ updates.map Prod.fst, tr.hasFrame k = true) →
      ∃ tr', tr.updateTransforms updates = (tr', none)) ∧
    (∀ (good : List (String × Transform)) (bad : String) (T : Transform)
        (rest : List (String × Transform)),
      (∀ k ∈ good.map Prod.fst, tr.hasFrame k = true) →
      tr.hasFrame bad = false →
      ∃ tr1, tr.updateTransforms (good ++ (bad, T) :: rest)
          = (tr1, some (TFError.frameNotFound bad)) ∧
        TFTree.applyUpdates tr good = (tr1, none) ∧
        tr1.dirtySet = tr.dirtySet ∧
        tr1.worldTransformCache = tr.worldTransformCache ∧
        tr1.childrenMap = tr.childrenMap) := by
  constructor
  · intro updates hkeys
    obtain ⟨tr', h1, _⟩ := updateTransforms_spec hwf updates hkeys
    exact ⟨tr', h1⟩
  · intro good bad T rest hgood hbad
    obtain ⟨tr1, hfail, hpre, hwf1, hpar1, hch1, hd1, hc1⟩ :=
      applyUpdates_fail good tr hwf hgood bad T rest hbad
    refine ⟨tr1, ?_, hpre, hd1, hc1, hch1⟩
    unfold TFTree.updateTransforms
    rw [hfail]

/-- C1 witness: the amended theorem applied to a concrete one-frame tree,
on a succeeding batch and on a failing batch. -/
theorem C1_batch_partial_on_failure_witness :
    (∃ tr', (TFTree.empty.addFrame "a" none
        Transform.identity).1.updateTransforms [("a", Transform.identity)]
      = (tr', none)) ∧
    (∃ tr1, (TFTree.empty.addFrame "a" none
        Transform.identity).1.updateTransforms [("x", Transform.identity)]
      = (tr1, some (TFError.frameNotFound "x"))) := by
  obtain ⟨tr1, heq, hfr1, hfind1, hds1, hwc1, hwf1⟩ :=
    @addFrame_spec TFTree.empty wf_empty "a" none Transform.identity rfl
      (fun q h => nomatch h)
  have h1 : (TFTree.empty.addFrame "a" none Transform.identity).1 = tr1 := by
    rw [heq]
  rw [h1]
  have hhasa : tr1.hasFrame "a" = true := by
    rw [hasFrame_eq_isSome, hfind1 "a", if_pos rfl]
    rfl
  have hhasx : tr1.hasFrame "x" = true → False := by
    intro hx
    rw [hasFrame_eq_isSome, hfind1 "x"] at hx
    simp [TFTree.empty, TFTree.findFrame] at hx
  constructor
  · refine (C1_batch_partial_on_failure hwf1).1 [("a", Transform.identity)] ?_
    intro k hk
    simp at hk
    subst hk
    exact hhasa
  · obtain ⟨trF, hF, _⟩ :=
      (C1_batch_partial_on_failure hwf1).2 [] "x" Transform.identity []
        (by intro k hk; simp at hk)
        (by cases hx : tr1.hasFrame "x" with
            | true => exact absurd hx (fun h => hhasx h)
            | false => rfl)
    exact ⟨trF, hF⟩

/-- C2: stale-set correctness.  On a well-formed tree, a single
`updateTransform(id, T)` on a registered frame succeeds and invalidates
exactly the subtree rooted at `id`: the dirty set grows by precisely that
subtree and exactly its cache entries are evicted.  A batch
`updateTransforms` whose ids are all registered succeeds and invalidates
exactly the union of `subtree(k)` over the batch keys `k` that have no
proper ancestor in the batch key set. -/
theorem C2_stale_set_correct {tr : TFTree} (hwf : WF tr) :
    (∀ (id : String) (f : FrameNode) (T : Transform),
      tr.findFrame id = some f →
      ∃ tr', tr.updateTransform id T = (tr', none) ∧
        (∀ x, x ∈ tr'.dirtySet ↔ x ∈ tr.dirtySet ∨ InSubtree tr id x) ∧
        (∀ x, InSubtree tr id x →
          assocGet tr'.worldTransformCache x = none) ∧
        (∀ x, ¬ InSubtree tr id x →
          assocGet tr'.worldTransformCache x
            = assocGet tr.worldTransformCache x)) ∧
    (∀ updates : List (String × Transform),
      (∀ k ∈ updates.map Prod.fst, tr.hasFrame k = true) →
      ∃ tr', tr.updateTransforms updates = (tr', none) ∧
        (∀ x, x ∈ tr'.dirtySet ↔ x ∈ tr.dirtySet ∨
          ∃ k ∈ updates.map Prod.fst,
            (¬ ∃ a ∈ updates.map Prod.fst, ProperAnc tr a k) ∧
              InSubtree tr k x) ∧
        (∀ x, (∃ k ∈ updates.map Prod.fst,
            (¬ ∃ a ∈ updates.map Prod.fst, ProperAnc tr a k) ∧
              InSubtree tr k x) →
          assocGet tr'.worldTransformCache x = none) ∧
        (∀ x, (¬ ∃ k ∈ updates.map Prod.fst,
            (¬ ∃ a ∈ updates.map Prod.fst, ProperAnc tr a k) ∧
              InSubtree tr k x) →
          assocGet tr'.worldTransformCache x
            = assocGet tr.worldTransformCache x)) := by
  constructor
  · intro id f T hfind
    obtain ⟨tr', h1, _, _, _, _, _, hd, hcn, hck⟩ :=
      updateTransform_spec T hwf hfind
    exact ⟨tr', h1, hd, hcn, hck⟩
  · intro updates hkeys
    obtain ⟨tr', h1, _, _, hd, hcn, hck⟩ :=
      updateTransforms_spec hwf updates hkeys
    exact ⟨tr', h1, hd, hcn, hck⟩

/-- C2 witness: the characterisation applied to a concrete one-frame tree;
the updated root lands in the dirty set. -/
theorem C2_stale_set_correct_witness :
    ∃ tr', (TFTree.empty.addFrame "w" none
        Transform.identity).1.updateTransform "w" Transform.identity
      = (tr', none) ∧ "w" ∈ tr'.dirtySet := by
  obtain ⟨tr1, heq, hfr1, hfind1, hds1, hwc1, hwf1⟩ :=
    @addFrame_spec TFTree.empty wf_empty "w" none Transform.identity rfl
      (fun q h => nomatch h)
  have h1 : (TFTree.empty.addFrame "w" none Transform.identity).1 = tr1 := by
    rw [heq]
  rw [h1]
  obtain ⟨tr', hok, hd, _, _⟩ :=
    (C2_stale_set_correct hwf1).1 "w" ⟨"w", none, Transform.identity⟩
      Transform.identity (by rw [hfind1 "w"]; simp)
  exact ⟨tr', hok, (hd "w").mpr (Or.inr (AncSelf.refl "w"))⟩

/-! ### World-transform computation (`getWorldTransform`) -/

theorem contains_false_iff (l : List String) (a : String) :
    l.contains a = false ↔ a ∉ l := by
  constructor
  · intro h hmem
    rw [(contains_iff l a).mpr hmem] at h
    cases h
  · intro h
    cases hc : l.contains a with
    | false => rfl
    | true => exact absurd ((contains_iff l a).mp hc) h

theorem contains_setDelete_self (s : List String) (a : String) :
    (setDelete s a).contains a = false := by
  rw [contains_false_iff]
  intro hmem
  exact (mem_setDelete.mp hmem).2 rfl

theorem contains_setDelete_ne {s : List String} {a x : String} (hx : x ≠ a) :
    (setDelete s a).contains x = s.contains x := by
  cases hc : s.contains x with
  | true =>
    rw [(contains_iff _ _).mpr (mem_setDelete.mpr ⟨(contains_iff s x).mp hc, hx⟩)]
  | false =>
    rw [contains_false_iff] at hc ⊢
    intro hmem
    exact hc (mem_setDelete.mp hmem).1

/-- The data-model requirement (spec §2) that every stored rotation is a
unit quaternion — on the frames and on the cache. -/
def UnitTree (tr : TFTree) : Prop :=
  (∀ f ∈ tr.frames, Transform.HasUnitRotation f.transform) ∧
  (∀ x U, assocGet tr.worldTransformCache x = some U →
    Transform.HasUnitRotation U)

/-- A clean cached entry makes `getWorldTransform` return it unchanged,
leaving the tree untouched. -/
theorem gW_cache_hit {tr : TFTree} {id : String} {w : Transform}
    (hclean : tr.dirtySet.contains id = false)
    (hcache : assocGet tr.worldTransformCache id = some w) (g : ℕ)
    (visiting : List String) :
    TFTree.getWorldTransformF (g + 1) tr visiting id = (tr, .ok w) := by
  unfold TFTree.getWorldTransformF
  rw [hclean, hcache]
  rfl

/-- Full characterisation of `getWorldTransform` (lines 321–338) on a
well-formed tree: it succeeds, leaves the frame structure alone, ends with
the queried id clean and cached with the returned value, preserves every
clean cached entry (values included), and — when the cache is coherent
(resp. all rotations unit) — returns the structurally determined world
transform and preserves coherence (resp. unitness). -/
theorem gW_spec : ∀ (n fuel : ℕ) (tr : TFTree) (visiting : List String)
    (id : String), WF tr → HasDepth tr id n → n < fuel →
    (∀ v ∈ visiting, ¬ AncSelf tr v id) →
    ∃ tr' w, TFTree.getWorldTransformF fuel tr visiting id = (tr', .ok w) ∧
      tr'.frames = tr.frames ∧ tr'.childrenMap = tr.childrenMap ∧
      tr'.dirtySet.contains id = false ∧
      assocGet tr'.worldTransformCache id = some w ∧
      (∀ x U, tr.dirtySet.contains x = false →
        assocGet tr.worldTransformCache x = some U →
        tr'.dirtySet.contains x = false ∧
        assocGet tr'.worldTransformCache x = some U) ∧
      (Coherent tr → WorldIs tr id w ∧ Coherent tr') ∧
      (UnitTree tr → Transform.HasUnitRotation w ∧ UnitTree tr') := by
  intro n
  induction n using Nat.strong_induction_on with
  | _ n ih =>
    intro fuel tr visiting id hwf hd hfuel hvis
    cases fuel with
    | zero => omega
    | succ g =>
      cases hhit : (!(tr.dirtySet.contains id)
          && (assocGet tr.worldTransformCache id).isSome) with
      | true =>
        rw [Bool.and_eq_true, Bool.not_eq_true'] at hhit
        obtain ⟨hclean, hsome⟩ := hhit
        obtain ⟨w, hw⟩ := Option.isSome_iff_exists.mp hsome
        refine ⟨tr, w, gW_cache_hit hclean hw g visiting, rfl, rfl, hclean,
          hw, ?_, ?_, ?_⟩
        · intro x U hx hU
          exact ⟨hx, hU⟩
        · intro hcoh
          exact ⟨hcoh id w hclean hw, hcoh⟩
        · intro hunit
          exact ⟨hunit.2 id w hw, hunit⟩
      | false =>
        have hnvis : visiting.contains id = false := by
          cases hv : visiting.contains id with
          | false => rfl
          | true =>
            exact absurd (AncSelf.refl id)
              (hvis id ((contains_iff visiting id).mp hv))
        have hmiss : ∀ x U, tr.dirtySet.contains x = false →
            assocGet tr.worldTransformCache x = some U → x ≠ id := by
          intro x U hx hU hxe
          subst hxe
          rw [hx, hU] at hhit
          simp at hhit
        cases hd with
        | root _ f0 hf0 hp0 =>
          refine ⟨{ tr with
              worldTransformCache :=
                assocSet tr.worldTransformCache id f0.transform,
              dirtySet := setDelete tr.dirtySet id }, f0.transform,
            ?_, rfl, rfl, ?_, ?_, ?_, ?_, ?_⟩
          · simp only [TFTree.getWorldTransformF, hhit, hnvis, hf0, hp0,
              Bool.false_eq_true, if_false]
          · exact contains_setDelete_self tr.dirtySet id
          · show assocGet (assocSet tr.worldTransformCache id f0.transform) id
              = some f0.transform
            rw [assocGet_assocSet, if_pos rfl]
          · intro x U hx hU
            have hxid := hmiss x U hx hU
            constructor
            · show (setDelete tr.dirtySet id).contains x = false
              rw [contains_setDelete_ne hxid]
              exact hx
            · show assocGet (assocSet tr.worldTransformCache id f0.transform) x
                = some U
              rw [assocGet_assocSet, if_neg hxid]
              exact hU
          · intro hcoh
            have hW : WorldIs tr id f0.transform := WorldIs.root id f0 hf0 hp0
            refine ⟨hW, ?_⟩
            intro x U hclx hcax
            have htransp : ∀ z V, WorldIs tr z V →
                WorldIs { tr with
                  worldTransformCache :=
                    assocSet tr.worldTransformCache id f0.transform,
                  dirtySet := setDelete tr.dirtySet id } z V :=
              fun z V h =>
                @worldIs_transport tr
                  { tr with
                    worldTransformCache :=
                      assocSet tr.worldTransformCache id f0.transform,
                    dirtySet := setDelete tr.dirtySet id } z V
                  (fun _ _ => rfl) h
            rw [assocGet_assocSet] at hcax
            by_cases hxe : x = id
            · rw [if_pos hxe] at hcax
              rw [Option.some.injEq] at hcax
              subst hcax
              subst hxe
              exact htransp x f0.transform hW
            · rw [if_neg hxe] at hcax
              have hclx' : tr.dirtySet.contains x = false := by
                rw [show (setDelete tr.dirtySet id).contains x
                    = tr.dirtySet.contains x from contains_setDelete_ne hxe]
                  at hclx
                exact hclx
              exact htransp x U (hcoh x U hclx' hcax)
          · intro hunit
            refine ⟨hunit.1 f0 (findFrame_mem hf0).1, hunit.1, ?_⟩
            intro x U hx
            rw [assocGet_assocSet] at hx
            by_cases hxe : x = id
            · rw [if_pos hxe, Option.some.injEq] at hx
              subst hx
              exact hunit.1 f0 (findFrame_mem hf0).1
            · rw [if_neg hxe] at hx
              exact hunit.2 x U hx
        | child _ f0 p m hf0 hp0 hdp =>
          have hdid : HasDepth tr id (m + 1) :=
            HasDepth.child id f0 p m hf0 hp0 hdp
          have hidp : ¬ AncSelf tr id p := by
            intro hanc
            obtain ⟨k, hk, hor⟩ := ancSelf_depth hanc hdp
            have hkid := hasDepth_functional hk hdid
            rcases hor with heq | hlt
            · rw [heq] at hk
              have := hasDepth_functional hk hdp
              omega
            · omega
          have hvis' : ∀ v ∈ setAdd visiting id, ¬ AncSelf tr v p := by
            intro v hv hanc
            rcases mem_setAdd.mp hv with hvm | rfl
            · exact hvis v hvm (AncSelf.step v id f0 p hf0 hp0 hanc)
            · exact hidp hanc
          obtain ⟨tr2, pw, hrec, hfr2, hch2, hcl2, hca2, hpres2, hcoh2,
              hunit2⟩ :=
            ih m (by omega) g tr (setAdd visiting id) p hwf hdp (by omega)
              hvis'
          refine ⟨{ tr2 with
              worldTransformCache :=
                assocSet tr2.worldTransformCache id
                  (pw.compose f0.transform),
              dirtySet := setDelete tr2.dirtySet id },
            pw.compose f0.transform, ?_, hfr2, hch2, ?_, ?_, ?_, ?_, ?_⟩
          · simp only [TFTree.getWorldTransformF, hhit, hnvis, hf0, hp0,
              hrec, Bool.false_eq_true, if_false]
          · exact contains_setDelete_self tr2.dirtySet id
          · show assocGet (assocSet tr2.worldTransformCache id
                (pw.compose f0.transform)) id = some (pw.compose f0.transform)
            rw [assocGet_assocSet, if_pos rfl]
          · intro x U hx hU
            have hxid := hmiss x U hx hU
            obtain ⟨hx2, hU2⟩ := hpres2 x U hx hU
            constructor
            · show (setDelete tr2.dirtySet id).contains x = false
              rw [contains_setDelete_ne hxid]
              exact hx2
            · show assocGet (assocSet tr2.worldTransformCache id
                  (pw.compose f0.transform)) x = some U
              rw [assocGet_assocSet, if_neg hxid]
              exact hU2
          · intro hcoh
            obtain ⟨hWp, hcoh2'⟩ := hcoh2 hcoh
            have hW : WorldIs tr id (pw.compose f0.transform) :=
              WorldIs.child id f0 p pw hf0 hp0 hWp
            refine ⟨hW, ?_⟩
            intro x U hclx hcax
            have hfind2 : ∀ y, tr2.findFrame y = tr.findFrame y := by
              intro y
              unfold TFTree.findFrame
              rw [hfr2]
            have htransp : ∀ z V, WorldIs tr2 z V →
                WorldIs { tr2 with
                  worldTransformCache :=
                    assocSet tr2.worldTransformCache id
                      (pw.compose f0.transform),
                  dirtySet := setDelete tr2.dirtySet id } z V :=
              fun z V h =>
                @worldIs_transport tr2
                  { tr2 with
                    worldTransformCache :=
                      assocSet tr2.worldTransformCache id
                        (pw.compose f0.transform),
                    dirtySet := setDelete tr2.dirtySet id } z V
                  (fun _ _ => rfl) h
            have htransp0 : ∀ z V, WorldIs tr z V → WorldIs tr2 z V :=
              fun z V h => worldIs_transport (fun y _ => hfind2 y) h
            rw [assocGet_assocSet] at hcax
            by_cases hxe : x = id
            · rw [if_pos hxe, Option.some.injEq] at hcax
              subst hcax
              subst hxe
              exact htransp x _ (htransp0 x _ hW)
            · rw [if_neg hxe] at hcax
              have hclx' : tr2.dirtySet.contains x = false := by
                rw [show (setDelete tr2.dirtySet id).contains x
                    = tr2.dirtySet.contains x from contains_setDelete_ne hxe]
                  at hclx
                exact hclx
              exact htransp x U (hcoh2' x U hclx' hcax)
          · intro hunit
            obtain ⟨hup, hunit2'⟩ := hunit2 hunit
            have huf : Transform.HasUnitRotation f0.transform :=
              hunit.1 f0 (findFrame_mem hf0).1
            refine ⟨hup.compose huf, ?_, ?_⟩
            · show ∀ f ∈ tr2.frames, Transform.HasUnitRotation f.transform
              rw [hfr2]
              exact hunit.1
            · intro x U hx
              rw [assocGet_assocSet] at hx
              by_cases hxe : x = id
              · rw [if_pos hxe, Option.some.injEq] at hx
                subst hx
                exact hup.compose huf
              · rw [if_neg hxe] at hx
                exact hunit2'.2 x U hx

/-- `chainToRoot` depends on the tree only through frame lookup. -/
theorem chainToRootF_congr {tr tr' : TFTree}
    (hfind : ∀ y, tr'.findFrame y = tr.findFrame y) :
    ∀ (fuel : ℕ) (visited : List String) (cur : Option String),
    TFTree.chainToRootF tr' fuel visited cur
      = TFTree.chainToRootF tr fuel visited cur := by
  intro fuel
  induction fuel with
  | zero =>
    intro visited cur
    cases cur <;> rfl
  | succ g ihg =>
    intro visited cur
    cases cur with
    | none => rfl
    | some c =>
      unfold TFTree.chainToRootF
      rw [hfind c,
        ihg (setAdd visited c) ((tr.findFrame c).bind (fun f => f.parentId))]

/-- Composing the identity with itself gives the identity. -/
theorem compose_identity_identity :
    Transform.compose Transform.identity Transform.identity
      = Transform.identity := by
  show Transform.compose ⟨Vec3.zero, Quaternion.identity⟩
      ⟨Vec3.zero, Quaternion.identity⟩ = Transform.identity
  unfold Transform.compose
  rw [Quaternion.multiply_identity]
  show (⟨Vec3.add Vec3.zero (Quaternion.rotateVec3 Quaternion.identity
    Vec3.zero), Quaternion.identity⟩ : Transform) = Transform.identity
  rw [Quaternion.rotateVec3_zero]
  show (⟨Vec3.add Vec3.zero Vec3.zero, Quaternion.identity⟩ : Transform)
    = Transform.identity
  unfold Transform.identity
  rw [Transform.mk.injEq]
  refine ⟨?_, rfl⟩
  unfold Vec3.add Vec3.zero
  norm_num

/-- C8: inverse property.  On a well-formed tree whose stored rotations are
all unit quaternions, whenever `getTransform(a, b)` succeeds (returning
`Tab` and the post-query tree), the follow-up query `getTransform(b, a)` on
that tree also succeeds and its result `Tba` satisfies
`Tab ∘ Tba = identity` exactly — the cached world transforms consulted by
the second query are the very values the first query cached, so the product
collapses by the algebraic inverse-cancellation law. -/
theorem C8_getTransform_inverse {tr : TFTree} (hwf : WF tr)
    (hunit : UnitTree tr) (a b : String) {tr2 : TFTree} {Tab : Transform}
    (hab : tr.getTransform a b = (tr2, .ok Tab)) :
    ∃ tr4 Tba, tr2.getTransform b a = (tr4, .ok Tba) ∧
      Transform.compose Tab Tba = Transform.identity := by
  cases hA : tr.hasFrame a with
  | false =>
    simp [TFTree.getTransform, hA] at hab
  | true =>
  cases hB : tr.hasFrame b with
  | false =>
    simp [TFTree.getTransform, hA, hB] at hab
  | true =>
  by_cases hABeq : a = b
  · subst hABeq
    have h2 : tr.getTransform a a = (tr, .ok Transform.identity) := by
      simp [TFTree.getTransform, hA]
    rw [h2, Prod.mk.injEq] at hab
    obtain ⟨htr2, hTab⟩ := hab
    rw [Except.ok.injEq] at hTab
    subst htr2
    subst hTab
    exact ⟨tr, Transform.identity, h2, compose_identity_identity⟩
  · have hABne : (a == b) = false := by
      simp [hABeq]
    simp only [TFTree.getTransform, hA, hB, hABne, Bool.not_true,
      Bool.false_eq_true, if_false] at hab
    cases hc1 : TFTree.chainToRootF tr (tr.frames.length + 1) [] (some a) with
    | error e =>
      rw [hc1] at hab
      simp at hab
    | ok fromChain =>
    cases hc2 : TFTree.chainToRootF tr (tr.frames.length + 1) [] (some b) with
    | error e =>
      simp only [hc1, hc2] at hab
      simp at hab
    | ok toChain =>
    cases hlca : fromChain.find? (fun x => toChain.contains x) with
    | none =>
      simp only [hc1, hc2, hlca] at hab
      simp at hab
    | some lca =>
    obtain ⟨fa, hfa⟩ := Option.isSome_iff_exists.mp (hA : _)
    obtain ⟨fb, hfb⟩ := Option.isSome_iff_exists.mp (hB : _)
    obtain ⟨na, hda⟩ := by
      have h0 := hwf.depths fa (findFrame_mem hfa).1
      rwa [(findFrame_mem hfa).2] at h0
    obtain ⟨nb, hdb⟩ := by
      have h0 := hwf.depths fb (findFrame_mem hfb).1
      rwa [(findFrame_mem hfb).2] at h0
    obtain ⟨tr1, wa, heqa, hfr1, hch1, hcla, hcaa, hpresa, _, hunita⟩ :=
      gW_spec na (tr.frames.length + 1) tr [] a hwf hda
        (by have := depth_lt_length hwf hda; omega) (by intro v hv; simp at hv)
    have hwf1 : WF tr1 := wf_of_struct_eq hfr1 hch1 hwf
    have hfind1 : ∀ y, tr1.findFrame y = tr.findFrame y := by
      intro y
      unfold TFTree.findFrame
      rw [hfr1]
    have hdb1 : HasDepth tr1 b nb :=
      hasDepth_transport (fun y _ => hfind1 y) hdb
    have hlen1 : tr1.frames.length = tr.frames.length := by
      rw [hfr1]
    obtain ⟨tr2', wb, heqb, hfr2, hch2, hclb, hcab, hpresb, _, hunitb⟩ :=
      gW_spec nb (tr1.frames.length + 1) tr1 [] b hwf1 hdb1
        (by rw [hlen1]; have := depth_lt_length hwf hdb; omega)
        (by intro v hv; simp at hv)
    simp only [hc1, hc2, hlca, heqa, heqb, Prod.mk.injEq] at hab
    obtain ⟨htr2, hTab⟩ := hab
    rw [Except.ok.injEq] at hTab
    subst htr2
    -- facts about tr2' := tr2'
    have hfind2 : ∀ y, tr2'.findFrame y = tr.findFrame y := by
      intro y
      unfold TFTree.findFrame
      rw [hfr2, hfr1]
    have hlen2 : tr2'.frames.length = tr.frames.length := by
      rw [hfr2, hfr1]
    have hB2 : tr2'.hasFrame b = true := by
      rw [hasFrame_eq_isSome, hfind2 b, hfb]
      rfl
    have hA2 : tr2'.hasFrame a = true := by
      rw [hasFrame_eq_isSome, hfind2 a, hfa]
      rfl
    have hBAne : (b == a) = false := by
      simp
      exact fun h => hABeq h.symm
    have hc2' : TFTree.chainToRootF tr2' (tr2'.frames.length + 1) [] (some b)
        = .ok toChain := by
      rw [chainToRootF_congr hfind2, hlen2, hc2]
    have hc1' : TFTree.chainToRootF tr2' (tr2'.frames.length + 1) [] (some a)
        = .ok fromChain := by
      rw [chainToRootF_congr hfind2, hlen2, hc1]
    have hlca2 : (toChain.find? (fun x => fromChain.contains x)).isSome
        = true := by
      rw [List.find?_isSome]
      refine ⟨lca, ?_, ?_⟩
      · exact (contains_iff _ _).mp (by simpa using List.find?_some hlca)
      · exact (contains_iff _ _).mpr (List.mem_of_find?_eq_some hlca)
    obtain ⟨lca2, hlca2'⟩ := Option.isSome_iff_exists.mp hlca2
    -- a is still clean and cached with wa in tr2'
    obtain ⟨hcla2, hcaa2⟩ := hpresb a wa hcla hcaa
    have hhitb : TFTree.getWorldTransformF (tr2'.frames.length + 1) tr2' [] b
        = (tr2', .ok wb) := gW_cache_hit hclb hcab tr2'.frames.length []
    have hhita : TFTree.getWorldTransformF (tr2'.frames.length + 1) tr2' [] a
        = (tr2', .ok wa) := gW_cache_hit hcla2 hcaa2 tr2'.frames.length []
    have hsecond : tr2'.getTransform b a = (tr2', .ok (wb.invert.compose wa)) := by
      simp only [TFTree.getTransform, hB2, hA2, hBAne, Bool.not_true,
        Bool.false_eq_true, if_false, hc2', hc1', hlca2', hhitb, hhita]
    refine ⟨tr2', wb.invert.compose wa, hsecond, ?_⟩
    obtain ⟨hwau, hunit1⟩ := hunita hunit
    obtain ⟨hwbu, _⟩ := hunitb hunit1
    rw [← hTab]
    exact Transform.invert_compose_cancel hwau hwbu

/-! ### BufferedTFTree (`packages/core/src/BufferedTFTree.ts`) -/

/-- Pushing into an empty buffer with a non-negative window retains exactly
the pushed entry. -/
theorem push_into_empty (d : ℚ) (hd : 0 ≤ d) (e : TransformStamped) :
    (TransformBuffer.mkEmpty d).push e = ⟨[e], d⟩ := by
  have hc : (e.timestamp < e.timestamp - d) = False :=
    eq_false (by intro h; linarith)
  simp [TransformBuffer.push, TransformBuffer.mkEmpty,
    TransformBuffer.upperBound, bsearch, TransformBuffer.pruneList,
    List.dropWhile, hc]

/-- Pushing a newer entry onto a one-entry buffer appends it, and prunes
nothing when the old entry is still inside the window. -/
theorem push_snoc (d : ℚ) (a e : TransformStamped)
    (h1 : a.timestamp ≤ e.timestamp)
    (h2 : ¬ (a.timestamp < e.timestamp - d)) :
    TransformBuffer.push ⟨[a], d⟩ e = ⟨[a, e], d⟩ := by
  have hb1 : (a.timestamp ≤ e.timestamp) = True := eq_true h1
  have hb2 : (a.timestamp < e.timestamp - d) = False := eq_false h2
  simp [TransformBuffer.push, TransformBuffer.upperBound, bsearch,
    TransformBuffer.pruneList, List.dropWhile, List.insertIdx, hb1, hb2]

/-- `interpolateAt` strictly between the two samples of a two-entry buffer
interpolates with `t = (ts − a.ts) / (b.ts − a.ts)`. -/
theorem interpolate_two_mid (d : ℚ) (a b : TransformStamped) (ts : ℚ)
    (h1 : ¬ (ts < a.timestamp)) (h2 : ¬ (b.timestamp ≤ ts))
    (h3 : a.timestamp < ts) :
    TransformBuffer.interpolateAt ⟨[a, b], d⟩ ts
      = .ok ⟨a.transform.translation.lerp b.transform.translation
            ((ts - a.timestamp) / (b.timestamp - a.timestamp)),
          a.transform.rotation.slerp b.transform.rotation
            ((ts - a.timestamp) / (b.timestamp - a.timestamp))⟩ := by
  have hA : (ts < a.timestamp) = False := eq_false h1
  have hB : (b.timestamp ≤ ts) = False := eq_false h2
  have hb' : (b.timestamp < ts) = False := eq_false (fun h => h2 (le_of_lt h))
  have ha' : (a.timestamp < ts) = True := eq_true h3
  have hne : (b.timestamp = ts) = False := eq_false (fun h => h2 (le_of_eq h))
  simp [TransformBuffer.interpolateAt, TransformBuffer.oldestTs,
    TransformBuffer.newestTs, TransformBuffer.lowerBound, bsearch,
    hA, hB, hb', ha', hne]

/-- `BufferedTFTree` — the base `TFTree` plus the per-frame time-stamped
buffers and the retention window (`maxBufferDuration`; the constructor
default is 10000 ms). -/
structure BufferedTFTree where
  base : TFTree
  buffers : List (String × TransformBuffer)
  maxBufferDuration : ℚ
deriving Repr

namespace BufferedTFTree

/-- `hasFrame` — inherited from the base class. -/
def hasFrame (bt : BufferedTFTree) (id : String) : Bool := bt.base.hasFrame id

/-- `setTransform(id, transform, timestamp)` (lines 175–191): check
registration, sync the base tree via `updateFrame`, then push onto (or
create) the per-frame buffer. -/
def setTransform (bt : BufferedTFTree) (id : String) (transform : Transform)
    (timestamp : ℚ) : BufferedTFTree × Option TFError :=
  if !(bt.hasFrame id) then (bt, some (.frameNotFound id))
  else
    match bt.base.updateFrame id transform with
    | (tr', some e) => ({ bt with base := tr' }, some e)
    | (tr', none) =>
      let buffer := match assocGet bt.buffers id with
        | some b => b
        | none => TransformBuffer.mkEmpty bt.maxBufferDuration
      let newBuffers := assocSet bt.buffers id
        (buffer.push ⟨timestamp, transform⟩)
      let bt' : BufferedTFTree :=
        { bt with base := tr', buffers := newBuffers }
      (bt', none)

/-- `localTransformAt(id, timestamp)` (lines 260–266): interpolate from the
frame's buffer, falling back to the static transform when the frame has no
(non-empty) time-stamped history; `getFrameNode` throws on unknown ids. -/
def localTransformAt (bt : BufferedTFTree) (id : String) (timestamp : ℚ) :
    Except TFError Transform :=
  match assocGet bt.buffers id with
  | none =>
    match bt.base.findFrame id with
    | none => .error (.frameNotFound id)
    | some f => .ok f.transform
  | some buffer =>
    if buffer.entries.length = 0 then
      match bt.base.findFrame id with
      | none => .error (.frameNotFound id)
      | some f => .ok f.transform
    else buffer.interpolateAt timestamp

/-- `worldTransformAt(id, timestamp, visiting)` (lines 241–254): accumulate
the timestamped local transforms from the subtree root down, with the
active-visit cycle check; fuel bounds the parent walk. -/
def worldTransformAtF (bt : BufferedTFTree) (timestamp : ℚ) :
    ℕ → List String → String → Except TFError Transform
  | 0, _, _ => .error .outOfFuel
  | fuel + 1, visiting, id =>
    if visiting.contains id then .error (.cycleDetected id)
    else
      match bt.base.findFrame id with
      | none => .error (.frameNotFound id)
      | some frame =>
        match bt.localTransformAt id timestamp with
        | .error e => .error e
        | .ok loc =>
          match frame.parentId with
          | none => .ok loc
          | some pid =>
            match bt.worldTransformAtF timestamp fuel (setAdd visiting id)
                pid with
            | .error e => .error e
            | .ok pw => .ok (pw.compose loc)

/-- `getTransformAt(from, to, timestamp)` (lines 212–226). -/
def getTransformAt (bt : BufferedTFTree) (fromId toId : String)
    (timestamp : ℚ) : Except TFError Transform :=
  if !(bt.hasFrame fromId) then .error (.frameNotFound fromId)
  else if !(bt.hasFrame toId) then .error (.frameNotFound toId)
  else if fromId == toId then .ok Transform.identity
  else
    match bt.worldTransformAtF timestamp (bt.base.frames.length + 1) []
        fromId with
    | .error e => .error e
    | .ok wFrom =>
      match bt.worldTransformAtF timestamp (bt.base.frames.length + 1) []
          toId with
      | .error e => .error e
      | .ok wTo => .ok (wFrom.invert.compose wTo)

end BufferedTFTree

/-- C10: for every buffered tree, registered frame `x` and timestamp,
`getTransformAt(x, x, ts)` short-circuits to the identity transform before
any buffer access — it cannot raise the out-of-range or buffer-empty
errors, even when `ts` predates every retained sample of `x` or `x`'s
buffer is empty. -/
theorem C10_self_query_identity (bt : BufferedTFTree) (x : String) (ts : ℚ)
    (hx : bt.hasFrame x = true) :
    bt.getTransformAt x x ts = .ok Transform.identity := by
  simp [BufferedTFTree.getTransformAt, hx]

/-- C10 witness: a concrete one-frame buffered tree whose only buffer is
empty, queried at a timestamp older than anything retained. -/
theorem C10_self_query_identity_witness :
    BufferedTFTree.getTransformAt
      ⟨(TFTree.empty.addFrame "w" none Transform.identity).1,
        [("w", TransformBuffer.mkEmpty 100)], 100⟩ "w" "w" (-5)
      = .ok Transform.identity :=
  C10_self_query_identity _ "w" (-5) rfl

/-- Evaluation of a successful `setTransform` on a registered frame. -/
theorem setTransform_eq {bt : BufferedTFTree} {id : String} {T : Transform}
    {tr' : TFTree} (hhas : bt.hasFrame id = true)
    (hupd : bt.base.updateFrame id T = (tr', none)) (ts : ℚ) :
    bt.setTransform id T ts
      = (⟨tr', assocSet bt.buffers id
          (((assocGet bt.buffers id).getD
            (TransformBuffer.mkEmpty bt.maxBufferDuration)).push ⟨ts, T⟩),
         bt.maxBufferDuration⟩, none) := by
  unfold BufferedTFTree.setTransform
  rw [hhas]
  simp only [Bool.not_true, Bool.false_eq_true, if_false, hupd]
  cases hb : assocGet bt.buffers id with
  | none => simp [hb]
  | some b => simp [hb]

/-- C7: temporal LERP scenario.  In a buffered tree with root "world" and
child "robot", after `setTransform("robot", translation (0,0,0), t₀)` and
`setTransform("robot", translation (10,0,0), t₀+100)`, the query
`getTransformAt("world", "robot", t₀+50)` succeeds and maps the origin to
`(5, 0, 0)`. -/
theorem C7_temporal_lerp (t0 : ℚ) :
    ∃ res : Transform,
      (((⟨((TFTree.empty.addFrame "world" none Transform.identity).1.addFrame
            "robot" (some "world") Transform.identity).1, [], 10000⟩ :
          BufferedTFTree).setTransform "robot"
          ⟨⟨0, 0, 0⟩, Quaternion.identity⟩ t0).1.setTransform "robot"
          ⟨⟨10, 0, 0⟩, Quaternion.identity⟩ (t0 + 100)).1.getTransformAt
        "world" "robot" (t0 + 50) = .ok res ∧
      res.transformPoint ⟨0, 0, 0⟩ = ⟨5, 0, 0⟩ := by
  set T0 : Transform := ⟨⟨0, 0, 0⟩, Quaternion.identity⟩ with hT0
  set T1 : Transform := ⟨⟨10, 0, 0⟩, Quaternion.identity⟩ with hT1
  obtain ⟨w1, heqw, hfrw, hfindw, hdsw, hwcw, hwfw⟩ :=
    @addFrame_spec TFTree.empty wf_empty "world" none Transform.identity rfl
      (fun q h => nomatch h)
  obtain ⟨w2, heqr, hfrr, hfindr, hdsr, hwcr, hwfr⟩ :=
    @addFrame_spec w1 hwfw "robot" (some "world") Transform.identity
      (by rw [hasFrame_eq_isSome, hfindw "robot", if_neg (by decide)]
          rfl)
      (by intro q h
          injection h with h
          subst h
          rw [hasFrame_eq_isSome, hfindw "world", if_pos rfl]
          rfl)
  have hfind_r2 : w2.findFrame "robot"
      = some ⟨"robot", some "world", Transform.identity⟩ := by
    rw [hfindr "robot", if_pos rfl]
  obtain ⟨u1, hupd1, hfru1, hchu1, hwfu1, hparu1, hlenu1, hdiru1, hcnu1,
      hcku1⟩ := updateTransform_spec T0 hwfr hfind_r2
  have hfindu1 : ∀ y, u1.findFrame y
      = if y = "robot" then some ⟨"robot", some "world", T0⟩
        else w2.findFrame y := by
    intro y
    unfold TFTree.findFrame
    rw [hfru1, find?_framesSet w2.frames "robot" y _ rfl]
  have hfind_r3 : u1.findFrame "robot" = some ⟨"robot", some "world", T0⟩ := by
    rw [hfindu1 "robot", if_pos rfl]
  obtain ⟨u2, hupd2, hfru2, hchu2, hwfu2, hparu2, hlenu2, hdiru2, hcnu2,
      hcku2⟩ := updateTransform_spec T1 hwfu1 hfind_r3
  have hfindu2 : ∀ y, u2.findFrame y
      = if y = "robot" then some ⟨"robot", some "world", T1⟩
        else u1.findFrame y := by
    intro y
    unfold TFTree.findFrame
    rw [hfru2, find?_framesSet u1.frames "robot" y _ rfl]
  have hfw : u2.findFrame "world"
      = some ⟨"world", none, Transform.identity⟩ := by
    rw [hfindu2 "world", if_neg (by decide), hfindu1 "world",
      if_neg (by decide), hfindr "world", if_neg (by decide),
      hfindw "world", if_pos rfl]
  have hfr2 : u2.findFrame "robot" = some ⟨"robot", some "world", T1⟩ := by
    rw [hfindu2 "robot", if_pos rfl]
  have hhasw : u2.hasFrame "world" = true := by
    rw [hasFrame_eq_isSome, hfw]
    rfl
  have hhasr : u2.hasFrame "robot" = true := by
    rw [hasFrame_eq_isSome, hfr2]
    rfl
  have h2len : u2.frames.length = 1 + 1 := by
    rw [hlenu2, hlenu1, hfrr, List.length_append, hfrw, List.length_append]
    simp [TFTree.empty]
  have hset1 : (⟨w2, [], 10000⟩ : BufferedTFTree).setTransform "robot" T0 t0
      = (⟨u1, [("robot", ⟨[⟨t0, T0⟩], 10000⟩)], 10000⟩, none) := by
    rw [setTransform_eq
      (show (⟨w2, [], (10000 : ℚ)⟩ : BufferedTFTree).hasFrame "robot" = true
        from by
          show w2.hasFrame "robot" = true
          rw [hasFrame_eq_isSome, hfind_r2]
          rfl)
      (show (⟨w2, [], (10000 : ℚ)⟩ :
          BufferedTFTree).base.updateFrame "robot" T0 = (u1, none) from hupd1)
      t0]
    rw [show assocGet ([] : List (String × TransformBuffer)) "robot" = none
      from rfl]
    rw [show (Option.getD (none : Option TransformBuffer)
        (TransformBuffer.mkEmpty (10000 : ℚ)))
      = TransformBuffer.mkEmpty 10000 from rfl]
    rw [push_into_empty 10000 (by norm_num) ⟨t0, T0⟩]
    rfl
  have hset2 : (⟨u1, [("robot", ⟨[⟨t0, T0⟩], 10000⟩)], 10000⟩ :
      BufferedTFTree).setTransform "robot" T1 (t0 + 100)
      = (⟨u2, [("robot", ⟨[⟨t0, T0⟩, ⟨t0 + 100, T1⟩], 10000⟩)], 10000⟩,
         none) := by
    rw [setTransform_eq
      (show (⟨u1, [("robot", ⟨[⟨t0, T0⟩], 10000⟩)], (10000 : ℚ)⟩ :
          BufferedTFTree).hasFrame "robot" = true from by
        show u1.hasFrame "robot" = true
        rw [hasFrame_eq_isSome, hfind_r3]
        rfl)
      (show (⟨u1, [("robot", ⟨[⟨t0, T0⟩], 10000⟩)], (10000 : ℚ)⟩ :
          BufferedTFTree).base.updateFrame "robot" T1 = (u2, none) from hupd2)
      (t0 + 100)]
    rw [show assocGet [("robot", (⟨[⟨t0, T0⟩], 10000⟩ : TransformBuffer))]
        "robot" = some ⟨[⟨t0, T0⟩], 10000⟩ from rfl]
    rw [show (Option.getD (some (⟨[⟨t0, T0⟩], 10000⟩ : TransformBuffer))
        (TransformBuffer.mkEmpty (10000 : ℚ))) = ⟨[⟨t0, T0⟩], 10000⟩ from rfl]
    rw [push_snoc 10000 ⟨t0, T0⟩ ⟨t0 + 100, T1⟩
      (by show t0 ≤ t0 + 100; linarith)
      (by show ¬ (t0 < t0 + 100 - 10000); intro h; linarith)]
    rfl
  set bufs2 : List (String × TransformBuffer) :=
    [("robot", ⟨[⟨t0, T0⟩, ⟨t0 + 100, T1⟩], 10000⟩)] with hbufs2
  set t : ℚ := ((t0 + 50) - t0) / ((t0 + 100) - t0) with ht
  set L : Transform :=
    ⟨Vec3.lerp ⟨0, 0, 0⟩ ⟨10, 0, 0⟩ t,
     Quaternion.slerp Quaternion.identity Quaternion.identity t⟩ with hLdef
  have hlocw : BufferedTFTree.localTransformAt ⟨u2, bufs2, 10000⟩ "world"
      (t0 + 50) = .ok Transform.identity := by
    unfold BufferedTFTree.localTransformAt
    simp only [show assocGet bufs2 "world" = none from rfl, hfw]
  have hlocr : BufferedTFTree.localTransformAt ⟨u2, bufs2, 10000⟩ "robot"
      (t0 + 50) = .ok L := by
    unfold BufferedTFTree.localTransformAt
    simp only [show assocGet bufs2 "robot"
        = some ⟨[⟨t0, T0⟩, ⟨t0 + 100, T1⟩], (10000 : ℚ)⟩ from rfl]
    rw [if_neg (by norm_num :
      ¬ ([⟨t0, T0⟩, ⟨t0 + 100, T1⟩] : List TransformStamped).length = 0)]
    rw [interpolate_two_mid 10000 ⟨t0, T0⟩ ⟨t0 + 100, T1⟩ (t0 + 50)
      (by show ¬ (t0 + 50 < t0); intro h; linarith)
      (by show ¬ (t0 + 100 ≤ t0 + 50); intro h; linarith)
      (by show t0 < t0 + 50; linarith)]
  have hWw : ∀ (k : ℕ) (vis : List String), vis.contains "world" = false →
      BufferedTFTree.worldTransformAtF ⟨u2, bufs2, 10000⟩ (t0 + 50) (k + 1)
        vis "world" = .ok Transform.identity := by
    intro k vis hv
    unfold BufferedTFTree.worldTransformAtF
    simp only [hv, Bool.false_eq_true, if_false, hfw, hlocw]
  have hWr : ∀ k : ℕ,
      BufferedTFTree.worldTransformAtF ⟨u2, bufs2, 10000⟩ (t0 + 50)
        (k + 1 + 1) [] "robot" = .ok (Transform.identity.compose L) := by
    intro k
    unfold BufferedTFTree.worldTransformAtF
    simp only [show ([] : List String).contains "robot" = false from rfl,
      Bool.false_eq_true, if_false, hfr2, hlocr,
      hWw k (setAdd [] "robot") rfl]
  have hmain : BufferedTFTree.getTransformAt ⟨u2, bufs2, 10000⟩ "world"
      "robot" (t0 + 50)
      = .ok (Transform.identity.invert.compose
          (Transform.identity.compose L)) := by
    unfold BufferedTFTree.getTransformAt
    have hh1 : BufferedTFTree.hasFrame ⟨u2, bufs2, 10000⟩ "world" = true :=
      hhasw
    have hh2 : BufferedTFTree.hasFrame ⟨u2, bufs2, 10000⟩ "robot" = true :=
      hhasr
    simp only [hh1, hh2, Bool.not_true, Bool.false_eq_true, if_false,
      show (("world" : String) == "robot") = false from rfl, h2len]
    simp only [hWw (1 + 1) [] rfl, hWr 1]
  refine ⟨Transform.identity.invert.compose (Transform.identity.compose L),
    ?_, ?_⟩
  · rw [show (TFTree.empty.addFrame "world" none Transform.identity).1 = w1
      from by rw [heqw]]
    rw [show (w1.addFrame "robot" (some "world") Transform.identity).1 = w2
      from by rw [heqr]]
    rw [show ((⟨w2, [], 10000⟩ : BufferedTFTree).setTransform "robot" T0
        t0).1 = ⟨u1, [("robot", ⟨[⟨t0, T0⟩], 10000⟩)], 10000⟩ from by
      rw [hset1]]
    rw [show ((⟨u1, [("robot", ⟨[⟨t0, T0⟩], 10000⟩)], 10000⟩ :
        BufferedTFTree).setTransform "robot" T1 (t0 + 100)).1
        = ⟨u2, bufs2, 10000⟩ from by rw [hset2]]
    exact hmain
  · rw [hLdef, ht]
    simp only [Transform.transformPoint, Transform.compose, Transform.invert,
      Transform.identity, Quaternion.identity, Quaternion.conjugate,
      Quaternion.multiply, Quaternion.rotateVec3, Quaternion.vecPart,
      Vec3.cross, Vec3.scale, Vec3.add, Vec3.neg, Vec3.zero, Vec3.lerp,
      Quaternion.slerp, Quaternion.dotQ, Quaternion.negQ, Vec3.mk.injEq]
    norm_num

/-- C8 witness: the inverse property applied on a concrete one-frame tree
(the `a = b` short-circuit instance, whose hypotheses evaluate by
computation). -/
theorem C8_getTransform_inverse_witness :
    ∃ tr4 Tba, (TFTree.empty.addFrame "w" none
        Transform.identity).1.getTransform "w" "w" = (tr4, .ok Tba) ∧
      Transform.compose Transform.identity Tba = Transform.identity := by
  obtain ⟨tr1, heq, hfr1, hfind1, hds1, hwc1, hwf1⟩ :=
    @addFrame_spec TFTree.empty wf_empty "w" none Transform.identity rfl
      (fun q h => nomatch h)
  have h1 : (TFTree.empty.addFrame "w" none Transform.identity).1 = tr1 := by
    rw [heq]
  rw [h1]
  have hunit1 : UnitTree tr1 := by
    constructor
    · intro f hf
      rw [hfr1] at hf
      simp [TFTree.empty] at hf
      subst hf
      exact Transform.identity_hasUnitRotation
    · intro x U hU
      rw [hwc1] at hU
      simp [TFTree.empty, assocGet] at hU
  have hww : tr1.getTransform "w" "w" = (tr1, .ok Transform.identity) := by
    have hhas : tr1.hasFrame "w" = true := by
      rw [hasFrame_eq_isSome, hfind1 "w", if_pos rfl]
      rfl
    simp [TFTree.getTransform, hhas]
  exact C8_getTransform_inverse hwf1 hunit1 "w" "w" hww

/-! ### Core TFTree change listeners (`packages/core/src/TFTree.ts`) -/

/-- A subscribed change callback (`ChangeCallback` from `types.ts`),
abstracted to what the claim observes: an identifying tag and whether
invoking it throws.  Invoking `cb(frameId)` is recorded as the event
`(tag, frameId)`. -/
structure ChangeCallback where
  tag : String
  throws : Bool
deriving DecidableEq, Repr

/-- The wasm-backed core `TFTree` (`packages/core/src/TFTree.ts`): frames
and children maps as in the base tree, plus the per-frame change-listener
map.  The Rust backend's cache state is not observable by the listener
claim. -/
structure CoreTFTree where
  frames : List FrameNode
  childrenMap : List (String × List String)
  changeListeners : List (String × List ChangeCallback)
deriving Repr

/-- Errors surfacing from the core mutators: the library's own
frame-not-found error, or a user-callback exception (identified by the
callback's tag) propagating out of `fireChangeListeners`. -/
inductive CoreErr where
  | notFound (id : String)
  | callbackRaised (tag : String)
deriving DecidableEq, Repr

namespace CoreTFTree

/-- Modelled from the spec: the interface documentation of `update_frame`
(`packages/core/src/TFTree.ts` line 30) states it returns "an Array of
stale frame IDs (updated frame + its whole subtree)"; the Rust source is
not part of the repository, so the stale list is modelled as that DFS over
the children map. -/
def staleIdsF : ℕ → CoreTFTree → String → List String
  | 0, _, _ => []
  | fuel + 1, tr, id =>
    id :: ((assocGet tr.childrenMap id).getD []).foldr
      (fun c acc => staleIdsF fuel tr c ++ acc) []

/-- The `for (const cb of listeners) cb(frameId)` loop of
`fireChangeListeners` (lines 432–439): there is no `try`/`catch`, so the
first throwing callback runs, its exception propagates, and the rest of
the loop is abandoned. -/
def fireCallbacks : List ChangeCallback → String →
    List (String × String) × Option String
  | [], _ => ([], none)
  | cb :: rest, fid =>
    if cb.throws then ([(cb.tag, fid)], some cb.tag)
    else
      let r := fireCallbacks rest fid
      ((cb.tag, fid) :: r.1, r.2)

/-- `fireChangeListeners(frameId)` (lines 432–439). -/
def fireChangeListeners (tr : CoreTFTree) (frameId : String) :
    List (String × String) × Option String :=
  match assocGet tr.changeListeners frameId with
  | none => ([], none)
  | some listeners => fireCallbacks listeners frameId

/-- The `for (const dirtyId of dirtyIds) fireChangeListeners(dirtyId)` loop
of `updateTransform` (lines 185–187), equally unprotected. -/
def fireAll (tr : CoreTFTree) : List String →
    List (String × String) × Option String
  | [] => ([], none)
  | fid :: rest =>
    match tr.fireChangeListeners fid with
    | (evs, some tag) => (evs, some tag)
    | (evs, none) =>
      let r := fireAll tr rest
      (evs ++ r.1, r.2)

/-- `updateTransform(id, transform)` (lines 176–188): replace the stored
transform, then fire the listeners of every stale id.  A callback
exception propagates only after the graph state is fully updated. -/
def updateTransform (tr : CoreTFTree) (id : String) (T : Transform) :
    CoreTFTree × List (String × String) × Option CoreErr :=
  match tr.frames.find? (fun f => f.id == id) with
  | none => (tr, [], some (.notFound id))
  | some frame =>
    let tr1 : CoreTFTree :=
      { tr with frames := framesSet tr.frames id { frame with transform := T } }
    let dirtyIds := staleIdsF (tr1.frames.length + 1) tr1 id
    match tr1.fireAll dirtyIds with
    | (evs, none) => (tr1, evs, none)
    | (evs, some tag) => (tr1, evs, some (.callbackRaised tag))

end CoreTFTree

/-- C4 counterexample: callbacks are *not* isolated from one another.  Two
callbacks are registered on "a"; `updateTransform("a", ·)` succeeds — the
graph holds the new transform — and the first callback throws, so the
second registered callback never runs. -/
theorem C4_callback_isolation_counterexample :
    (CoreTFTree.updateTransform
        ⟨[⟨"a", none, Transform.identity⟩], [("a", [])],
         [("a", [⟨"cb1", true⟩, ⟨"cb2", false⟩])]⟩ "a"
        ⟨⟨1, 0, 0⟩, Quaternion.identity⟩).2
      = ([("cb1", "a")], some (CoreErr.callbackRaised "cb1")) ∧
    ("cb2", "a") ∉ (CoreTFTree.updateTransform
        ⟨[⟨"a", none, Transform.identity⟩], [("a", [])],
         [("a", [⟨"cb1", true⟩, ⟨"cb2", false⟩])]⟩ "a"
        ⟨⟨1, 0, 0⟩, Quaternion.identity⟩).2.1 ∧
    (CoreTFTree.updateTransform
        ⟨[⟨"a", none, Transform.identity⟩], [("a", [])],
         [("a", [⟨"cb1", true⟩, ⟨"cb2", false⟩])]⟩ "a"
        ⟨⟨1, 0, 0⟩, Quaternion.identity⟩).1.frames
      = [⟨"a", none, ⟨⟨1, 0, 0⟩, Quaternion.identity⟩⟩] := by
  refine ⟨rfl, ?_, rfl⟩
  intro h
  rw [show (CoreTFTree.updateTransform
      ⟨[⟨"a", none, Transform.identity⟩], [("a", [])],
       [("a", [⟨"cb1", true⟩, ⟨"cb2", false⟩])]⟩ "a"
      ⟨⟨1, 0, 0⟩, Quaternion.identity⟩).2.1 = [("cb1", "a")] from rfl] at h
  simp at h

/-- C4 (amended): a callback exception cannot corrupt graph state —
`updateTransform` installs the new transform *before* any listener runs,
and the resulting tree is that updated tree whether or not callbacks
throw.  But callbacks are not isolated from each other: the listener loop
has no `try`/`catch`, so the first throwing callback fires, its exception
propagates, and every callback after it in the listener list is skipped;
all of them run only when none throws. -/
theorem C4_callback_throw_behaviour (tr : CoreTFTree) :
    (∀ (id : String) (f : FrameNode) (T : Transform),
      tr.frames.find? (fun g => g.id == id) = some f →
      ∃ evs err, tr.updateTransform id T
        = ({ tr with frames := framesSet tr.frames id { f with transform := T } }, evs, err)) ∧
    (∀ (l1 : List ChangeCallback) (cb : ChangeCallback)
        (l2 : List ChangeCallback) (fid : String),
      (∀ c ∈ l1, c.throws = false) → cb.throws = true →
      CoreTFTree.fireCallbacks (l1 ++ cb :: l2) fid
        = (l1.map (fun c => (c.tag, fid)) ++ [(cb.tag, fid)], some cb.tag)) ∧
    (∀ (l : List ChangeCallback) (fid : String),
      (∀ c ∈ l, c.throws = false) →
      CoreTFTree.fireCallbacks l fid
        = (l.map (fun c => (c.tag, fid)), none)) := by
  refine ⟨?_, ?_, ?_⟩
  · intro id f T hfind
    unfold CoreTFTree.updateTransform
    rw [hfind]
    dsimp only
    set tr1 : CoreTFTree :=
      { tr with frames := framesSet tr.frames id { f with transform := T } }
      with htr1
    cases hfa : tr1.fireAll
        (CoreTFTree.staleIdsF (tr1.frames.length + 1) tr1 id) with
    | mk evs e =>
      cases e with
      | none =>
        refine ⟨evs, none, ?_⟩
        simp only [hfa]
      | some tag =>
        refine ⟨evs, some (.callbackRaised tag), ?_⟩
        simp only [hfa]
  · intro l1 cb l2 fid h1 hc
    induction l1 with
    | nil =>
      rw [List.nil_append]
      unfold CoreTFTree.fireCallbacks
      rw [hc]
      simp
    | cons c t ih =>
      have hcf : c.throws = false := h1 c (by simp)
      show CoreTFTree.fireCallbacks (c :: (t ++ cb :: l2)) fid = _
      unfold CoreTFTree.fireCallbacks
      rw [hcf]
      simp only [Bool.false_eq_true, if_false]
      rw [ih (fun d hd => h1 d (by simp [hd]))]
      simp
  · intro l fid h1
    induction l with
    | nil => rfl
    | cons c t ih =>
      have hcf : c.throws = false := h1 c (by simp)
      unfold CoreTFTree.fireCallbacks
      rw [hcf]
      simp only [Bool.false_eq_true, if_false]
      rw [ih (fun d hd => h1 d (by simp [hd]))]
      simp

/-- C4 witness: the amended characterisation applied to a concrete
listener list — the clean prefix and the throwing callback fire, the
callback after it is skipped. -/
theorem C4_callback_throw_behaviour_witness :
    CoreTFTree.fireCallbacks
        ([⟨"ok1", false⟩] ++ (⟨"boom", true⟩ : ChangeCallback)
          :: [⟨"ok2", false⟩]) "a"
      = ([("ok1", "a"), ("boom", "a")], some "boom") :=
  (C4_callback_throw_behaviour ⟨[], [], []⟩).2.1 [⟨"ok1", false⟩]
    ⟨"boom", true⟩ [⟨"ok2", false⟩] "a"
    (by intro c hc
        simp at hc
        subst hc
        rfl)
    rfl

/-- C6 counterexample: the round-trip does *not* preserve `getTransform`
results on every tree built through the public API.  Build: add "w", add
"a" under "w" with translation (1,0,0); query `getTransform("w","a")`
(which caches the world transforms); then call
`updateTransforms {a ↦ (2,0,0), x ↦ id}` — it throws `FrameNotFound "x"`
after already replacing "a"'s transform, leaving the cache entries clean
but stale.  The original tree keeps answering `getTransform("w","a")` from
the stale cache (translation 1), while the serialisation round-trip
rebuilds without the cache and answers with the stored transform
(translation 2): same ids, different transforms, far beyond any ε. -/
theorem C6_roundtrip_counterexample :
    ((((TFTree.empty.addFrame "w" none Transform.identity).1.addFrame "a"
        (some "w") ⟨⟨1, 0, 0⟩, Quaternion.identity⟩).1.getTransform "w"
        "a").1.updateTransforms
        [("a", ⟨⟨2, 0, 0⟩, Quaternion.identity⟩),
         ("x", Transform.identity)]).2
      = some (TFError.frameNotFound "x") ∧
    (TFTree.fromJSON (TFTree.toJSON
        ((((TFTree.empty.addFrame "w" none Transform.identity).1.addFrame "a"
          (some "w") ⟨⟨1, 0, 0⟩, Quaternion.identity⟩).1.getTransform "w"
          "a").1.updateTransforms
          [("a", ⟨⟨2, 0, 0⟩, Quaternion.identity⟩),
           ("x", Transform.identity)]).1)).2 = none ∧
    (TFTree.fromJSON (TFTree.toJSON
        ((((TFTree.empty.addFrame "w" none Transform.identity).1.addFrame "a"
          (some "w") ⟨⟨1, 0, 0⟩, Quaternion.identity⟩).1.getTransform "w"
          "a").1.updateTransforms
          [("a", ⟨⟨2, 0, 0⟩, Quaternion.identity⟩),
           ("x", Transform.identity)]).1)).1.frameIds
      = ((((TFTree.empty.addFrame "w" none Transform.identity).1.addFrame "a"
          (some "w") ⟨⟨1, 0, 0⟩, Quaternion.identity⟩).1.getTransform "w"
          "a").1.updateTransforms
          [("a", ⟨⟨2, 0, 0⟩, Quaternion.identity⟩),
           ("x", Transform.identity)]).1.frameIds ∧
    (((((TFTree.empty.addFrame "w" none Transform.identity).1.addFrame "a"
        (some "w") ⟨⟨1, 0, 0⟩, Quaternion.identity⟩).1.getTransform "w"
        "a").1.updateTransforms
        [("a", ⟨⟨2, 0, 0⟩, Quaternion.identity⟩),
         ("x", Transform.identity)]).1.getTransform "w" "a").2
      = .ok (Transform.identity.invert.compose
          (Transform.identity.compose ⟨⟨1, 0, 0⟩, Quaternion.identity⟩)) ∧
    ((TFTree.fromJSON (TFTree.toJSON
        ((((TFTree.empty.addFrame "w" none Transform.identity).1.addFrame "a"
          (some "w") ⟨⟨1, 0, 0⟩, Quaternion.identity⟩).1.getTransform "w"
          "a").1.updateTransforms
          [("a", ⟨⟨2, 0, 0⟩, Quaternion.identity⟩),
           ("x", Transform.identity)]).1)).1.getTransform "w" "a").2
      = .ok (Transform.identity.invert.compose
          (Transform.identity.compose ⟨⟨2, 0, 0⟩, Quaternion.identity⟩)) ∧
    Transform.identity.invert.compose
        (Transform.identity.compose ⟨⟨1, 0, 0⟩, Quaternion.identity⟩)
      ≠ Transform.identity.invert.compose
        (Transform.identity.compose ⟨⟨2, 0, 0⟩, Quaternion.identity⟩) := by
  refine ⟨rfl, rfl, rfl, rfl, rfl, ?_⟩
  intro h
  have hx := congrArg (fun t => t.translation.x) h
  simp only [Transform.compose, Transform.invert, Transform.identity,
    Quaternion.identity, Quaternion.conjugate, Quaternion.rotateVec3,
    Quaternion.vecPart, Quaternion.multiply, Vec3.cross, Vec3.scale,
    Vec3.add, Vec3.neg, Vec3.zero] at hx
  norm_num at hx

/-! ### Coherence preservation and the serialisation round trip (C6) -/

theorem ancSelf_trans {tr : TFTree} {a b c : String} (h1 : AncSelf tr a b)
    (h2 : AncSelf tr b c) : AncSelf tr a c := by
  induction h2 with
  | refl => exact h1
  | step x f p hf hp _ ih => exact AncSelf.step a x f p hf hp ih

theorem worldIs_isSome {tr : TFTree} {x : String} {T : Transform}
    (h : WorldIs tr x T) : (tr.findFrame x).isSome = true := by
  cases h with
  | root _ f hf _ =>
    rw [hf]
    rfl
  | child _ f p pw hf _ _ =>
    rw [hf]
    rfl

/-- Every batch key lying on a frame's ancestor chain is covered by a batch
key with no proper ancestor in the batch (walk up; depths strictly
decrease). -/
theorem dedup_cover {tr : TFTree} (hwf : WF tr) (keys : List String) :
    ∀ (n : ℕ) (k : String), k ∈ keys → HasDepth tr k n →
    ∀ x, AncSelf tr k x →
    ∃ k2 ∈ keys, (¬ ∃ a ∈ keys, ProperAnc tr a k2) ∧ InSubtree tr k2 x := by
  intro n
  induction n using Nat.strong_induction_on with
  | _ n ih =>
    intro k hk hd x hanc
    by_cases hprop : ∃ a ∈ keys, ProperAnc tr a k
    · obtain ⟨a, ha, f, p, hf, hp, hap⟩ := hprop
      have hak : AncSelf tr a k := AncSelf.step a k f p hf hp hap
      have hax : AncSelf tr a x := ancSelf_trans hak hanc
      obtain ⟨m, hnm, hdp⟩ := hasDepth_child_inv hf hp hd
      obtain ⟨ka, hka, hor⟩ := ancSelf_depth hap hdp
      have hlt : ka < n := by
        rcases hor with heq | hlt2
        · rw [heq] at hka
          have := hasDepth_functional hka hdp
          omega
        · omega
      exact ih ka hlt a ha hka x hax
    · exact ⟨k, hk, hprop, hanc⟩

/-- The first pass never touches frames outside the batch key-set. -/
theorem applyUpdates_nonkey :
    ∀ (updates : List (String × Transform)) (tr : TFTree), WF tr →
    ∀ (tr1 : TFTree) (e : Option TFError),
    TFTree.applyUpdates tr updates = (tr1, e) →
    ∀ y, y ∉ updates.map Prod.fst → tr1.findFrame y = tr.findFrame y := by
  intro updates
  induction updates with
  | nil =>
    intro tr _ tr1 e heq y _
    have h1 : tr = tr1 := congrArg Prod.fst heq
    rw [← h1]
  | cons u rest ih =>
    intro tr hwf tr1 e heq y hy
    obtain ⟨id, T⟩ := u
    have hyrest : y ∉ rest.map Prod.fst := by
      intro h
      exact hy (by simp [h])
    have hyid : y ≠ id := by
      intro h
      exact hy (by simp [h])
    cases hfind : tr.findFrame id with
    | none =>
      have h0 : TFTree.applyUpdates tr ((id, T) :: rest)
          = (tr, some (.frameNotFound id)) := by
        show (match tr.findFrame id with
          | none => (tr, some (TFError.frameNotFound id))
          | some frame =>
            TFTree.applyUpdates
              { tr with
                frames := framesSet tr.frames id { frame with transform := T } }
              rest)
          = (tr, some (.frameNotFound id))
        rw [hfind]
      rw [h0] at heq
      have h1 : tr = tr1 := congrArg Prod.fst heq
      rw [← h1]
    | some f =>
      set trM : TFTree :=
        { tr with frames := framesSet tr.frames id ({ f with transform := T }) }
        with htrM
      obtain ⟨hwfM, _, _, hfindM⟩ :=
        framesSet_update_facts T hwf hfind trM rfl rfl
      have h0 : TFTree.applyUpdates tr ((id, T) :: rest)
          = TFTree.applyUpdates trM rest := by
        show (match tr.findFrame id with
          | none => (tr, some (TFError.frameNotFound id))
          | some frame =>
            TFTree.applyUpdates
              { tr with
                frames := framesSet tr.frames id { frame with transform := T } }
              rest)
          = TFTree.applyUpdates trM rest
        rw [hfind]
      rw [h0] at heq
      rw [ih trM hwfM tr1 e heq y hyrest, hfindM y, if_neg hyid]

/-- A successful first pass certifies that every batch key is registered. -/
theorem applyUpdates_none_keys :
    ∀ (updates : List (String × Transform)) (tr tr1 : TFTree), WF tr →
    TFTree.applyUpdates tr updates = (tr1, none) →
    ∀ k ∈ updates.map Prod.fst, tr.hasFrame k = true := by
  intro updates
  induction updates with
  | nil =>
    intro tr tr1 _ _ k hk
    simp at hk
  | cons u rest ih =>
    intro tr tr1 hwf heq k hk
    obtain ⟨id, T⟩ := u
    cases hfind : tr.findFrame id with
    | none =>
      have h0 : TFTree.applyUpdates tr ((id, T) :: rest)
          = (tr, some (.frameNotFound id)) := by
        show (match tr.findFrame id with
          | none => (tr, some (TFError.frameNotFound id))
          | some frame =>
            TFTree.applyUpdates
              { tr with
                frames := framesSet tr.frames id { frame with transform := T } }
              rest)
          = (tr, some (.frameNotFound id))
        rw [hfind]
      rw [h0] at heq
      exact Option.noConfusion (congrArg Prod.snd heq)
    | some f =>
      set trM : TFTree :=
        { tr with frames := framesSet tr.frames id ({ f with transform := T }) }
        with htrM
      obtain ⟨hwfM, hparM, _, _⟩ :=
        framesSet_update_facts T hwf hfind trM rfl rfl
      have h0 : TFTree.applyUpdates tr ((id, T) :: rest)
          = TFTree.applyUpdates trM rest := by
        show (match tr.findFrame id with
          | none => (tr, some (TFError.frameNotFound id))
          | some frame =>
            TFTree.applyUpdates
              { tr with
                frames := framesSet tr.frames id { frame with transform := T } }
              rest)
          = TFTree.applyUpdates trM rest
        rw [hfind]
      rw [h0] at heq
      simp only [List.map_cons, List.mem_cons] at hk
      rcases hk with rfl | hk'
      · rw [hasFrame_eq_isSome, hfind]
        rfl
      · rw [← hasFrame_congr_parent hparM]
        exact ih trM tr1 hwfM heq k hk'

/-- A successful batch certifies that every batch key is registered. -/
theorem updateTransforms_keys {tr tr' : TFTree} (hwf : WF tr)
    {updates : List (String × Transform)}
    (heq : tr.updateTransforms updates = (tr', none)) :
    ∀ k ∈ updates.map Prod.fst, tr.hasFrame k = true := by
  unfold TFTree.updateTransforms at heq
  cases happ : TFTree.applyUpdates tr updates with
  | mk tr1 e =>
    cases e with
    | some e0 =>
      rw [happ] at heq
      have heq2 : ((tr1 : TFTree), (some e0 : Option TFError))
          = (tr', none) := heq
      exact absurd (congrArg Prod.snd heq2) (by simp)
    | none =>
      exact applyUpdates_none_keys updates tr tr1 hwf happ

/-- `updateTransforms` never touches the stored node of a frame outside
the batch key-set (first pass rewrites only keys, second pass only marks). -/
theorem updateTransforms_nonkey {tr tr' : TFTree} (hwf : WF tr)
    {updates : List (String × Transform)}
    (heq : tr.updateTransforms updates = (tr', none)) :
    ∀ y, y ∉ updates.map Prod.fst → tr'.findFrame y = tr.findFrame y := by
  intro y hy
  have hkeys := updateTransforms_keys hwf heq
  obtain ⟨tr1, happ, hwf1, hpar1, _, _, _, _⟩ :=
    applyUpdates_spec updates tr hwf hkeys
  have hkeys1 : ∀ k ∈ updates.map Prod.fst, tr1.hasFrame k = true := by
    intro k hk
    rw [hasFrame_congr_parent hpar1]
    exact hkeys k hk
  obtain ⟨tr'', hmp, hfr'', _, _, _, _⟩ :=
    markPass_spec (updates.map Prod.fst) (updates.map Prod.fst) tr1 hwf1 hkeys1
  have h0 : tr.updateTransforms updates = (tr'', none) := by
    unfold TFTree.updateTransforms
    rw [happ]
    exact hmp
  rw [heq] at h0
  have htr : tr' = tr'' := congrArg Prod.fst h0
  have h1 : tr'.findFrame y = tr1.findFrame y := by
    unfold TFTree.findFrame
    rw [htr, hfr'']
  rw [h1]
  exact applyUpdates_nonkey updates tr hwf tr1 none happ y hy

/-- The empty tree has a coherent (empty) cache. -/
theorem coherent_empty : Coherent TFTree.empty := by
  intro x T _ hc
  cases hc

/-- A successful `addFrame` preserves cache coherence: the cache is
untouched and no cached frame's ancestor chain can pass through the
freshly added id. -/
theorem addFrame_coherent {tr : TFTree} (hwf : WF tr) {id : String}
    {pid : Option String} {T : Transform} (hid : tr.hasFrame id = false)
    (hpidOK : ∀ q, pid = some q → tr.hasFrame q = true) {tr' : TFTree}
    (heq : tr.addFrame id pid T = (tr', none)) (hco : Coherent tr) :
    Coherent tr' := by
  have hidn : tr.findFrame id = none := by
    rw [hasFrame_eq_isSome] at hid
    cases h : tr.findFrame id with
    | none => rfl
    | some f =>
      rw [h] at hid
      cases hid
  obtain ⟨tr'', heq'', hfr, hfind', hds, hwc, hwf'⟩ :=
    addFrame_spec hwf pid T hid hpidOK
  have htr : tr' = tr'' := by
    rw [heq] at heq''
    exact congrArg Prod.fst heq''
  rw [← htr] at hfr hfind' hds hwc hwf'
  intro x U hclx hcax
  rw [hwc] at hcax
  have hnotin : x ∉ setAdd tr.dirtySet id := by
    rw [← contains_false_iff, ← hds]
    exact hclx
  have hclean : tr.dirtySet.contains x = false := by
    rw [contains_false_iff]
    exact fun h => hnotin (mem_setAdd.mpr (Or.inl h))
  have hW := hco x U hclean hcax
  refine worldIs_transport ?_ hW
  intro y hy
  rw [hfind' y]
  by_cases hye : y = id
  · subst hye
    exact absurd hy (fun h =>
      unregistered_not_anc hwf hidn (worldIs_isSome hW) h)
  · rw [if_neg hye]

/-- A successful single `updateTransform` preserves cache coherence: the
subtree of the updated frame is wiped from the cache, and chains of
surviving entries avoid that subtree, hence avoid the rewritten node. -/
theorem updateTransform_coherent {tr : TFTree} (hwf : WF tr) {id : String}
    {T : Transform} {tr' : TFTree}
    (heq : tr.updateTransform id T = (tr', none)) (hco : Coherent tr) :
    Coherent tr' := by
  cases hfind : tr.findFrame id with
  | none =>
    have h0 : tr.updateTransform id T = (tr, some (.frameNotFound id)) := by
      unfold TFTree.updateTransform
      rw [hfind]
    rw [h0] at heq
    exact Option.noConfusion (congrArg Prod.snd heq)
  | some f =>
    obtain ⟨tr'', heq'', hfr, hch, hwf'', hpar, hlen, hdirty, hcnone, hckeep⟩ :=
      updateTransform_spec T hwf hfind
    have htr : tr' = tr'' := by
      rw [heq] at heq''
      exact congrArg Prod.fst heq''
    rw [← htr] at hfr hch hwf'' hpar hlen hdirty hcnone hckeep
    intro x U hclx hcax
    have hnd := (contains_false_iff _ _).mp hclx
    have hcl : tr.dirtySet.contains x = false := by
      rw [contains_false_iff]
      exact fun h => hnd ((hdirty x).mpr (Or.inl h))
    have hnsub : ¬ InSubtree tr id x :=
      fun h => hnd ((hdirty x).mpr (Or.inr h))
    have hca : assocGet tr.worldTransformCache x = some U := by
      rw [← hckeep x hnsub]
      exact hcax
    have hW := hco x U hcl hca
    refine worldIs_transport ?_ hW
    intro y hy
    have hfy : tr'.findFrame y
        = if y = id then some ({ f with transform := T })
          else tr.findFrame y := by
      unfold TFTree.findFrame
      rw [hfr]
      exact find?_framesSet tr.frames id y _ (findFrame_mem hfind).2
    rw [hfy]
    by_cases hye : y = id
    · subst hye
      exact absurd hy hnsub
    · rw [if_neg hye]

/-- A successful batch `updateTransforms` preserves cache coherence: the
deduplicated union of key subtrees is wiped, and the ancestor chain of any
surviving entry avoids every batch key (else `dedup_cover` would place the
entry inside a wiped subtree). -/
theorem updateTransforms_coherent {tr tr' : TFTree} (hwf : WF tr)
    {updates : List (String × Transform)}
    (heq : tr.updateTransforms updates = (tr', none)) (hco : Coherent tr) :
    Coherent tr' := by
  have hkeys := updateTransforms_keys hwf heq
  obtain ⟨tr'', heq'', hwf'', hpar'', hdirty'', hcnone'', hckeep''⟩ :=
    updateTransforms_spec hwf updates hkeys
  have htr : tr' = tr'' := by
    rw [heq] at heq''
    exact congrArg Prod.fst heq''
  rw [← htr] at hwf'' hpar'' hdirty'' hcnone'' hckeep''
  intro x U hclx hcax
  have hnd := (contains_false_iff _ _).mp hclx
  have hcl : tr.dirtySet.contains x = false := by
    rw [contains_false_iff]
    exact fun h => hnd ((hdirty'' x).mpr (Or.inl h))
  have hnun : ¬ ∃ k ∈ updates.map Prod.fst,
      (¬ ∃ a ∈ updates.map Prod.fst, ProperAnc tr a k) ∧ InSubtree tr k x :=
    fun h => hnd ((hdirty'' x).mpr (Or.inr h))
  have hca : assocGet tr.worldTransformCache x = some U := by
    rw [← hckeep'' x hnun]
    exact hcax
  have hW := hco x U hcl hca
  refine worldIs_transport ?_ hW
  intro y hy
  refine updateTransforms_nonkey hwf heq y ?_
  intro hyk
  have hfy : (tr.findFrame y).isSome = true := by
    cases hf : tr.findFrame y with
    | none => exact absurd hy (unregistered_not_anc hwf hf (worldIs_isSome hW))
    | some g => rfl
  obtain ⟨g, hg⟩ := Option.isSome_iff_exists.mp hfy
  obtain ⟨ny, hdy⟩ := by
    have h0 := hwf.depths g (findFrame_mem hg).1
    rwa [(findFrame_mem hg).2] at h0
  obtain ⟨k2, hk2, hnda, hin⟩ :=
    dedup_cover hwf (updates.map Prod.fst) ny y hyk hdy x hy
  exact hnun ⟨k2, hk2, hnda, hin⟩

/-- Inversion of a successful `addFrame`: the id was fresh and the named
parent (if any) registered. -/
theorem addFrame_inv {tr tr' : TFTree} {id : String} {pid : Option String}
    {T : Transform} (heq : tr.addFrame id pid T = (tr', none)) :
    tr.hasFrame id = false ∧ (∀ q, pid = some q → tr.hasFrame q = true) := by
  cases hid : tr.hasFrame id with
  | true =>
    have h0 : tr.addFrame id pid T = (tr, some (.duplicateFrame id)) := by
      unfold TFTree.addFrame
      rw [hid]
      rfl
    rw [h0] at heq
    exact Option.noConfusion (congrArg Prod.snd heq)
  | false =>
    refine ⟨rfl, ?_⟩
    intro q hq
    subst hq
    cases hqreg : tr.hasFrame q with
    | true => rfl
    | false =>
      have h0 : tr.addFrame id (some q) T = (tr, some (.parentNotFound q)) := by
        unfold TFTree.addFrame
        rw [hid]
        simp only [Bool.false_eq_true, if_false]
        rw [hqreg]
        rfl
      rw [h0] at heq
      exact Option.noConfusion (congrArg Prod.snd heq)

/-- Well-formedness and cache coherence hold after a successful
`addFrame`. -/
theorem addFrame_wf_coherent {tr tr' : TFTree} (hwf : WF tr)
    (hco : Coherent tr) {id : String} {pid : Option String} {T : Transform}
    (heq : tr.addFrame id pid T = (tr', none)) : WF tr' ∧ Coherent tr' := by
  obtain ⟨hid, hpidOK⟩ := addFrame_inv heq
  obtain ⟨tr'', heq'', _, _, _, _, hwf''⟩ := addFrame_spec hwf pid T hid hpidOK
  have htr : tr' = tr'' := by
    rw [heq] at heq''
    exact congrArg Prod.fst heq''
  exact ⟨htr ▸ hwf'', addFrame_coherent hwf hid hpidOK heq hco⟩

/-- Well-formedness and cache coherence hold after a successful
`updateTransform`. -/
theorem updateTransform_wf_coherent {tr tr' : TFTree} (hwf : WF tr)
    (hco : Coherent tr) {id : String} {T : Transform}
    (heq : tr.updateTransform id T = (tr', none)) : WF tr' ∧ Coherent tr' := by
  refine ⟨?_, updateTransform_coherent hwf heq hco⟩
  cases hfind : tr.findFrame id with
  | none =>
    have h0 : tr.updateTransform id T = (tr, some (.frameNotFound id)) := by
      unfold TFTree.updateTransform
      rw [hfind]
    rw [h0] at heq
    exact Option.noConfusion (congrArg Prod.snd heq)
  | some f =>
    obtain ⟨tr'', heq'', _, _, hwf'', _⟩ := updateTransform_spec T hwf hfind
    have htr : tr' = tr'' := by
      rw [heq] at heq''
      exact congrArg Prod.fst heq''
    exact htr ▸ hwf''

/-- Well-formedness and cache coherence hold after a successful
`updateTransforms`. -/
theorem updateTransforms_wf_coherent {tr tr' : TFTree} (hwf : WF tr)
    (hco : Coherent tr) {updates : List (String × Transform)}
    (heq : tr.updateTransforms updates = (tr', none)) :
    WF tr' ∧ Coherent tr' := by
  refine ⟨?_, updateTransforms_coherent hwf heq hco⟩
  obtain ⟨tr'', heq'', hwf'', _⟩ :=
    updateTransforms_spec hwf updates (updateTransforms_keys hwf heq)
  have htr : tr' = tr'' := by
    rw [heq] at heq''
    exact congrArg Prod.fst heq''
  exact htr ▸ hwf''

/-- `getTransform` only moves cache entries around: the frame structure is
untouched and well-formedness and coherence are preserved, whatever the
query outcome. -/
theorem getTransform_preserves {tr : TFTree} (hwf : WF tr) (hco : Coherent tr)
    (a b : String) {tr2 : TFTree} {r : Except TFError Transform}
    (heq : tr.getTransform a b = (tr2, r)) :
    tr2.frames = tr.frames ∧ WF tr2 ∧ Coherent tr2 := by
  cases hA : tr.hasFrame a with
  | false =>
    have h0 : tr.getTransform a b = (tr, .error (.frameNotFound a)) := by
      simp [TFTree.getTransform, hA]
    rw [h0] at heq
    have htr : tr = tr2 := congrArg Prod.fst heq
    rw [← htr]
    exact ⟨rfl, hwf, hco⟩
  | true =>
  cases hB : tr.hasFrame b with
  | false =>
    have h0 : tr.getTransform a b = (tr, .error (.frameNotFound b)) := by
      simp [TFTree.getTransform, hA, hB]
    rw [h0] at heq
    have htr : tr = tr2 := congrArg Prod.fst heq
    rw [← htr]
    exact ⟨rfl, hwf, hco⟩
  | true =>
  by_cases hABeq : a = b
  · subst hABeq
    have h0 : tr.getTransform a a = (tr, .ok Transform.identity) := by
      simp [TFTree.getTransform, hA]
    rw [h0] at heq
    have htr : tr = tr2 := congrArg Prod.fst heq
    rw [← htr]
    exact ⟨rfl, hwf, hco⟩
  · have hABne : (a == b) = false := by
      simp [hABeq]
    simp only [TFTree.getTransform, hA, hB, hABne, Bool.not_true,
      Bool.false_eq_true, if_false] at heq
    cases hc1 : TFTree.chainToRootF tr (tr.frames.length + 1) [] (some a) with
    | error e =>
      rw [hc1] at heq
      simp only [Prod.mk.injEq] at heq
      rw [← heq.1]
      exact ⟨rfl, hwf, hco⟩
    | ok fromChain =>
    cases hc2 : TFTree.chainToRootF tr (tr.frames.length + 1) [] (some b) with
    | error e =>
      simp only [hc1, hc2, Prod.mk.injEq] at heq
      rw [← heq.1]
      exact ⟨rfl, hwf, hco⟩
    | ok toChain =>
    cases hlca : fromChain.find? (fun x => toChain.contains x) with
    | none =>
      simp only [hc1, hc2, hlca, Prod.mk.injEq] at heq
      rw [← heq.1]
      exact ⟨rfl, hwf, hco⟩
    | some lca =>
      obtain ⟨fa, hfa⟩ := Option.isSome_iff_exists.mp (hA : _)
      obtain ⟨fb, hfb⟩ := Option.isSome_iff_exists.mp (hB : _)
      obtain ⟨na, hda⟩ := by
        have h0 := hwf.depths fa (findFrame_mem hfa).1
        rwa [(findFrame_mem hfa).2] at h0
      obtain ⟨nb, hdb⟩ := by
        have h0 := hwf.depths fb (findFrame_mem hfb).1
        rwa [(findFrame_mem hfb).2] at h0
      obtain ⟨tr1, wa, heqa, hfr1, hch1, _, _, _, hcoha, _⟩ :=
        gW_spec na (tr.frames.length + 1) tr [] a hwf hda
          (by have := depth_lt_length hwf hda; omega)
          (by intro v hv; simp at hv)
      have hwf1 : WF tr1 := wf_of_struct_eq hfr1 hch1 hwf
      have hfind1 : ∀ y, tr1.findFrame y = tr.findFrame y := by
        intro y
        unfold TFTree.findFrame
        rw [hfr1]
      have hdb1 : HasDepth tr1 b nb :=
        hasDepth_transport (fun y _ => hfind1 y) hdb
      obtain ⟨tr2', wb, heqb, hfr2, hch2, _, _, _, hcohb, _⟩ :=
        gW_spec nb (tr1.frames.length + 1) tr1 [] b hwf1 hdb1
          (by rw [show tr1.frames.length = tr.frames.length from by rw [hfr1]]
              have := depth_lt_length hwf hdb; omega)
          (by intro v hv; simp at hv)
      simp only [hc1, hc2, hlca, heqa, heqb, Prod.mk.injEq] at heq
      rw [← heq.1]
      refine ⟨hfr2.trans hfr1, wf_of_struct_eq hfr2 hch2 hwf1, ?_⟩
      exact (hcohb (hcoha hco).2).2

/-- `find?` by id is unchanged by filtering out a different id. -/
theorem find?_filter_ne (l : List FrameNode) (id y : String) (hne : y ≠ id) :
    List.find? (fun f => f.id == y) (l.filter (fun f => !(f.id == id)))
      = List.find? (fun f => f.id == y) l := by
  induction l with
  | nil => rfl
  | cons g rest ih =>
    by_cases hg : g.id = id
    · have h1 : (!(g.id == id)) = false := by simp [hg]
      have h2 : (g.id == y) = false := by
        simp only [beq_eq_false_iff_ne, ne_eq]
        exact fun h => hne (h.symm.trans hg)
      rw [List.filter_cons, h1]
      simp only [Bool.false_eq_true, if_false]
      have hstep : List.find? (fun f => f.id == y) (g :: rest)
          = List.find? (fun f => f.id == y) rest := by
        simp only [List.find?, h2]
      rw [hstep]
      exact ih
    · have h1 : (!(g.id == id)) = true := by simp [hg]
      rw [List.filter_cons, h1]
      simp only [if_true]
      cases hgy : (g.id == y) with
      | true => simp only [List.find?, hgy]
      | false =>
        simp only [List.find?, hgy]
        exact ih

/-- `find?` for the filtered-out id fails. -/
theorem find?_filter_self (l : List FrameNode) (id : String) :
    List.find? (fun f => f.id == id)
      (l.filter (fun f => !(f.id == id))) = none := by
  rw [List.find?_eq_none]
  intro f hf hbeq
  rw [List.mem_filter] at hf
  have h2 := hf.2
  rw [hbeq] at h2
  simp at h2

/-- A frame with no children is an ancestor-or-self only of itself. -/
theorem ancSelf_of_leaf {tr : TFTree} {id x : String}
    (hnochild : ∀ f ∈ tr.frames, f.parentId ≠ some id)
    (h : AncSelf tr id x) : x = id := by
  rcases ancSelf_top h with rfl | ⟨c, fc, hc, hcp, _⟩
  · rfl
  · exact absurd hcp (hnochild fc (findFrame_mem hc).1)

/-- Topological ordering survives removal of a childless frame: parents of
every surviving frame still occur earlier in the filtered list (the removed
id is nobody's parent, so dropping it never removes a needed parent). -/
theorem topo_filter :
    ∀ (l : List FrameNode) (id : String) (P : List String),
    (∀ l1 f l2, l = l1 ++ f :: l2 → ∀ pid, f.parentId = some pid →
      pid ∈ P ++ l1.map FrameNode.id) →
    (∀ f ∈ l, f.parentId ≠ some id) →
    ∀ l1 f l2, l.filter (fun f => !(f.id == id)) = l1 ++ f :: l2 →
      ∀ pid, f.parentId = some pid → pid ∈ P ++ l1.map FrameNode.id := by
  intro l
  induction l with
  | nil =>
    intro id P _ _ l1 f l2 he
    simp at he
  | cons g rest ih =>
    intro id P htopo hnochild l1 f l2 he pid hpid
    have htopoR : ∀ l1 f l2, rest = l1 ++ f :: l2 →
        ∀ pid, f.parentId = some pid →
        pid ∈ (P ++ [g.id]) ++ l1.map FrameNode.id := by
      intro m1 h m2 hm q hq
      have h1 := htopo (g :: m1) h m2 (by rw [hm]; rfl) q hq
      rw [List.append_assoc]
      simpa using h1
    have hnochildR : ∀ f ∈ rest, f.parentId ≠ some id :=
      fun f hf => hnochild f (List.mem_cons_of_mem g hf)
    by_cases hg : g.id = id
    · have hfil : (g :: rest).filter (fun f => !(f.id == id))
          = rest.filter (fun f => !(f.id == id)) := by
        simp [List.filter_cons, hg]
      rw [hfil] at he
      have htopoR' : ∀ l1 f l2, rest = l1 ++ f :: l2 →
          ∀ pid, f.parentId = some pid → pid ∈ P ++ l1.map FrameNode.id := by
        intro m1 h m2 hm q hq
        have h1 := htopoR m1 h m2 hm q hq
        have hq_ne : q ≠ id := by
          intro hqid
          subst hqid
          refine hnochildR h ?_ hq
          rw [hm]
          exact List.mem_append_right _ (List.mem_cons_self h m2)
        rw [List.append_assoc] at h1
        rcases List.mem_append.mp h1 with h2 | h2
        · exact List.mem_append_left _ h2
        · have h2' : q ∈ g.id :: List.map FrameNode.id m1 := h2
          rcases List.mem_cons.mp h2' with h3 | h3
          · exact absurd (h3.trans hg) hq_ne
          · exact List.mem_append_right _ h3
      exact ih id P htopoR' hnochildR l1 f l2 he pid hpid
    · have hfil : (g :: rest).filter (fun f => !(f.id == id))
          = g :: rest.filter (fun f => !(f.id == id)) := by
        simp [List.filter_cons, hg]
      rw [hfil] at he
      cases l1 with
      | nil =>
        rw [List.nil_append] at he
        injection he with hgf _
        have h1 := htopo [] g rest rfl pid (by rw [hgf]; exact hpid)
        simpa using h1
      | cons g1 l1' =>
        injection he with hgg1 hrest
        have h1 := ih id (P ++ [g.id]) htopoR hnochildR l1' f l2 hrest pid hpid
        rw [List.append_assoc] at h1
        rw [← hgg1]
        simpa using h1

/-- Shape-level core of `removeFrame` preservation: removing a registered,
childless frame keeps the tree well-formed and the cache coherent, for
either children-map shape the operation produces. -/
theorem removeFrame_core {tr : TFTree} (hwf : WF tr) (hco : Coherent tr)
    {id : String} {f0 : FrameNode} (hfind : tr.findFrame id = some f0)
    (hnochild : ∀ f ∈ tr.frames, f.parentId ≠ some id) (tr' : TFTree)
    (hfr : tr'.frames = tr.frames.filter (fun f => !(f.id == id)))
    (hds : tr'.dirtySet = setDelete tr.dirtySet id)
    (hwc : tr'.worldTransformCache = assocDelete tr.worldTransformCache id)
    (hcm : ∀ p, assocGet tr'.childrenMap p
      = if p = id then none
        else (assocGet tr.childrenMap p).map
          (fun l => if f0.parentId = some p then setDelete l id else l)) :
    WF tr' ∧ Coherent tr' := by
  have hfind' : ∀ y, tr'.findFrame y
      = if y = id then none else tr.findFrame y := by
    intro y
    unfold TFTree.findFrame
    rw [hfr]
    by_cases hy : y = id
    · rw [if_pos hy, hy]
      exact find?_filter_self tr.frames id
    · rw [if_neg hy]
      exact find?_filter_ne tr.frames id y hy
  have hmem' : ∀ f, f ∈ tr'.frames ↔ f ∈ tr.frames ∧ f.id ≠ id := by
    intro f
    rw [hfr, List.mem_filter]
    constructor
    · rintro ⟨h1, h2⟩
      exact ⟨h1, by simpa using h2⟩
    · rintro ⟨h1, h2⟩
      exact ⟨h1, by simpa using h2⟩
  have hchain : ∀ x, x ≠ id → ∀ y, AncSelf tr y x →
      tr'.findFrame y = tr.findFrame y := by
    intro x hx y hy
    have hyne : y ≠ id := by
      intro hyid
      subst hyid
      exact hx (ancSelf_of_leaf hnochild hy)
    rw [hfind' y, if_neg hyne]
  refine ⟨⟨?_, ?_, ?_, ?_, ?_⟩, ?_⟩
  · rw [hfr]
    exact hwf.nodup.sublist ((List.filter_sublist _).map _)
  · intro f hf
    obtain ⟨hfmem, hfne⟩ := (hmem' f).mp hf
    obtain ⟨n, hdn⟩ := hwf.depths f hfmem
    exact ⟨n, hasDepth_transport (hchain f.id hfne) hdn⟩
  · intro l1 f l2 he pid hpid
    rw [hfr] at he
    have h1 := topo_filter tr.frames id []
      (fun m1 h m2 hm q hq => List.mem_append_right _ (hwf.topo m1 h m2 hm q hq))
      hnochild l1 f l2 he pid hpid
    simpa using h1
  · intro p c
    unfold TFTree.childValues
    rw [hcm p]
    by_cases hp : p = id
    · rw [if_pos hp]
      simp only [Option.getD_none]
      constructor
      · intro h
        exact absurd h (List.not_mem_nil c)
      · rintro ⟨f, hf, _, hfp⟩
        rw [hp] at hfp
        exact absurd hfp (hnochild f ((hmem' f).mp hf).1)
    · rw [if_neg hp]
      have hbase := hwf.childrenMem p c
      unfold TFTree.childValues at hbase
      cases hgm : assocGet tr.childrenMap p with
      | none =>
        rw [hgm] at hbase
        simp only [Option.map_none', Option.getD_none]
        constructor
        · intro h
          exact absurd h (List.not_mem_nil c)
        · rintro ⟨f, hf, hfc, hfp⟩
          have h1 := hbase.mpr ⟨f, ((hmem' f).mp hf).1, hfc, hfp⟩
          exact absurd h1 (List.not_mem_nil c)
      | some l =>
        rw [hgm] at hbase
        simp only [Option.getD_some] at hbase
        simp only [Option.map_some', Option.getD_some]
        by_cases hpp : f0.parentId = some p
        · rw [if_pos hpp, mem_setDelete]
          constructor
          · rintro ⟨hcl, hcne⟩
            obtain ⟨f, hf, hfc, hfp⟩ := hbase.mp hcl
            refine ⟨f, (hmem' f).mpr ⟨hf, by rw [hfc]; exact hcne⟩, hfc, hfp⟩
          · rintro ⟨f, hf, hfc, hfp⟩
            obtain ⟨hfmem, hfne⟩ := (hmem' f).mp hf
            exact ⟨hbase.mpr ⟨f, hfmem, hfc, hfp⟩, by rw [← hfc]; exact hfne⟩
        · rw [if_neg hpp]
          constructor
          · intro hcl
            obtain ⟨f, hf, hfc, hfp⟩ := hbase.mp hcl
            have hfne : f.id ≠ id := by
              intro hfe
              have h2 : tr.findFrame f.id = some f := mem_findFrame hwf.nodup hf
              rw [hfe, hfind] at h2
              injection h2 with h3
              rw [← h3] at hfp
              exact hpp hfp
            exact ⟨f, (hmem' f).mpr ⟨hf, hfne⟩, hfc, hfp⟩
          · rintro ⟨f, hf, hfc, hfp⟩
            exact hbase.mpr ⟨f, ((hmem' f).mp hf).1, hfc, hfp⟩
  · intro f hf
    obtain ⟨hfmem, hfne⟩ := (hmem' f).mp hf
    rw [hcm f.id, if_neg hfne]
    have h1 := hwf.childrenKeys f hfmem
    cases hgm : assocGet tr.childrenMap f.id with
    | none =>
      rw [hgm] at h1
      cases h1
    | some l => rfl
  · intro x U hclx hcax
    rw [hwc, assocGet_assocDelete] at hcax
    by_cases hx : x = id
    · rw [if_pos hx] at hcax
      cases hcax
    · rw [if_neg hx] at hcax
      rw [hds, contains_setDelete_ne hx] at hclx
      exact worldIs_transport (hchain x hx) (hco x U hclx hcax)

/-- Well-formedness and cache coherence hold after a successful
`removeFrame`: only a registered, childless frame can be removed, its
deletion cannot break any surviving frame's ancestor chain, and its cache
and dirty entries are dropped with it. -/
theorem removeFrame_wf_coherent {tr tr' : TFTree} (hwf : WF tr)
    (hco : Coherent tr) {id : String}
    (heq : tr.removeFrame id = (tr', none)) : WF tr' ∧ Coherent tr' := by
  cases hhas : tr.hasFrame id with
  | false =>
    have h0 : tr.removeFrame id = (tr, some (.frameNotFound id)) := by
      unfold TFTree.removeFrame
      rw [hhas]
      rfl
    rw [h0] at heq
    exact Option.noConfusion (congrArg Prod.snd heq)
  | true =>
    obtain ⟨f0, hfind⟩ := Option.isSome_iff_exists.mp (hhas : _)
    cases hany : tr.frames.any (fun f => f.parentId == some id) with
    | true =>
      have h0 : tr.removeFrame id = (tr, some (.hasChildrenErr id)) := by
        unfold TFTree.removeFrame
        rw [hhas]
        simp only [Bool.not_true, Bool.false_eq_true, if_false]
        rw [hany]
        rfl
      rw [h0] at heq
      exact Option.noConfusion (congrArg Prod.snd heq)
    | false =>
      have hnochild : ∀ f ∈ tr.frames, f.parentId ≠ some id := by
        intro f hf hfp
        exact (List.any_eq_false.mp hany f hf) (by simp [hfp])
      cases hpc : f0.parentId with
      | none =>
        have h0 : tr.removeFrame id
            = ({ tr with
                frames := tr.frames.filter (fun f => !(f.id == id)),
                worldTransformCache := assocDelete tr.worldTransformCache id,
                dirtySet := setDelete tr.dirtySet id,
                childrenMap := assocDelete tr.childrenMap id }, none) := by
          simp only [TFTree.removeFrame, hhas, Bool.not_true,
            Bool.false_eq_true, if_false, hany, hfind, Option.some_bind, hpc]
        rw [h0] at heq
        have htr : ({ tr with
            frames := tr.frames.filter (fun f => !(f.id == id)),
            worldTransformCache := assocDelete tr.worldTransformCache id,
            dirtySet := setDelete tr.dirtySet id,
            childrenMap := assocDelete tr.childrenMap id } : TFTree)
            = tr' := congrArg Prod.fst heq
        refine removeFrame_core hwf hco hfind hnochild tr'
          (by rw [← htr]) (by rw [← htr]) (by rw [← htr]) ?_
        intro p
        rw [← htr]
        show assocGet (assocDelete tr.childrenMap id) p = _
        rw [assocGet_assocDelete]
        by_cases hp : p = id
        · simp [hp]
        · simp [hp, hpc]
      | some pid0 =>
        have h0 : tr.removeFrame id
            = ({ tr with
                frames := tr.frames.filter (fun f => !(f.id == id)),
                worldTransformCache := assocDelete tr.worldTransformCache id,
                dirtySet := setDelete tr.dirtySet id,
                childrenMap :=
                  childDelete (assocDelete tr.childrenMap id) pid0 id },
              none) := by
          simp only [TFTree.removeFrame, hhas, Bool.not_true,
            Bool.false_eq_true, if_false, hany, hfind, Option.some_bind, hpc]
        rw [h0] at heq
        have htr : ({ tr with
            frames := tr.frames.filter (fun f => !(f.id == id)),
            worldTransformCache := assocDelete tr.worldTransformCache id,
            dirtySet := setDelete tr.dirtySet id,
            childrenMap :=
              childDelete (assocDelete tr.childrenMap id) pid0 id } : TFTree)
            = tr' := congrArg Prod.fst heq
        refine removeFrame_core hwf hco hfind hnochild tr'
          (by rw [← htr]) (by rw [← htr]) (by rw [← htr]) ?_
        intro p
        rw [← htr]
        show assocGet (childDelete (assocDelete tr.childrenMap id) pid0 id) p
          = _
        rw [assocGet_childDelete, assocGet_assocDelete]
        by_cases hp : p = id
        · simp [hp]
        · by_cases hpp : p = pid0
          · subst hpp
            simp [hp, hpc]
          · have hne : ¬ (f0.parentId = some p) := by
              rw [hpc]
              exact fun h => hpp (Option.some.inj h).symm
            simp [hp, hpp, hne]

/-- Trees reachable through the successful public operations modelled here:
construction, frame registration and removal, single and batch transform
updates, and (arbitrary-outcome) relative-transform queries. -/
inductive Reachable : TFTree → Prop
  | empty : Reachable TFTree.empty
  | add {tr tr' : TFTree} {id : String} {pid : Option String}
      {T : Transform} : Reachable tr →
      tr.addFrame id pid T = (tr', none) → Reachable tr'
  | upd {tr tr' : TFTree} {id : String} {T : Transform} : Reachable tr →
      tr.updateTransform id T = (tr', none) → Reachable tr'
  | batch {tr tr' : TFTree} {updates : List (String × Transform)} :
      Reachable tr → tr.updateTransforms updates = (tr', none) →
      Reachable tr'
  | remove {tr tr' : TFTree} {id : String} : Reachable tr →
      tr.removeFrame id = (tr', none) → Reachable tr'
  | query {tr tr' : TFTree} {a b : String} {r : Except TFError Transform} :
      Reachable tr → tr.getTransform a b = (tr', r) → Reachable tr'

/-- Every reachable tree is well-formed with a coherent cache. -/
theorem reachable_wf_coherent {tr : TFTree} (h : Reachable tr) :
    WF tr ∧ Coherent tr := by
  induction h with
  | empty => exact ⟨wf_empty, coherent_empty⟩
  | add _ heq ih => exact addFrame_wf_coherent ih.1 ih.2 heq
  | upd _ heq ih => exact updateTransform_wf_coherent ih.1 ih.2 heq
  | batch _ heq ih => exact updateTransforms_wf_coherent ih.1 ih.2 heq
  | remove _ heq ih => exact removeFrame_wf_coherent ih.1 ih.2 heq
  | query _ heq ih =>
    obtain ⟨_, hwf2, hco2⟩ := getTransform_preserves ih.1 ih.2 _ _ heq
    exact ⟨hwf2, hco2⟩

/-- Replaying the serialised frames of a well-formed frame list by
sequential `addFrame` succeeds and reproduces the frame list verbatim
(`fromArray` inverts `toArray` exactly over ℚ). -/
theorem fromJSONAux_replay :
    ∀ (rest done : List FrameNode) (acc : TFTree), WF acc →
    acc.frames = done → acc.worldTransformCache = [] →
    ((done ++ rest).map FrameNode.id).Nodup →
    (∀ l1 f l2, done ++ rest = l1 ++ f :: l2 →
      ∀ pid, f.parentId = some pid → pid ∈ l1.map FrameNode.id) →
    ∃ tr', TFTree.fromJSONAux acc (rest.map (fun f =>
        (⟨f.id, f.parentId,
          (f.transform.translation.x, f.transform.translation.y,
           f.transform.translation.z),
          (f.transform.rotation.x, f.transform.rotation.y,
           f.transform.rotation.z, f.transform.rotation.w)⟩ : FrameNodeJSON)))
        = (tr', none) ∧
      tr'.frames = done ++ rest ∧ WF tr' ∧ tr'.worldTransformCache = [] := by
  intro rest
  induction rest with
  | nil =>
    intro done acc hwf hfr hwc _ _
    exact ⟨acc, rfl, by rw [hfr, List.append_nil], hwf, hwc⟩
  | cons f rest' ih =>
    intro done acc hwf hfr hwc hnd htopo
    have hndsplit : (done.map FrameNode.id).Disjoint
        ((f :: rest').map FrameNode.id) := by
      rw [List.map_append, List.nodup_append] at hnd
      exact hnd.2.2
    have hid : acc.hasFrame f.id = false := by
      rw [hasFrame_eq_isSome]
      cases hf : acc.findFrame f.id with
      | none => rfl
      | some g =>
        exfalso
        have hmem := findFrame_mem hf
        rw [hfr] at hmem
        have h1 : f.id ∈ done.map FrameNode.id := by
          rw [← hmem.2]
          exact List.mem_map_of_mem FrameNode.id hmem.1
        exact hndsplit h1 (by simp)
    have hpidOK : ∀ q, f.parentId = some q → acc.hasFrame q = true := by
      intro q hq
      have h1 := htopo done f rest' rfl q hq
      rcases List.mem_map.mp h1 with ⟨g, hg, hgid⟩
      rw [← hfr] at hg
      rw [hasFrame_eq_isSome, ← hgid, mem_findFrame hwf.nodup hg]
      rfl
    obtain ⟨trA, heqA, hfrA, _, _, hwcA, hwfA⟩ :=
      addFrame_spec hwf f.parentId
        (⟨⟨f.transform.translation.x, f.transform.translation.y,
           f.transform.translation.z⟩,
          ⟨f.transform.rotation.x, f.transform.rotation.y,
           f.transform.rotation.z, f.transform.rotation.w⟩⟩ : Transform)
        hid hpidOK
    have hfrA' : trA.frames = done ++ [f] := by
      rw [hfrA, hfr]
    have hnd2 : (((done ++ [f]) ++ rest').map FrameNode.id).Nodup := by
      rw [List.append_assoc]
      exact hnd
    have htopo2 : ∀ l1 g l2, (done ++ [f]) ++ rest' = l1 ++ g :: l2 →
        ∀ pid, g.parentId = some pid → pid ∈ l1.map FrameNode.id := by
      intro l1 g l2 he pid hpid
      rw [List.append_assoc] at he
      exact htopo l1 g l2 he pid hpid
    obtain ⟨tr', heq', hfr', hwf', hwc'⟩ :=
      ih (done ++ [f]) trA hwfA hfrA' (by rw [hwcA, hwc]) hnd2 htopo2
    refine ⟨tr', ?_, ?_, hwf', hwc'⟩
    · simp only [List.map_cons, TFTree.fromJSONAux, heqA]
      exact heq'
    · rw [hfr', List.append_assoc]
      rfl

/-- `fromJSON ∘ toJSON` on a well-formed tree succeeds and rebuilds the
frame list verbatim, with an empty cache. -/
theorem fromJSON_toJSON {tr : TFTree} (hwf : WF tr) :
    ∃ trR, TFTree.fromJSON tr.toJSON = (trR, none) ∧
      trR.frames = tr.frames ∧ WF trR ∧ trR.worldTransformCache = [] := by
  obtain ⟨trR, heq, hfr, hwfR, hwcR⟩ :=
    fromJSONAux_replay tr.frames [] TFTree.empty wf_empty rfl rfl
      hwf.nodup hwf.topo
  exact ⟨trR, heq, hfr, hwfR, hwcR⟩

/-- Two well-formed, coherent trees with the same stored frames give the
same successful `getTransform` answers (world transforms are structurally
determined, and both queries run the same connectivity checks). -/
theorem getTransform_agrees {tr trR : TFTree} (hwf : WF tr)
    (hco : Coherent tr) (hwfR : WF trR) (hcoR : Coherent trR)
    (hfrR : trR.frames = tr.frames) {a b : String} {tr2 : TFTree}
    {T : Transform} (hab : tr.getTransform a b = (tr2, .ok T)) :
    ∃ tr3, trR.getTransform a b = (tr3, .ok T) := by
  have hfindR : ∀ y, trR.findFrame y = tr.findFrame y := by
    intro y
    unfold TFTree.findFrame
    rw [hfrR]
  have hlenR : trR.frames.length = tr.frames.length := by
    rw [hfrR]
  cases hA : tr.hasFrame a with
  | false =>
    simp [TFTree.getTransform, hA] at hab
  | true =>
  cases hB : tr.hasFrame b with
  | false =>
    simp [TFTree.getTransform, hA, hB] at hab
  | true =>
  have hAR : trR.hasFrame a = true := by
    rw [hasFrame_eq_isSome, hfindR a, ← hasFrame_eq_isSome]
    exact hA
  have hBR : trR.hasFrame b = true := by
    rw [hasFrame_eq_isSome, hfindR b, ← hasFrame_eq_isSome]
    exact hB
  by_cases hABeq : a = b
  · subst hABeq
    have h2 : tr.getTransform a a = (tr, .ok Transform.identity) := by
      simp [TFTree.getTransform, hA]
    rw [h2, Prod.mk.injEq] at hab
    have hT : T = Transform.identity := by
      have := hab.2
      rw [Except.ok.injEq] at this
      exact this.symm
    subst hT
    exact ⟨trR, by simp [TFTree.getTransform, hAR]⟩
  · have hABne : (a == b) = false := by
      simp [hABeq]
    simp only [TFTree.getTransform, hA, hB, hABne, Bool.not_true,
      Bool.false_eq_true, if_false] at hab
    cases hc1 : TFTree.chainToRootF tr (tr.frames.length + 1) [] (some a) with
    | error e =>
      rw [hc1] at hab
      simp at hab
    | ok fromChain =>
    cases hc2 : TFTree.chainToRootF tr (tr.frames.length + 1) [] (some b) with
    | error e =>
      simp only [hc1, hc2] at hab
      simp at hab
    | ok toChain =>
    cases hlca : fromChain.find? (fun x => toChain.contains x) with
    | none =>
      simp only [hc1, hc2, hlca] at hab
      simp at hab
    | some lca =>
    obtain ⟨fa, hfa⟩ := Option.isSome_iff_exists.mp (hA : _)
    obtain ⟨fb, hfb⟩ := Option.isSome_iff_exists.mp (hB : _)
    obtain ⟨na, hda⟩ := by
      have h0 := hwf.depths fa (findFrame_mem hfa).1
      rwa [(findFrame_mem hfa).2] at h0
    obtain ⟨nb, hdb⟩ := by
      have h0 := hwf.depths fb (findFrame_mem hfb).1
      rwa [(findFrame_mem hfb).2] at h0
    obtain ⟨tr1, wa, heqa, hfr1, hch1, _, _, _, hcoha, _⟩ :=
      gW_spec na (tr.frames.length + 1) tr [] a hwf hda
        (by have := depth_lt_length hwf hda; omega)
        (by intro v hv; simp at hv)
    have hwf1 : WF tr1 := wf_of_struct_eq hfr1 hch1 hwf
    have hfind1 : ∀ y, tr1.findFrame y = tr.findFrame y := by
      intro y
      unfold TFTree.findFrame
      rw [hfr1]
    have hdb1 : HasDepth tr1 b nb :=
      hasDepth_transport (fun y _ => hfind1 y) hdb
    obtain ⟨tr2', wb, heqb, _, _, _, _, _, hcohb, _⟩ :=
      gW_spec nb (tr1.frames.length + 1) tr1 [] b hwf1 hdb1
        (by rw [show tr1.frames.length = tr.frames.length from by rw [hfr1]]
            have := depth_lt_length hwf hdb; omega)
        (by intro v hv; simp at hv)
    simp only [hc1, hc2, hlca, heqa, heqb, Prod.mk.injEq] at hab
    have hT : T = wa.invert.compose wb := by
      have := hab.2
      rw [Except.ok.injEq] at this
      exact this.symm
    obtain ⟨hwa, hco1⟩ := hcoha hco
    obtain ⟨hwb1, _⟩ := hcohb hco1
    have hwb : WorldIs tr b wb :=
      worldIs_transport (fun y _ => (hfind1 y).symm) hwb1
    -- the replayed tree runs the same checks and computes the same worlds
    have hc1R : TFTree.chainToRootF trR (trR.frames.length + 1) [] (some a)
        = .ok fromChain := by
      rw [chainToRootF_congr hfindR, hlenR, hc1]
    have hc2R : TFTree.chainToRootF trR (trR.frames.length + 1) [] (some b)
        = .ok toChain := by
      rw [chainToRootF_congr hfindR, hlenR, hc2]
    have hdaR : HasDepth trR a na :=
      hasDepth_transport (fun y _ => hfindR y) hda
    have hdbR : HasDepth trR b nb :=
      hasDepth_transport (fun y _ => hfindR y) hdb
    obtain ⟨trR1, waR, heqaR, hfrR1, hchR1, _, _, _, hcohaR, _⟩ :=
      gW_spec na (trR.frames.length + 1) trR [] a hwfR hdaR
        (by rw [hlenR]; have := depth_lt_length hwf hda; omega)
        (by intro v hv; simp at hv)
    have hwfR1 : WF trR1 := wf_of_struct_eq hfrR1 hchR1 hwfR
    have hfindR1 : ∀ y, trR1.findFrame y = trR.findFrame y := by
      intro y
      unfold TFTree.findFrame
      rw [hfrR1]
    have hdbR1 : HasDepth trR1 b nb :=
      hasDepth_transport (fun y _ => hfindR1 y) hdbR
    obtain ⟨trR2, wbR, heqbR, _, _, _, _, _, hcohbR, _⟩ :=
      gW_spec nb (trR1.frames.length + 1) trR1 [] b hwfR1 hdbR1
        (by rw [show trR1.frames.length = trR.frames.length from by
              rw [hfrR1]]
            rw [hlenR]
            have := depth_lt_length hwf hdb; omega)
        (by intro v hv; simp at hv)
    obtain ⟨hwaR, hcoR1⟩ := hcohaR hcoR
    obtain ⟨hwbR1, _⟩ := hcohbR hcoR1
    have hwaR' : WorldIs tr a waR :=
      worldIs_transport (fun y _ => (hfindR y).symm) hwaR
    have hwbR' : WorldIs tr b wbR :=
      worldIs_transport (fun y _ => (hfindR y).symm)
        (worldIs_transport (fun y _ => (hfindR1 y).symm) hwbR1)
    have hwaEq : waR = wa := worldIs_functional hwaR' hwa
    have hwbEq : wbR = wb := worldIs_functional hwbR' hwb
    refine ⟨trR2, ?_⟩
    have hout : trR.getTransform a b = (trR2, .ok (waR.invert.compose wbR)) := by
      simp only [TFTree.getTransform, hAR, hBR, hABne, Bool.not_true,
        Bool.false_eq_true, if_false, hc1R, hc2R, hlca, heqaR, heqbR]
    rw [hout, hT, hwaEq, hwbEq]

/-- C6 (amended): serialisation round trip on trees built by successful
public operations.  For every tree reachable through successful `addFrame`,
`updateTransform`, `updateTransforms` and `removeFrame` calls and
(arbitrary-outcome) `getTransform` queries, `fromJSON(toJSON(tree))`
succeeds, the rebuilt tree
lists the same frame ids in the same insertion order, and every
`getTransform(a, b)` query that succeeds on the original succeeds on the
rebuilt tree with exactly the same transform. -/
theorem C6_roundtrip_amended {tr : TFTree} (hreach : Reachable tr) :
    ∃ trR, TFTree.fromJSON tr.toJSON = (trR, none) ∧
      trR.frameIds = tr.frameIds ∧
      ∀ (a b : String) (tr2 : TFTree) (T : Transform),
        tr.getTransform a b = (tr2, .ok T) →
        ∃ tr3, trR.getTransform a b = (tr3, .ok T) := by
  obtain ⟨hwf, hco⟩ := reachable_wf_coherent hreach
  obtain ⟨trR, heq, hfrR, hwfR, hwcR⟩ := fromJSON_toJSON hwf
  have hcoR : Coherent trR := by
    intro x U _ hc
    rw [hwcR] at hc
    cases hc
  refine ⟨trR, heq, ?_, ?_⟩
  · unfold TFTree.frameIds
    rw [hfrR]
  · intro a b tr2 T hab
    exact getTransform_agrees hwf hco hwfR hcoR hfrR hab

/-- The amended round-trip property instantiated on the concrete reachable
tree with the single root frame "w". -/
theorem C6_roundtrip_amended_witness :
    ∃ trR, TFTree.fromJSON (TFTree.empty.addFrame "w" none
        Transform.identity).1.toJSON = (trR, none) ∧
      trR.frameIds = (TFTree.empty.addFrame "w" none
        Transform.identity).1.frameIds ∧
      ∀ (a b : String) (tr2 : TFTree) (T : Transform),
        (TFTree.empty.addFrame "w" none
          Transform.identity).1.getTransform a b = (tr2, .ok T) →
        ∃ tr3, trR.getTransform a b = (tr3, .ok T) :=
  C6_roundtrip_amended (@Reachable.add TFTree.empty
    (TFTree.empty.addFrame "w" none Transform.identity).1 "w" none
    Transform.identity Reachable.empty (by rfl))
